import Mathlib

/-!
# gopar: PAR1 volume codec, PAR1 encoder and Reed–Solomon coder

A shallow embedding of the Go sources of gopar (`par1/volume.go`,
`par1/file_entry.go`, `par1/encoder.go`, `par1/decoder.go`, `cmd/par/main.go`)
together with theorems about them.

Conventions.
* A Go `[]byte` and a Go `string` are lists of naturals, each below 256.
* Unsigned machine integers are naturals with an explicit `% 2 ^ w` where the
  source can wrap around.
* A Go function returning `(T, error)` returns `Except String T`, the string
  being the message of the Go error.
* A `*bytes.Buffer` is the list of its unread bytes; a function reading from
  one returns the bytes left unread next to its result.
-/

namespace Gopar

/-! ## Bytes and little-endian integers (`encoding/binary`) -/

/-- A Go byte slice (or string): every element is meant to be below 256. -/
abbrev Bytes := List Nat

/-- Every element of the list is a byte. -/
def isBytes (bs : Bytes) : Prop := ∀ b ∈ bs, b < 256

instance (bs : Bytes) : Decidable (isBytes bs) := by
  unfold isBytes; infer_instance

/-- The `w` little-endian bytes of `n` (`binary.LittleEndian.PutUintN`): the
value is truncated to `w` bytes. -/
def putLE : Nat → Nat → Bytes
  | 0, _ => []
  | w + 1, n => n % 256 :: putLE w (n / 256)

/-- The unsigned integer held little-endian in a byte list
(`binary.LittleEndian.UintN`). -/
def getLE : Bytes → Nat
  | [] => 0
  | b :: bs => b + 256 * getLE bs

/-! ## UTF-8 and UTF-16 (`unicode/utf8`, `unicode/utf16`) -/

/-- The replacement character U+FFFD (`utf8.RuneError`, `utf16.replacementChar`). -/
def runeError : Nat := 0xFFFD

/-- The largest Unicode code point (`utf8.MaxRune`). -/
def maxRune : Nat := 0x10FFFF

/-- First code unit of the high surrogates (`surr1` of `unicode/utf16`). -/
def surr1 : Nat := 0xd800

/-- First code unit of the low surrogates (`surr2`). -/
def surr2 : Nat := 0xdc00

/-- First code unit after the surrogates (`surr3`). -/
def surr3 : Nat := 0xe000

/-- First code point outside the BMP (`surrSelf`). -/
def surrSelf : Nat := 0x10000

/-- A continuation byte of UTF-8: `10xxxxxx`. -/
def isCont (b : Nat) : Bool := decide (0x80 ≤ b) && decide (b ≤ 0xBF)

/-- `utf8.DecodeRuneInString`: the first rune of a string and its width in
bytes; `(RuneError, 1)` for an invalid or truncated encoding and
`(RuneError, 0)` for the empty string. Masks and shifts are written as
remainders and products: `b & 0x3F = b % 64`, `x << 6 = x * 64`, and the
or-ed bit fields are disjoint. -/
def utf8DecodeRune : Bytes → Nat × Nat
  | [] => (runeError, 0)
  | b0 :: rest =>
    if b0 < 0x80 then (b0, 1)
    else if 0xC2 ≤ b0 ∧ b0 ≤ 0xDF then
      match rest with
      | b1 :: _ =>
        if isCont b1 then (b0 % 32 * 64 + b1 % 64, 2) else (runeError, 1)
      | [] => (runeError, 1)
    else if 0xE0 ≤ b0 ∧ b0 ≤ 0xEF then
      match rest with
      | b1 :: b2 :: _ =>
        if (if b0 = 0xE0 then 0xA0 else 0x80) ≤ b1 ∧
            b1 ≤ (if b0 = 0xED then 0x9F else 0xBF) ∧ isCont b2 then
          (b0 % 16 * 4096 + b1 % 64 * 64 + b2 % 64, 3)
        else (runeError, 1)
      | _ => (runeError, 1)
    else if 0xF0 ≤ b0 ∧ b0 ≤ 0xF4 then
      match rest with
      | b1 :: b2 :: b3 :: _ =>
        if (if b0 = 0xF0 then 0x90 else 0x80) ≤ b1 ∧
            b1 ≤ (if b0 = 0xF4 then 0x8F else 0xBF) ∧ isCont b2 ∧ isCont b3 then
          (b0 % 8 * 262144 + b1 % 64 * 4096 + b2 % 64 * 64 + b3 % 64, 4)
        else (runeError, 1)
      | _ => (runeError, 1)
    else (runeError, 1)

/-- The runes of a string as `for _, r := range s` and `[]rune(s)` produce
them, with a bound on the number of steps. -/
def runesAux : Nat → Bytes → List Nat
  | 0, _ => []
  | _ + 1, [] => []
  | fuel + 1, b :: bs =>
    (utf8DecodeRune (b :: bs)).1 ::
      runesAux fuel ((b :: bs).drop (utf8DecodeRune (b :: bs)).2)

/-- The conversion `[]rune(s)`: every step consumes at least one byte, so
`s.length` steps are enough. -/
def stringRunes (s : Bytes) : List Nat := runesAux s.length s

/-- The check `utf8.ValidString` with a bound on the number of steps: no step
of the decoding meets an invalid or truncated encoding. -/
def validAux : Nat → Bytes → Bool
  | _, [] => true
  | 0, _ :: _ => false
  | fuel + 1, b :: bs =>
    !(decide ((utf8DecodeRune (b :: bs)).2 = 1) && decide (0x80 ≤ b)) &&
      validAux fuel ((b :: bs).drop (utf8DecodeRune (b :: bs)).2)

/-- The check `utf8.ValidString`. -/
def validUTF8 (s : Bytes) : Bool := validAux s.length s

/-- `utf8.EncodeRune`: the UTF-8 bytes of a rune; surrogates and values above
`MaxRune` are written as U+FFFD. -/
def utf8EncodeRune (r : Nat) : Bytes :=
  if r ≤ 0x7F then [r]
  else if r ≤ 0x7FF then [0xC0 + r / 64, 0x80 + r % 64]
  else if maxRune < r ∨ (0xD800 ≤ r ∧ r ≤ 0xDFFF) then
    [0xE0 + runeError / 4096, 0x80 + runeError / 64 % 64, 0x80 + runeError % 64]
  else if r ≤ 0xFFFF then [0xE0 + r / 4096, 0x80 + r / 64 % 64, 0x80 + r % 64]
  else [0xF0 + r / 262144, 0x80 + r / 4096 % 64, 0x80 + r / 64 % 64, 0x80 + r % 64]

/-- `utf16.Encode`: one code unit for a BMP rune that is not a surrogate, a
surrogate pair for a rune from `surrSelf` to `MaxRune`, U+FFFD otherwise. -/
def utf16Encode : List Nat → List Nat
  | [] => []
  | v :: rest =>
    if v < surr1 ∨ (surr3 ≤ v ∧ v < surrSelf) then v :: utf16Encode rest
    else if surrSelf ≤ v ∧ v ≤ maxRune then
      (surr1 + (v - surrSelf) / 1024 % 1024) :: (surr2 + (v - surrSelf) % 1024) ::
        utf16Encode rest
    else runeError :: utf16Encode rest

/-- `utf16.Decode`: a high surrogate followed by a low surrogate gives one
rune, any other surrogate gives U+FFFD. -/
def utf16Decode : List Nat → List Nat
  | [] => []
  | r :: rest =>
    if r < surr1 ∨ surr3 ≤ r then r :: utf16Decode rest
    else
      match rest with
      | r2 :: rest2 =>
        if surr1 ≤ r ∧ r < surr2 ∧ surr2 ≤ r2 ∧ r2 < surr3 then
          ((r - surr1) * 1024 + (r2 - surr2) + surrSelf) :: utf16Decode rest2
        else runeError :: utf16Decode (r2 :: rest2)
      | [] => [runeError]

/-- A Unicode scalar value: a code point that is not a surrogate. -/
def isScalar (r : Nat) : Prop := r < 0xD800 ∨ (0xE000 ≤ r ∧ r ≤ 0x10FFFF)

/-! ## File entries (`par1/file_entry.go`) -/

/-- The 16-bit units of a byte slice, as the first loop of
`decodeUTF16LEString` reads them: `len(bs)/2` units, low byte first. -/
def u16sOfBytes : Bytes → List Nat
  | b0 :: b1 :: rest => (b0 + (b1 <<< 8) % 65536) % 65536 :: u16sOfBytes rest
  | _ => []

/-- `decodeUTF16LEString` of `par1/file_entry.go`. -/
def decodeUTF16LEString (bs : Bytes) : Bytes :=
  ((utf16Decode (u16sOfBytes bs)).map utf8EncodeRune).flatten

/-- Modelled from the spec: `encodeUTF16LEString` is called by the tests but
its body is not among the sources. "Filename is UTF-16LE encoded without BOM":
the runes of the string, encoded by `utf16.Encode`, each unit written low byte
first. -/
def encodeUTF16LEString (s : Bytes) : Bytes :=
  ((utf16Encode (stringRunes s)).map (putLE 2)).flatten

/-- The fixed part of a file entry (`fileEntryHeader`): three `uint64` fields
and two `[16]byte` arrays. -/
structure fileEntryHeader where
  EntryBytes : Nat
  Status : Nat
  FileBytes : Nat
  Hash : Bytes
  SixteenKHash : Bytes
  deriving DecidableEq, Repr

/-- A file entry (`fileEntry`). -/
structure fileEntry where
  header : fileEntryHeader
  filename : Bytes
  deriving DecidableEq, Repr

/-- The value of `reflect.TypeOf(fileEntryHeader{}).Size()`: 8 + 8 + 8 + 16 + 16. -/
def fileEntryHeaderSize : Nat := 56

/-- The call `binary.Read(buf, binary.LittleEndian, &header)` for a
`fileEntryHeader`: 56 bytes are taken from the buffer; `io.EOF` when the
buffer is empty and `io.ErrUnexpectedEOF` when it is too short. -/
def readFileEntryHeader (buf : Bytes) : Except String (fileEntryHeader × Bytes) :=
  if buf.length = 0 then .error "EOF"
  else if buf.length < fileEntryHeaderSize then .error "unexpected EOF"
  else .ok ({ EntryBytes := getLE (buf.take 8)
              Status := getLE ((buf.drop 8).take 8)
              FileBytes := getLE ((buf.drop 16).take 8)
              Hash := (buf.drop 24).take 16
              SixteenKHash := (buf.drop 40).take 16 }, buf.drop fileEntryHeaderSize)

/-- `readFileEntry` of `par1/file_entry.go`. The subtraction is the `uint64`
one and wraps around; `buf.Len()` is a non-negative `int`, so `uint64(buf.Len())`
is the length of the unread part. -/
def readFileEntry (buf : Bytes) : Except String (fileEntry × Bytes) :=
  match readFileEntryHeader buf with
  | .error err => .error err
  | .ok (header, buf) =>
    let filenameByteCount := (header.EntryBytes + 2 ^ 64 - fileEntryHeaderSize) % 2 ^ 64
    if filenameByteCount ≤ 0 ∨ filenameByteCount % 2 ≠ 0 then
      .error "invalid entry byte count"
    else if filenameByteCount > buf.length then
      .error "byte count mismatch"
    else
      .ok ({ header := header
             filename := decodeUTF16LEString (buf.take filenameByteCount) },
        buf.drop filenameByteCount)

/-- Modelled from the spec: `writeFileEntry` is called by `writeVolume` and by
the tests but its body is not among the sources. "File entry:
`entryBytes(LE64), status(LE64), fileBytes(LE64), md5[16], sixteenKHash[16]`,
filename"; "Filename is UTF-16LE encoded without BOM"; "`EntryBytes` set by
the writer equals the length of the serialized entry". -/
def writeFileEntry (entry : fileEntry) : Except String Bytes :=
  let filenameBytes := encodeUTF16LEString entry.filename
  let entryBytes := (fileEntryHeaderSize + filenameBytes.length) % 2 ^ 64
  .ok (putLE 8 entryBytes ++ putLE 8 entry.header.Status ++ putLE 8 entry.header.FileBytes ++
    entry.header.Hash ++ entry.header.SixteenKHash ++ filenameBytes)

/-- The values of the Go type `fileEntry`: the `uint64` fields are below `2 ^ 64`,
the `[16]byte` arrays hold 16 bytes, and the filename is short enough for the
serialized entry to be a Go slice. -/
def fileEntry.Typed (e : fileEntry) : Prop :=
  e.header.Status < 2 ^ 64 ∧ e.header.FileBytes < 2 ^ 64 ∧ e.header.Hash.length = 16 ∧
    e.header.SixteenKHash.length = 16 ∧ e.filename.length < 2 ^ 60

instance (e : fileEntry) : Decidable e.Typed := by
  unfold fileEntry.Typed; infer_instance

/-- An entry as the writer stores it: `EntryBytes` is the length of the
serialized entry, 56 bytes and the UTF-16LE filename. -/
def fileEntry.written (e : fileEntry) : fileEntry :=
  { e with header := { e.header with
      EntryBytes := fileEntryHeaderSize + (encodeUTF16LEString e.filename).length } }

/-! ## Volume header

`par1/header.go` is not among the sources; the names `header`, `readHeader`,
`writeHeader`, `expectedID`, `expectedVersion` and the fields `ID`,
`VersionNumber`, `ControlHash`, `VolumeNumber`, `FileCount` are those used by
`par1/volume.go`, `par1/encoder.go` and `par1/decoder.go`. -/

/-- Modelled from the spec: the type `header` is missing; this is the 96-byte
record of the on-disk layout: magic[8], versionNumber(LE32), clientVersion(LE32),
controlHash[16], setHash[16], volumeNumber, fileCount, fileListOffset,
fileListBytes, dataOffset, dataBytes (LE64 each). -/
structure header where
  ID : Bytes
  VersionNumber : Nat
  ClientVersion : Nat
  ControlHash : Bytes
  SetHash : Bytes
  VolumeNumber : Nat
  FileCount : Nat
  FileListOffset : Nat
  FileListBytes : Nat
  DataOffset : Nat
  DataBytes : Nat
  deriving DecidableEq, Repr

/-- Modelled from the spec: the constant `expectedID` is missing; the magic
is `"PAR\0\0\0\0\0"`. -/
def expectedID : Bytes := [0x50, 0x41, 0x52, 0, 0, 0, 0, 0]

/-- Modelled from the spec: the constant `expectedVersion` is missing; the
version is `0x00000900`. -/
def expectedVersion : Nat := 0x00000900

/-- The size of the serialized header. -/
def headerSize : Nat := 96

/-- Modelled from the spec: `writeHeader` is missing; "Serialize header": the
fields in the order of the on-disk layout, integers little-endian. -/
def writeHeader (h : header) : Except String Bytes :=
  .ok (h.ID ++ putLE 4 h.VersionNumber ++ putLE 4 h.ClientVersion ++ h.ControlHash ++
    h.SetHash ++ putLE 8 h.VolumeNumber ++ putLE 8 h.FileCount ++ putLE 8 h.FileListOffset ++
    putLE 8 h.FileListBytes ++ putLE 8 h.DataOffset ++ putLE 8 h.DataBytes)

/-- Modelled from the spec: `readHeader` is missing; "Parse header (fixed
layout, little-endian)", rejecting a wrong magic or version. It takes 96 bytes
from the buffer. -/
def readHeader (buf : Bytes) : Except String (header × Bytes) :=
  if buf.length = 0 then .error "EOF"
  else if buf.length < headerSize then .error "unexpected EOF"
  else
    let h : header :=
      { ID := buf.take 8
        VersionNumber := getLE ((buf.drop 8).take 4)
        ClientVersion := getLE ((buf.drop 12).take 4)
        ControlHash := (buf.drop 16).take 16
        SetHash := (buf.drop 32).take 16
        VolumeNumber := getLE ((buf.drop 48).take 8)
        FileCount := getLE ((buf.drop 56).take 8)
        FileListOffset := getLE ((buf.drop 64).take 8)
        FileListBytes := getLE ((buf.drop 72).take 8)
        DataOffset := getLE ((buf.drop 80).take 8)
        DataBytes := getLE ((buf.drop 88).take 8) }
    if h.ID ≠ expectedID then .error "unexpected ID string"
    else if h.VersionNumber ≠ expectedVersion then .error "unexpected version"
    else .ok (h, buf.drop headerSize)

/-- The values of the Go type `header`. -/
def header.Typed (h : header) : Prop :=
  h.ID.length = 8 ∧ h.VersionNumber < 2 ^ 32 ∧ h.ClientVersion < 2 ^ 32 ∧
    h.ControlHash.length = 16 ∧ h.SetHash.length = 16 ∧ h.VolumeNumber < 2 ^ 64 ∧
    h.FileCount < 2 ^ 64 ∧ h.FileListOffset < 2 ^ 64 ∧ h.FileListBytes < 2 ^ 64 ∧
    h.DataOffset < 2 ^ 64 ∧ h.DataBytes < 2 ^ 64

instance (h : header) : Decidable h.Typed := by
  unfold header.Typed; infer_instance

/-- The serialized header. -/
def headerBytes (h : header) : Bytes :=
  h.ID ++ putLE 4 h.VersionNumber ++ putLE 4 h.ClientVersion ++ h.ControlHash ++
    h.SetHash ++ putLE 8 h.VolumeNumber ++ putLE 8 h.FileCount ++ putLE 8 h.FileListOffset ++
    putLE 8 h.FileListBytes ++ putLE 8 h.DataOffset ++ putLE 8 h.DataBytes

/-! ## Volumes (`par1/volume.go`) -/

/-- The function `md5.Sum` of `crypto/md5`, taken as a parameter: a function
from byte strings to 16-byte digests. -/
structure HashFn where
  sum : Bytes → Bytes
  sum_length : ∀ bs, (sum bs).length = 16

/-- A volume (`volume`): header, file entries and payload. -/
structure volume where
  header : header
  entries : List fileEntry
  data : Bytes
  deriving DecidableEq, Repr

/-- The constant `controlHashOffset`. -/
def controlHashOffset : Nat := 0x20

/-- The loop of `readVolume` over `i < header.FileCount`: it reads `count`
entries one after the other and stops at the first error. -/
def readFileEntries : Nat → Bytes → Except String (List fileEntry × Bytes)
  | 0, buf => .ok ([], buf)
  | count + 1, buf =>
    match readFileEntry buf with
    | .error err => .error err
    | .ok (entry, buf) =>
      match readFileEntries count buf with
      | .error err => .error err
      | .ok (entries, buf) => .ok (entry :: entries, buf)

/-- `readVolume` of `par1/volume.go`. The slice `volumeBytes[controlHashOffset:]`
is taken after `readHeader` has succeeded, so at least 96 bytes are there;
`ioutil.ReadAll(buf)` returns the unread bytes. The allocation
`make([]fileEntry, header.FileCount)` is not represented: for a `FileCount` too
large to allocate the Go function panics, where this one returns the error of
the first entry that cannot be read. -/
def readVolume (md5 : HashFn) (volumeBytes : Bytes) : Except String volume :=
  match readHeader volumeBytes with
  | .error err => .error err
  | .ok (header, buf) =>
    let controlHash := md5.sum (volumeBytes.drop controlHashOffset)
    if controlHash ≠ header.ControlHash then .error "invalid control hash"
    else
      match readFileEntries header.FileCount buf with
      | .error err => .error err
      | .ok (entries, buf) => .ok { header := header, entries := entries, data := buf }

/-- The loop of `writeVolume` over `v.entries`: the serialized entries one
after the other, stopping at the first error. -/
def writeFileEntries : List fileEntry → Except String Bytes
  | [] => .ok []
  | entry :: entries =>
    match writeFileEntry entry with
    | .error err => .error err
    | .ok fileEntryData =>
      match writeFileEntries entries with
      | .error err => .error err
      | .ok restData => .ok (fileEntryData ++ restData)

/-- `writeVolume` of `par1/volume.go`. -/
def writeVolume (md5 : HashFn) (v : volume) : Except String Bytes :=
  match writeHeader v.header with
  | .error err => .error err
  | .ok headerData =>
    match writeFileEntries v.entries with
    | .error err => .error err
    | .ok entriesData =>
      let restData := entriesData ++ v.data
      let header :=
        { v.header with
          ControlHash := md5.sum (headerData.drop controlHashOffset ++ restData) }
      match writeHeader header with
      | .error err => .error err
      | .ok headerData => .ok (headerData ++ restData)

/-- The values of the Go type `volume`. -/
def volume.Typed (v : volume) : Prop :=
  v.header.Typed ∧ ∀ e ∈ v.entries, e.Typed

instance (v : volume) : Decidable v.Typed := by
  unfold volume.Typed; infer_instance

/-- The bytes `writeVolume` gives for a volume whose entries serialize to `bs`. -/
def writtenBytes (md5 : HashFn) (v : volume) (bs : Bytes) : Bytes :=
  headerBytes { v.header with
    ControlHash := md5.sum ((headerBytes v.header).drop controlHashOffset ++ (bs ++ v.data)) }
    ++ (bs ++ v.data)

/-- A 16-byte checksum, used where a theorem is applied to a concrete `HashFn`. -/
def sumHash : HashFn :=
  ⟨fun bs => List.replicate 16 (bs.sum % 256), fun _ => List.length_replicate _ _⟩

/-- A volume whose only entry has the one-byte filename `"\xff"`, which is not UTF-8. -/
def badVolume : volume :=
  { header :=
      { ID := expectedID, VersionNumber := expectedVersion, ClientVersion := 0,
        ControlHash := List.replicate 16 0, SetHash := List.replicate 16 0, VolumeNumber := 0,
        FileCount := 1, FileListOffset := 0, FileListBytes := 0, DataOffset := 0,
        DataBytes := 0 }
    entries := [⟨⟨0, 0, 0, List.replicate 16 0, List.replicate 16 0⟩, [0xFF]⟩]
    data := [] }

/-- A volume with two entries, named `"a.r"` and `"世😀"`, and a four-byte payload. -/
def goodVolume : volume :=
  { header :=
      { ID := expectedID, VersionNumber := expectedVersion, ClientVersion := 0,
        ControlHash := List.replicate 16 0, SetHash := List.replicate 16 0, VolumeNumber := 1,
        FileCount := 2, FileListOffset := 0, FileListBytes := 0, DataOffset := 0,
        DataBytes := 0 }
    entries := [⟨⟨0, 0, 3, List.replicate 16 1, List.replicate 16 2⟩, [0x61, 0x2E, 0x72]⟩,
      ⟨⟨0, 0, 4, List.replicate 16 3, List.replicate 16 4⟩,
        [0xE4, 0xB8, 0x96, 0xF0, 0x9F, 0x98, 0x80]⟩]
    data := [1, 2, 3, 4] }

/-! ## Paths and formatting (`path`, `path/filepath`, `fmt`) -/

/-- The extension of a path (`path.Ext`): the suffix beginning at the final dot in
the final slash-separated element, empty if there is no dot. The argument of
`extRev` is the path from its last byte backwards, next to the bytes already
passed. -/
def extRev : Bytes → Bytes → Bytes
  | [], _ => []
  | c :: rest, acc =>
    if c = 0x2F then [] else if c = 0x2E then c :: acc else extRev rest (c :: acc)

/-- The function `path.Ext`. -/
def pathExt (path : Bytes) : Bytes := extRev path.reverse []

/-- The function `filepath.Base` with `/` as the separator: the last element of the
path, after removing trailing slashes; `"."` for the empty path and `"/"` for a
path of slashes only. -/
def filepathBase (path : Bytes) : Bytes :=
  if path = [] then [0x2E]
  else
    let last := ((path.reverse.dropWhile (fun c => c == 0x2F)).takeWhile
      (fun c => c != 0x2F)).reverse
    if last = [] then [0x2F] else last

/-- The decimal digits of a number as `%02d` of `fmt.Sprintf` prints them: at
least two digits, padded with a zero on the left. -/
def fmt02d (n : Nat) : Bytes :=
  if n < 10 then [0x30, 0x30 + n] else (Nat.toDigits 10 n).map Char.toNat

/-- The bytes of a string of ASCII characters. -/
def ascii (s : String) : Bytes := s.data.map Char.toNat

/-! ## Encoder (`par1/encoder.go`) -/

/-- The file system as the encoder sees it (`fileIO`): `ReadFile` gives the
content of a file or an error, `WriteFile` gives the error of a write, if any. -/
structure fileIO where
  ReadFile : Bytes → Except String Bytes
  WriteFile : Bytes → Bytes → Option String

/-- What the encoder does to the outside world, in order: calls of
`fileIO.ReadFile` and `fileIO.WriteFile` and calls of the delegate
(`EncoderDelegate`). -/
inductive Event where
  | readFile (path : Bytes)
  | onDataFileLoad (path : Bytes) (err : Option String)
  | writeFile (path : Bytes) (data : Bytes)
  | onVolumeFileWrite (path : Bytes) (err : Option String)
  deriving DecidableEq, Repr

/-- The state of an `Encoder`. The delegate is represented by the events it
receives. `volumeCount` and `shardByteCount` are Go `int`s. -/
structure Encoder where
  fileIO : fileIO
  filePaths : List Bytes
  volumeCount : Int
  shardByteCount : Int
  fileData : List Bytes
  parityData : List Bytes

/-- `newEncoder` of `par1/encoder.go`: no argument is checked. -/
def newEncoder (io : fileIO) (filePaths : List Bytes) (volumeCount : Int) :
    Except String Encoder :=
  .ok { fileIO := io, filePaths := filePaths, volumeCount := volumeCount,
        shardByteCount := 0, fileData := [], parityData := [] }

/-- The loop of `Encoder.LoadFileData` over `e.filePaths`, from the state
`(shardByteCount, fileData)` reached so far: the read files in order and the
largest length, or the first read error; next to it the events caused. -/
def loadFileDataLoop (io : fileIO) :
    List Bytes → Int → List Bytes → Except String (Int × List Bytes) × List Event
  | [], shardByteCount, fileData => (.ok (shardByteCount, fileData), [])
  | path :: rest, shardByteCount, fileData =>
    match io.ReadFile path with
    | .error err => (.error err, [.readFile path, .onDataFileLoad path (some err)])
    | .ok data =>
      let r := loadFileDataLoop io rest
        (if (data.length : Int) > shardByteCount then data.length else shardByteCount)
        (fileData ++ [data])
      (r.1, [.readFile path, .onDataFileLoad path none] ++ r.2)

/-- `Encoder.LoadFileData`: the new state, the returned error and the events. -/
def Encoder.LoadFileData (e : Encoder) : Encoder × Option String × List Event :=
  match loadFileDataLoop e.fileIO e.filePaths 0 [] with
  | (.error err, log) => (e, some err, log)
  | (.ok (shardByteCount, fileData), log) =>
    ({ e with shardByteCount := shardByteCount, fileData := fileData }, none, log)

/-- The call `make([]byte, n)`: `n` zero bytes; it panics (`none`) for a negative `n`. -/
def makeBytes (n : Int) : Option Bytes :=
  if n < 0 then none else some (List.replicate n.toNat 0)

/-- The assignment `shards[i] = s`; it panics (`none`) when `i` is out of range. -/
def setShard (shards : List Bytes) (i : Nat) (s : Bytes) : Option (List Bytes) :=
  if i < shards.length then some (shards.set i s) else none

/-- The first loop of `buildShards`, from index `i` on. -/
def dataShardsLoop (shardByteCount : Int) : List Bytes → Nat → List Bytes → Option (List Bytes)
  | [], _, shards => some shards
  | data :: rest, i, shards =>
    match makeBytes (shardByteCount - data.length) with
    | none => none
    | some padding =>
      match setShard shards i (data ++ padding) with
      | none => none
      | some shards => dataShardsLoop shardByteCount rest (i + 1) shards

/-- The second loop of `buildShards`: `count` more iterations from index `i` on,
writing at `base + i`. -/
def parityShardsLoop (shardByteCount : Int) (base : Nat) :
    Nat → Nat → List Bytes → Option (List Bytes)
  | 0, _, shards => some shards
  | count + 1, i, shards =>
    match makeBytes shardByteCount with
    | none => none
    | some zeros =>
      match setShard shards (base + i) zeros with
      | none => none
      | some shards => parityShardsLoop shardByteCount base count (i + 1) shards

/-- `Encoder.buildShards`; `none` is a run-time panic (a negative length given to
`make`, or an index out of range). -/
def Encoder.buildShards (e : Encoder) : Option (List Bytes) :=
  if (e.fileData.length : Int) + e.volumeCount < 0 then none
  else
    match dataShardsLoop e.shardByteCount e.fileData 0
        (List.replicate ((e.fileData.length : Int) + e.volumeCount).toNat []) with
    | none => none
    | some shards =>
      parityShardsLoop e.shardByteCount e.fileData.length e.volumeCount.toNat 0 shards

/-- The coder of `github.com/klauspost/reedsolomon` built with
`reedsolomon.New(dataShards, parityShards, reedsolomon.WithPAR1Matrix())`, taken
as a parameter. `New` gives the error of the constructor, if any; `Encode` gives
the shards as `rs.Encode(shards)` leaves them; `Verify` is `rs.Verify(shards)`.
The two laws are the documented contract of the library: `Encode` fills in the
parity shards and changes no data shard, and freshly encoded shards verify. -/
structure ReedSolomon where
  New : Int → Int → Option String
  Encode : Int → Int → List Bytes → Except String (List Bytes)
  Verify : Int → Int → List Bytes → Except String Bool
  encode_data : ∀ (d : Nat) (p : Int) (shards out : List Bytes),
    Encode d p shards = .ok out → out.length = shards.length ∧ out.take d = shards.take d
  verify_encode : ∀ (d : Nat) (p : Int) (shards out : List Bytes),
    Encode d p shards = .ok out → Verify d p out = .ok true

/-- `Encoder.ComputeParityData`: the new state and the returned error; `none` is a
run-time panic of `buildShards`. -/
def Encoder.ComputeParityData (rs : ReedSolomon) (e : Encoder) :
    Option (Encoder × Option String) :=
  match e.buildShards with
  | none => none
  | some shards =>
    match rs.New e.fileData.length e.volumeCount with
    | some err => some (e, some err)
    | none =>
      match rs.Encode e.fileData.length e.volumeCount shards with
      | .error err => some (e, some err)
      | .ok shards => some ({ e with parityData := shards.drop e.fileData.length }, none)

/-- The entry that `Encoder.Write` makes for the path `k` of a file with content
`data`: only `FileBytes` and the filename are set (`uint64(len(data))` is the
length, `filepath.Base(k)` the filename), the hashes are left zero. -/
def entryOf (k data : Bytes) : fileEntry :=
  { header :=
      { EntryBytes := 0, Status := 0, FileBytes := data.length,
        Hash := List.replicate 16 0, SixteenKHash := List.replicate 16 0 }
    filename := filepathBase k }

/-- The first loop of `Encoder.Write`: one entry per file path, with the length of
`e.fileData[i]` and the base name of the path; the hashes are left zero. It
panics (`none`) when `e.fileData` is shorter than `e.filePaths`. -/
def writeEntriesLoop (fileData : List Bytes) : List Bytes → Nat → Option (List fileEntry)
  | [], _ => some []
  | k :: rest, i =>
    match fileData.get? i with
    | none => none
    | some data =>
      match writeEntriesLoop fileData rest (i + 1) with
      | none => none
      | some entries =>
        some (entryOf k data :: entries)

/-- The volume `vTemplate` of `Encoder.Write`: only `ID` and `VersionNumber` of the
header are set, every other field is zero. -/
def volumeTemplate (entries : List fileEntry) : volume :=
  { header :=
      { ID := expectedID, VersionNumber := expectedVersion, ClientVersion := 0,
        ControlHash := List.replicate 16 0, SetHash := List.replicate 16 0, VolumeNumber := 0,
        FileCount := 0, FileListOffset := 0, FileListBytes := 0, DataOffset := 0,
        DataBytes := 0 }
    entries := entries
    data := [] }

/-- The second loop of `Encoder.Write`, from index `i` on: the returned error and
the events. `uint64(i + 1)` is `i + 1`, as `i` is a slice index. -/
def writeParityLoop (md5 : HashFn) (io : fileIO) (vTemplate : volume) (base : Bytes) :
    List Bytes → Nat → Option String × List Event
  | [], _ => (none, [])
  | parityShard :: rest, i =>
    match writeVolume md5
        { vTemplate with
          header := { vTemplate.header with VolumeNumber := i + 1 }
          data := parityShard } with
    | .error err => (some err, [])
    | .ok volBytes =>
      let volumePath := base ++ [0x2E, 0x70] ++ fmt02d (i + 1)
      match io.WriteFile volumePath volBytes with
      | some err =>
        (some err, [.writeFile volumePath volBytes, .onVolumeFileWrite volumePath (some err)])
      | none =>
        let r := writeParityLoop md5 io vTemplate base rest (i + 1)
        (r.1, [.writeFile volumePath volBytes, .onVolumeFileWrite volumePath none] ++ r.2)

/-- `Encoder.Write`: the returned error and the events; `none` is a run-time panic. -/
def Encoder.Write (md5 : HashFn) (e : Encoder) (indexPath : Bytes) :
    Option (Option String × List Event) :=
  match writeEntriesLoop e.fileData e.filePaths 0 with
  | none => none
  | some entries =>
    let vTemplate := volumeTemplate entries
    match writeVolume md5 { vTemplate with header := { vTemplate.header with VolumeNumber := 0 } } with
    | .error err => some (some err, [])
    | .ok indexVolumeBytes =>
      let ext := pathExt indexPath
      let base := indexPath.take (indexPath.length - ext.length)
      let realIndexPath := base ++ [0x2E, 0x70, 0x61, 0x72]
      match e.fileIO.WriteFile realIndexPath indexVolumeBytes with
      | some err =>
        some (some err, [.writeFile realIndexPath indexVolumeBytes,
          .onVolumeFileWrite realIndexPath (some err)])
      | none =>
        let r := writeParityLoop md5 e.fileIO vTemplate base e.parityData 0
        some (r.1, [.writeFile realIndexPath indexVolumeBytes,
          .onVolumeFileWrite realIndexPath none] ++ r.2)

/-- The file writes among the events, in order. -/
def fileWrites : List Event → List (Bytes × Bytes)
  | [] => []
  | .writeFile path data :: rest => (path, data) :: fileWrites rest
  | _ :: rest => fileWrites rest

/-- The largest length among byte slices, 0 when there are none. -/
def maxLength (files : List Bytes) : Nat := (files.map List.length).foldr max 0

/-- A file with zero bytes appended up to the length `n`. -/
def padTo (n : Nat) (data : Bytes) : Bytes := data ++ List.replicate (n - data.length) 0

/-- The header of the volume number `n` that `Encoder.Write` writes. -/
def writtenHeader (n : Nat) : header :=
  { ID := expectedID, VersionNumber := expectedVersion, ClientVersion := 0,
    ControlHash := List.replicate 16 0, SetHash := List.replicate 16 0, VolumeNumber := n,
    FileCount := 0, FileListOffset := 0, FileListBytes := 0, DataOffset := 0, DataBytes := 0 }

/-- A coder whose parity shards are all the same function of the data shards; it is
used where a theorem is applied to a concrete `ReedSolomon`. -/
def ReedSolomon.ofParity (par : List Bytes → Bytes) : ReedSolomon :=
  { New := fun _ _ => none
    Encode := fun d _ shards =>
      .ok (shards.take d.toNat ++ (shards.drop d.toNat).map (fun _ => par (shards.take d.toNat)))
    Verify := fun d _ shards =>
      .ok (decide (shards.drop d.toNat =
        (shards.drop d.toNat).map (fun _ => par (shards.take d.toNat))))
    encode_data := by
      intro d p shards out h
      injection h with h
      subst h
      rw [Int.toNat_ofNat]
      constructor
      · rw [List.length_append, List.length_map, List.length_take, List.length_drop]
        omega
      · by_cases hd : d ≤ shards.length
        · rw [List.take_left' (by rw [List.length_take]; omega)]
        · rw [List.drop_eq_nil_of_le (by omega), List.map_nil, List.append_nil, List.take_take,
            Nat.min_self]
    verify_encode := by
      intro d p shards out h
      injection h with h
      subst h
      dsimp only
      rw [Int.toNat_ofNat]
      by_cases hd : d ≤ shards.length
      · have hl : (shards.take d).length = d := by rw [List.length_take]; omega
        rw [List.drop_left' hl, List.take_left' hl, List.map_map]
        exact congrArg Except.ok (decide_eq_true rfl)
      · have ht : shards.take d = shards := List.take_of_length_le (by omega)
        have hdr : shards.drop d = [] := List.drop_eq_nil_of_le (by omega)
        rw [hdr, List.map_nil, List.append_nil, ht, hdr]
        rfl }

/-- A coder whose parity shards are copies of the first data shard. -/
def copyCoder : ReedSolomon := ReedSolomon.ofParity (fun data => data.headD [])

/-- The file system of the test `TestEncodeParity`: five files, the last one empty;
every write succeeds. -/
def testIO : fileIO :=
  { ReadFile := fun p =>
      if p = ascii "file.rar" then .ok [0x1, 0x2, 0x3]
      else if p = ascii "file.r01" then .ok [0x5, 0x6, 0x7, 0x8]
      else if p = ascii "file.r02" then .ok [0x9, 0xa, 0xb, 0xc]
      else if p = ascii "file.r03" then .ok [0xd, 0xe]
      else if p = ascii "file.r04" then .ok []
      else .error "file does not exist"
    WriteFile := fun _ _ => none }

/-- The file paths of the test `TestEncodeParity`. -/
def testPaths : List Bytes :=
  [ascii "file.rar", ascii "file.r01", ascii "file.r02", ascii "file.r03", ascii "file.r04"]

/-- The encoder of the test `TestEncodeParity`, `newEncoder(io, paths, 3)`. -/
def testEncoder : Encoder :=
  { fileIO := testIO, filePaths := testPaths, volumeCount := 3, shardByteCount := 0,
    fileData := [], parityData := [] }

/-- The encoder of the test after `LoadFileData`. -/
def testEncoderLoaded : Encoder :=
  { testEncoder with
    shardByteCount := 4
    fileData := [[0x1, 0x2, 0x3], [0x5, 0x6, 0x7, 0x8], [0x9, 0xa, 0xb, 0xc], [0xd, 0xe], []] }

/-- An encoder created with a negative number of parity volumes,
`newEncoder(io, paths, -1)` with one path. -/
def negativeEncoder : Encoder :=
  { fileIO := testIO, filePaths := [ascii "file.rar"], volumeCount := -1, shardByteCount := 0,
    fileData := [], parityData := [] }

/-! ## Reed–Solomon coder over GF(2^16) (`rsec16`, `gf2p16`)

`rsec16/coder.go` and the package `gf2p16` are not among the sources (only
`rsec16/coder_test.go` is); the coder is modelled from section 4.B of the
specification, with the names `NewCoder`, `GenerateParity` and `ReconstructData`
and the error message used by the test. -/

/-- A shard of the coder: a slice of 16-bit field elements (`[]uint16`). -/
abbrev Shard := List Nat

/-- Modelled from the spec: the product of two elements of
`GF(2)[x] / (x¹⁶ + x¹² + x³ + x + 1)`, by shifting and adding: `a` is multiplied
by `x` and reduced by the polynomial `0x1100B` at each of the 16 steps. -/
def gfMulAux : Nat → Nat → Nat → Nat → Nat
  | 0, _, _, acc => acc
  | k + 1, a, b, acc =>
    gfMulAux k (if 65536 ≤ 2 * a then (2 * a) ^^^ 0x1100B else 2 * a) (b / 2)
      (if b % 2 = 1 then acc ^^^ a else acc)

/-- Modelled from the spec: `mul(x, y)` of the field. -/
def gfMul (a b : Nat) : Nat := gfMulAux 16 a b 0

/-- Square-and-multiply over the bits of the exponent. -/
def gfPowAux : Nat → Nat → Nat → Nat → Nat
  | 0, _, _, acc => acc
  | k + 1, b, e, acc =>
    gfPowAux k (gfMul b b) (e / 2) (if e % 2 = 1 then gfMul acc b else acc)

/-- Modelled from the spec: `pow(x, e)` for `e ∈ [0, 65535]`. -/
def gfPow (a e : Nat) : Nat := gfPowAux 16 a e 1

/-- Modelled from the spec: `inv(x)`, failing when `x = 0`; the multiplicative group
has order 65535. -/
def gfInv (a : Nat) : Option Nat := if a = 0 then none else some (gfPow a 65534)

/-- Modelled from the spec: the bulk kernel `mulSliceXor(c, src, dst)`, which
computes `dst[i] ^= c · src[i]`. -/
def mulSliceXor (c : Nat) (src dst : Shard) : Shard :=
  List.zipWith (fun s d => d ^^^ gfMul c s) src dst

/-- Modelled from the spec: the configuration of a coder. The sequence of recovery
exponents `e_r` is a parameter: the specification refers to the PAR2
specification for it. -/
structure Coder where
  numData : Nat
  numParity : Nat
  exponent : Nat → Nat

/-- Modelled from the spec: `NewCoder(numData, numParity)`. -/
def NewCoder (exponent : Nat → Nat) (numData numParity : Nat) : Coder :=
  { numData := numData, numParity := numParity, exponent := exponent }

/-- Modelled from the spec: the generator matrix, `G[r][c] = α^((e_r · c) mod 65535)`
with `α = 2`. -/
def Coder.generator (c : Coder) (r col : Nat) : Nat :=
  gfPow 2 ((c.exponent r * col) % 65535)

/-- The sum `Σ G[r][c] · data[c]` over the listed columns, added to `acc`. -/
def Coder.addColumns (c : Coder) (r : Nat) : List (Nat × Shard) → Shard → Shard
  | [], acc => acc
  | (col, shard) :: rest, acc =>
    c.addColumns r rest (mulSliceXor (c.generator r col) shard acc)

/-- Modelled from the spec: "Encode. `parity[r] = Σ_c G[r][c] · data[c]`". -/
def Coder.GenerateParity (c : Coder) (data : List Shard) : List Shard :=
  (List.range c.numParity).map (fun r =>
    c.addColumns r data.enum (List.replicate (data.headD []).length 0))

/-- A row of the linear system: the coefficients of the unknowns and the right-hand
side shard. -/
abbrev Row := List Nat × Shard

/-- The row `row + k · pivot`. -/
def rowAddMul (k : Nat) (pivot row : Row) : Row :=
  (List.zipWith (fun p x => x ^^^ gfMul k p) pivot.1 row.1, mulSliceXor k pivot.2 row.2)

/-- The row `k · row`. -/
def rowScale (k : Nat) (row : Row) : Row :=
  (row.1.map (gfMul k), row.2.map (gfMul k))

/-- The first row with a non-zero coefficient in column `col`, next to the other
rows. -/
def findPivot (col : Nat) : List Row → Option (Row × List Row)
  | [] => none
  | row :: rest =>
    if row.1.getD col 0 ≠ 0 then some (row, rest)
    else
      match findPivot col rest with
      | none => none
      | some (p, others) => some (p, row :: others)

/-- Modelled from the spec: Gauss–Jordan elimination over the field. `done` holds
the rows of the columns before `col`, already reduced; the result is the list of
right-hand sides, the solution of the system. A column without a non-zero pivot
is the failure `ZeroDivisor`. -/
def gaussJordan : Nat → Nat → List Row → List Row → Except String (List Shard)
  | 0, _, done, _ => .ok (done.map Prod.snd)
  | fuel + 1, col, done, rest =>
    match rest with
    | [] => .ok (done.map Prod.snd)
    | _ :: _ =>
      match findPivot col rest with
      | none => .error "zero divisor"
      | some (p, others) =>
        match gfInv (p.1.getD col 0) with
        | none => .error "zero divisor"
        | some inv =>
          let pivot := rowScale inv p
          let clear := fun (row : Row) => rowAddMul (row.1.getD col 0) pivot row
          gaussJordan fuel (col + 1) (done.map clear ++ [pivot]) (others.map clear)

/-- The indices of the missing (`nil`) shards. -/
def missingIndices (shards : List (Option Shard)) : List Nat :=
  (shards.enum.filter (fun p => p.2.isNone)).map Prod.fst

/-- The present shards with their indices. -/
def presentShards (shards : List (Option Shard)) : List (Nat × Shard) :=
  shards.enum.filterMap (fun p => p.2.map (fun s => (p.1, s)))

/-- The data with the missing shards replaced, in order, by the given ones. -/
def fillMissing : List (Option Shard) → List Shard → List (Option Shard)
  | [], _ => []
  | some s :: rest, xs => some s :: fillMissing rest xs
  | none :: rest, x :: xs => some x :: fillMissing rest xs
  | none :: rest, [] => none :: fillMissing rest []

/-- Modelled from the spec: "Reconstruct erasures", steps 1 to 4. The result is the
data array as the call leaves it. The first `|M|` present recovery rows are
selected. -/
def Coder.ReconstructData (c : Coder) (data parity : List (Option Shard)) :
    Except String (List (Option Shard)) :=
  let missing := missingIndices data
  let known := presentShards data
  let recovery := presentShards parity
  if recovery.length < missing.length then .error "not enough parity shards"
  else
    let rows : List Row := (recovery.take missing.length).map (fun p =>
      (missing.map (c.generator p.1), c.addColumns p.1 known p.2))
    match gaussJordan missing.length 0 [] rows with
    | .error err => .error err
    | .ok xs => .ok (fillMissing data xs)

/-- The data shards of the tests of `rsec16/coder_test.go`. -/
def testData : List Shard := [[0x1, 0x2], [0x3, 0x4], [0x5, 0x6], [0x7, 0x8], [0x9, 0xa]]

/-- The coder `NewCoder(5, 3)` of the tests, with the recovery exponents 1, 2, 3. -/
def testCoder : Coder := NewCoder (fun r => r + 1) 5 3

/-! ## Reed–Solomon coder: notions of the correctness proof -/

/-- Multiplication by `x` in the field: a shift, reduced by the polynomial `0x1100B`. -/
def mulX (a : Nat) : Nat := if 65536 ≤ 2 * a then (2 * a) ^^^ 0x1100B else 2 * a

/-- The sum `Σ_j coeffs[j] · xs[j]` in the field. -/
def dot : List Nat → List Nat → Nat
  | c :: cs, x :: xs => gfMul c x ^^^ dot cs xs
  | _, _ => 0

/-- The elements at position `t` of a list of shards. -/
def colAt (t : Nat) (d : List Shard) : List Nat := d.map (fun s => s.getD t 0)

/-- Every element is a 16-bit value. -/
def isU16s (l : List Nat) : Prop := ∀ x ∈ l, x < 65536

/-- A row of the system that the shards `d` satisfy: `m` coefficients, a right-hand
side of length `n`, 16-bit values, and `Σ_j coeffs[j] · d[j][t] = rhs[t]` at every
position `t`. -/
def RowOK (m n : Nat) (d : List Shard) (row : Row) : Prop :=
  row.1.length = m ∧ row.2.length = n ∧ isU16s row.1 ∧ isU16s row.2 ∧
    ∀ t, t < n → dot row.1 (colAt t d) = row.2.getD t 0

/-- The reduced rows: row `i` has the coefficient 1 in column `i` and 0 in the other
columns before `col`. -/
def DoneOK (col : Nat) (done : List Row) : Prop :=
  ∀ i row, done[i]? = some row → ∀ j, j < col → row.1.getD j 0 = if j = i then 1 else 0

/-- The rows still to reduce have the coefficient 0 in the columns before `col`. -/
def RestOK (col : Nat) (rest : List Row) : Prop :=
  ∀ row ∈ rest, ∀ j, j < col → row.1.getD j 0 = 0

/-- The shards with the positions marked `true` erased (`nil`). -/
def eraseShards (mask : List Bool) (shards : List Shard) : List (Option Shard) :=
  List.zipWith (fun b s => if b then none else some s) mask shards

/-- The shards of `data` at the positions where `erased` is `nil`. -/
def missingShards : List (Option Shard) → List Shard → List Shard
  | none :: es, s :: ss => s :: missingShards es ss
  | some _ :: es, _ :: ss => missingShards es ss
  | _, _ => []

/-- The sum `Σ g(i) · s[t]` over the listed columns `(i, s)`. -/
def sumAt (g : Nat → Nat) (t : Nat) : List (Nat × Shard) → Nat
  | [] => 0
  | p :: rest => gfMul (g p.1) (p.2.getD t 0) ^^^ sumAt g t rest

/-- An erased list against the original: each position is `nil` or unchanged. -/
def ErasedFrom (erased : List (Option Shard)) (shards : List Shard) : Prop :=
  List.Forall₂ (fun e s => e = none ∨ e = some s) erased shards

/-- A coder with 470 data shards and 4 parity shards, with the recovery exponents
1, 2, 3, 4. -/
def bigCoder : Coder := NewCoder (fun r => r + 1) 470 4

/-- The 470 data shards `[0], [1], …, [469]`. -/
def bigData : List Shard := (List.range 470).map (fun i => [i])

/-- The data shards 0, 93 and 469 are erased. -/
def bigDataMask : List Bool := (List.range 470).map (fun i => i == 0 || i == 93 || i == 469)

/-- The parity shard 2, of exponent 3, is erased. -/
def bigParityMask : List Bool := [false, false, true, false]

/-! ## Decoder (`par1/decoder.go`) -/

/-- The outcome of reading a file or a volume by its path: an error for which
`os.IsNotExist` holds, another error, or the value read. -/
inductive ReadResult (α : Type) where
  | notExist (err : String)
  | failed (err : String)
  | ok (value : α)

/-- What the decoder uses of the outside world: `filepath.Dir`, `filepath.Join`,
`ioutil.ReadFile`, and the `readVolume` that `par1/decoder.go` calls with the path
of a volume file (the `readVolume` of `par1/volume.go` takes the bytes). -/
structure decoderEnv where
  Dir : Bytes → Bytes
  Join : Bytes → Bytes → Bytes
  ReadFile : Bytes → ReadResult Bytes
  readVolume : Bytes → ReadResult volume

/-- The state of a `Decoder`. In `fileData` and `parityData` a `nil` slice is
`none`; `shardByteCount` is a Go `int`. -/
structure Decoder where
  indexFile : Bytes
  indexVolume : volume
  fileData : List (Option Bytes)
  shardByteCount : Int
  parityData : List (Option Bytes)

/-- `NewDecoder` of `par1/decoder.go`. -/
def NewDecoder (io : decoderEnv) (indexFile : Bytes) : Except String Decoder :=
  match io.readVolume indexFile with
  | .notExist err => .error err
  | .failed err => .error err
  | .ok indexVolume =>
    if indexVolume.header.VolumeNumber ≠ 0 then
      .error "expected volume number 0 for index volume"
    else
      .ok { indexFile := indexFile, indexVolume := indexVolume, fileData := [],
            shardByteCount := 0, parityData := [] }

/-- The loop of `Decoder.LoadFileData` over the entries of the index volume: a file
that does not exist leaves its slot `nil`, another read error is returned. -/
def decoderLoadFilesLoop (io : decoderEnv) (dir : Bytes) :
    List fileEntry → Except String (List (Option Bytes))
  | [] => .ok []
  | entry :: rest =>
    match io.ReadFile (io.Join dir entry.filename) with
    | .notExist _ =>
      match decoderLoadFilesLoop io dir rest with
      | .error err => .error err
      | .ok fileData => .ok (none :: fileData)
    | .failed err => .error err
    | .ok data =>
      match decoderLoadFilesLoop io dir rest with
      | .error err => .error err
      | .ok fileData => .ok (some data :: fileData)

/-- `Decoder.LoadFileData`: the new state and the returned error. -/
def Decoder.LoadFileData (io : decoderEnv) (d : Decoder) : Decoder × Option String :=
  match decoderLoadFilesLoop io (io.Dir d.indexFile) d.indexVolume.entries with
  | .error err => (d, some err)
  | .ok fileData => ({ d with fileData := fileData }, none)

/-- The bound of the loop of `Decoder.LoadParityData`: `256 - fileCount` in
`uint64`, replaced by 99 when it is above 99. -/
def maxParityVolumeCount (fileCount : Nat) : Nat :=
  if (256 + 2 ^ 64 - fileCount) % 2 ^ 64 > 99 then 99
  else (256 + 2 ^ 64 - fileCount) % 2 ^ 64

/-- The loop of `Decoder.LoadParityData`: `count` more iterations from index `i`
on, from the state `(shardByteCount, parityData, maxI)`. The result is the state
after the loop or the returned error, next to the volume paths given to
`readVolume`, in order. In the loop `i < len(parityData)`. -/
def loadParityLoop (io : decoderEnv) (base : Bytes) :
    Nat → Nat → Int → List (Option Bytes) → Nat →
      Except String (Int × List (Option Bytes) × Nat) × List Bytes
  | 0, _, shardByteCount, parityData, maxI => (.ok (shardByteCount, parityData, maxI), [])
  | count + 1, i, shardByteCount, parityData, maxI =>
    match io.readVolume (base ++ ascii ".p" ++ fmt02d (i + 1)) with
    | .notExist _ =>
      let r := loadParityLoop io base count (i + 1) shardByteCount parityData maxI
      (r.1, (base ++ ascii ".p" ++ fmt02d (i + 1)) :: r.2)
    | .failed err => (.error err, [base ++ ascii ".p" ++ fmt02d (i + 1)])
    | .ok parityVolume =>
      if parityVolume.header.VolumeNumber ≠ i + 1 then
        (.error "unexpected volume number for parity volume",
          [base ++ ascii ".p" ++ fmt02d (i + 1)])
      else if parityVolume.data.length = 0 then
        (.error "no parity data in volume", [base ++ ascii ".p" ++ fmt02d (i + 1)])
      else if shardByteCount ≠ 0 ∧ (parityVolume.data.length : Int) ≠ shardByteCount then
        (.error "mismatched parity data byte counts", [base ++ ascii ".p" ++ fmt02d (i + 1)])
      else
        let r := loadParityLoop io base count (i + 1)
          (if shardByteCount = 0 then (parityVolume.data.length : Int) else shardByteCount)
          (parityData.set i (some parityVolume.data)) i
        (r.1, (base ++ ascii ".p" ++ fmt02d (i + 1)) :: r.2)

/-- `Decoder.LoadParityData`: the new state and the returned error, next to the
volume paths probed. The slice `parityData[:maxI+1]` panics (`none`) when
`maxI + 1` exceeds the capacity `maxParityVolumeCount`. -/
def Decoder.LoadParityData (io : decoderEnv) (d : Decoder) :
    Option (Decoder × Option String) × List Bytes :=
  match loadParityLoop io
      (d.indexFile.take (d.indexFile.length - (pathExt d.indexFile).length))
      (maxParityVolumeCount d.indexVolume.header.FileCount) 0 0
      (List.replicate (maxParityVolumeCount d.indexVolume.header.FileCount) none) 0 with
  | (.error err, probed) => (some (d, some err), probed)
  | (.ok (shardByteCount, parityData, maxI), probed) =>
    if maxI + 1 ≤ maxParityVolumeCount d.indexVolume.header.FileCount then
      (some ({ d with shardByteCount := shardByteCount,
                      parityData := parityData.take (maxI + 1) }, none), probed)
    else (none, probed)

/-- A call of the Reed–Solomon library: `reedsolomon.New` or `rs.Verify`. -/
inductive CoderCall where
  | new (dataShards parityShards : Int)
  | verify (shards : List Bytes)
  deriving DecidableEq, Repr

/-- The first shard loop of `Decoder.Verify`: each data file followed by
`shardByteCount - len(data)` zero bytes; `none` is the panic of `make` with a
negative length. -/
def decoderDataShards (shardByteCount : Int) : List Bytes → Option (List Bytes)
  | [] => some []
  | data :: rest =>
    match makeBytes (shardByteCount - data.length) with
    | none => none
    | some padding =>
      match decoderDataShards shardByteCount rest with
      | none => none
      | some shards => some ((data ++ padding) :: shards)

/-- `Decoder.Verify`: the returned `(bool, error)` (`.ok b` is `(b, nil)`, `.error err`
is `(false, err)`), `none` for a run-time panic; next to it the calls of the
Reed–Solomon library, in order. -/
def Decoder.Verify (rs : ReedSolomon) (d : Decoder) :
    Option (Except String Bool) × List CoderCall :=
  if d.fileData.any Option.isNone then (some (.ok false), [])
  else if d.parityData.any Option.isNone then (some (.ok false), [])
  else
    match rs.New d.fileData.length d.parityData.length with
    | some err => (some (.error err), [.new d.fileData.length d.parityData.length])
    | none =>
      match decoderDataShards d.shardByteCount (d.fileData.map (fun data => data.getD [])) with
      | none => (none, [.new d.fileData.length d.parityData.length])
      | some shards =>
        (some (rs.Verify d.fileData.length d.parityData.length
            (shards ++ d.parityData.map (fun data => data.getD []))),
          [.new d.fileData.length d.parityData.length,
            .verify (shards ++ d.parityData.map (fun data => data.getD []))])

/-- The path of the parity volume of index `i` that `Decoder.LoadParityData`
probes: the index file without its extension, followed by `.pNN`, `NN = i + 1`. -/
def parityVolumePath (indexFile : Bytes) (i : Nat) : Bytes :=
  indexFile.take (indexFile.length - (pathExt indexFile).length) ++ ascii ".p" ++ fmt02d (i + 1)

/-- A volume with `fileCount` entries named `a`, the given volume number and payload. -/
def testVolume (fileCount volumeNumber : Nat) (data : Bytes) : volume :=
  { header := { (volumeTemplate []).header with
      VolumeNumber := volumeNumber, FileCount := fileCount }
    entries := List.replicate fileCount (entryOf (ascii "a") [])
    data := data }

/-- A directory holding the index volume `file.par` with `fileCount` entries named
`a`, the data file `a` with the content `file`, and the parity volumes `file.p01`
and `file.p02` when given. -/
def testDecoderEnv (fileCount : Nat) (file : Bytes) (p01 p02 : Option volume) : decoderEnv :=
  { Dir := fun _ => ascii "."
    Join := fun dir name => dir ++ ascii "/" ++ name
    ReadFile := fun p =>
      if p = ascii "./a" then .ok file else .notExist "file does not exist"
    readVolume := fun p =>
      if p = ascii "file.par" then .ok (testVolume fileCount 0 [])
      else if p = ascii "file.p01" then
        match p01 with
        | some v => .ok v
        | none => .notExist "file does not exist"
      else if p = ascii "file.p02" then
        match p02 with
        | some v => .ok v
        | none => .notExist "file does not exist"
      else .notExist "file does not exist" }

/-- A decoder for the index file `file.par` of one entry, as `NewDecoder` and
`LoadFileData` leave it. -/
def testDecoder : Decoder :=
  { indexFile := ascii "file.par", indexVolume := testVolume 1 0 [],
    fileData := [some [1, 2, 3, 4]], shardByteCount := 0, parityData := [] }

/-! ## Further test data for file entries and the encoder -/

/-- A serialized file entry with `EntryBytes = 76`, zero status, size and hashes,
and the filename `abcdefghij` in UTF-16LE (20 bytes), followed by the byte `0xAA`. -/
def entry76 : Bytes :=
  [76, 0, 0, 0, 0, 0, 0, 0] ++ List.replicate 48 0 ++
    [0x61, 0, 0x62, 0, 0x63, 0, 0x64, 0, 0x65, 0, 0x66, 0, 0x67, 0, 0x68, 0, 0x69, 0, 0x6A, 0] ++
    [0xAA]

/-- An encoder for the single file `file.rar`, of 3 bytes, and one parity volume. -/
def oneFileEncoder : Encoder :=
  { fileIO := testIO, filePaths := [ascii "file.rar"], volumeCount := 1, shardByteCount := 0,
    fileData := [], parityData := [] }

/-- `NewEncoder` of `par1/encoder.go`: `newEncoder` with the file system of the
operating system (`defaultFileIO{}`), which is a parameter. -/
def NewEncoder ( defaultFileIO : fileIO) (filePaths : List Bytes) (volumeCount : Int) :
    Except String Encoder :=
  newEncoder defaultFileIO filePaths volumeCount

/-- The encoder of `TestEncodeParity` with 100 parity volumes, after `LoadFileData`
and `ComputeParityData` with a coder that copies the first data shard. -/
def hundredVolumeEncoder : Encoder :=
  { testEncoderLoaded with volumeCount := 100, parityData := List.replicate 100 [1, 2, 3, 0] }

/-! ## Command line (`cmd/par/main.go`) -/

/-- The exit code `eSuccess` of `cmd/par/main.go`. -/
def eSuccess : Nat := 0

/-- The exit code `eRepairPossible`. -/
def eRepairPossible : Nat := 1

/-- The exit code `eRepairNotPossible`. -/
def eRepairNotPossible : Nat := 2

/-- The exit code `eInvalidCommandLineArguments`. -/
def eInvalidCommandLineArguments : Nat := 3

/-- The exit code `eLogicError`. -/
def eLogicError : Nat := 7

/-- A non-nil `error` as the type switch of `processVerifyOrRepairError` sees it:
its dynamic type is `rsec16.NotEnoughParityShardsError` or another type; `msg` is
the string `err.Error()`. -/
inductive GoError where
  | notEnoughParityShardsError (msg : String)
  | other (msg : String)
  deriving DecidableEq, Repr

/-- `processVerifyOrRepairError` of `cmd/par/main.go`: the exit code returned and
the text printed to the standard error. -/
def processVerifyOrRepairError (needsRepair : Bool) (err : Option GoError) : Nat × String :=
  match err with
  | some (.notEnoughParityShardsError _) =>
    (eRepairNotPossible, "Repair necessary but not possible.\n")
  | some (.other msg) => (eLogicError, "Error encountered: " ++ msg ++ "\n")
  | none =>
    if needsRepair then (eRepairPossible, "Repair necessary and possible.\n")
    else (eSuccess, "")

/-- The mask `createCommand`. -/
def createCommand : Nat := 1

/-- The mask `verifyCommand`. -/
def verifyCommand : Nat := 2

/-- The mask `repairCommand`. -/
def repairCommand : Nat := 4

/-- The mask `allCommands`. -/
def allCommands : Nat := createCommand ||| verifyCommand ||| repairCommand

/-- `printUsageAndExit` of `cmd/par/main.go`: the error line and the usage lines of
the commands that it prints, and the exit code it ends the process with. The
listings of the options, printed by the package `flag`, are left out. -/
def printUsageAndExit (name : Bytes) (mask : Nat) (err : Option Bytes) : List Bytes × Nat :=
  ((match err with
    | some msg => [ascii "Error: " ++ msg ++ ascii "\n"]
    | none => []) ++
   [ascii "\nUsage:\n"] ++
   (if mask &&& createCommand ≠ 0 then
      [ascii "  " ++ name ++
        ascii " [global options] c(reate) [create options] <PAR file> <data files...>\n"]
    else []) ++
   (if mask &&& verifyCommand ≠ 0 then
      [ascii "  " ++ name ++ ascii " [global options] v(erify) [verify options] <PAR file>\n"]
    else []) ++
   (if mask &&& repairCommand ≠ 0 then
      [ascii "  " ++ name ++ ascii " [global options] f(epair) [repair options] <PAR file>\n"]
    else []),
   match err with
   | some _ => eInvalidCommandLineArguments
   | none => eSuccess)

/-- The branch that the `switch strings.ToLower(cmd)` of `main` takes. -/
inductive Branch where
  | create
  | verify
  | repair
  | unknown (usage : List Bytes × Nat)
  deriving DecidableEq, Repr

/-- The `switch strings.ToLower(cmd)` of `main`, with `strings.ToLower` a parameter;
the default branch calls `printUsageAndExit(name, allCommands, err)` with the
error `unknown command '<cmd>'`. -/
def mainSwitch (toLower : Bytes → Bytes) (name cmd : Bytes) : Branch :=
  if toLower cmd = ascii "c" then .create
  else if toLower cmd = ascii "create" then .create
  else if toLower cmd = ascii "v" then .verify
  else if toLower cmd = ascii "verify" then .verify
  else if toLower cmd = ascii "r" then .repair
  else if toLower cmd = ascii "repair" then .repair
  else .unknown (printUsageAndExit name allCommands
    (some (ascii "unknown command '" ++ cmd ++ ascii "'")))

/-- What `strings.ToLower` gives for a string of ASCII characters: the letters `A`
to `Z` are replaced by `a` to `z`. -/
def asciiToLower (s : Bytes) : Bytes :=
  s.map (fun b => if 0x41 ≤ b ∧ b ≤ 0x5A then b + 0x20 else b)

/-! ## Further definitions for the encoder, the verify command and volumes -/

/-- The events of a file that `LoadFileData` reads without error. -/
def loadedEvents (paths : List Bytes) : List Event :=
  (paths.map (fun p => [Event.readFile p, Event.onDataFileLoad p none])).flatten

/-- The end of the `verify` branch of `main`, from the two results of
`decoder.Verify()`, which the interface `decoder` of `cmd/par/main.go` declares as
`(needsRepair bool, err error)`:
`exitCode := processVerifyOrRepairError(needsRepair, err)`, then
"Repair not necessary." is printed when `exitCode == eSuccess`, then
`os.Exit(exitCode)`. The result is the exit code, the text printed to the standard
error and the text printed to the standard output. -/
def verifyCommandExit (needsRepair : Bool) (err : Option GoError) : Nat × String × String :=
  ((processVerifyOrRepairError needsRepair err).1,
    (processVerifyOrRepairError needsRepair err).2,
    if (processVerifyOrRepairError needsRepair err).1 = eSuccess then
      "Repair not necessary.\n" else "")

/-- A decoder with its one data file and its one parity volume present, the parity
shard being what the coder `copyCoder` computes. -/
def intactDecoder : Decoder :=
  { indexFile := ascii "file.par", indexVolume := testVolume 1 0 [],
    fileData := [some [1, 2, 3, 4]], shardByteCount := 4, parityData := [some [1, 2, 3, 4]] }

/-- The decoder `intactDecoder` with its data file missing. -/
def missingFileDecoder : Decoder :=
  { intactDecoder with fileData := [none] }

/-- The sum of the `EntryBytes` of a list of entries. -/
def entryBytesSum (entries : List fileEntry) : Nat :=
  (entries.map (fun e => e.header.EntryBytes)).sum

/-- The bytes that `writeVolume` gives for `goodVolume`, with the checksum `sumHash`
in the place of MD5. -/
def goodVolumeBytes : Bytes :=
  match writeVolume sumHash goodVolume with
  | .ok b => b
  | .error _ => []

/-! ## Reed–Solomon coder: the invariant of the elimination and singular systems -/

/-- The state of the elimination before the column `col`: `done` holds `col` rows,
`done` and `rest` together hold `m` rows, every row is an equation that the shards
`d` satisfy, and the columns before `col` are reduced. -/
def ElimInv (m n : Nat) (d : List Shard) (col : Nat) (done rest : List Row) : Prop :=
  done.length = col ∧ col + rest.length = m ∧ (∀ row ∈ done, RowOK m n d row) ∧
    (∀ row ∈ rest, RowOK m n d row) ∧ DoneOK col done ∧ RestOK col rest

/-- A vector of `m` field elements that every one of the rows annihilates. -/
def InKernel (m : Nat) (x : List Nat) (rows : List (List Nat)) : Prop :=
  x.length = m ∧ isU16s x ∧ ∀ row ∈ rows, dot row x = 0

/-- A system of rows of `m` coefficients is singular: a vector of `m` field elements
that is not zero is annihilated by every row. -/
def Singular (m : Nat) (rows : List (List Nat)) : Prop :=
  ∃ x, InKernel m x rows ∧ ∃ v ∈ x, v ≠ 0

/-- The coefficients of the system that `ReconstructData` solves: the rows of the
generator matrix of the first present parity shards, as many as data shards are
missing, restricted to the columns of the missing data shards. -/
def Coder.selectedSystem (c : Coder) (data parity : List (Option Shard)) : List (List Nat) :=
  ((presentShards parity).take (missingIndices data).length).map
    (fun p => (missingIndices data).map (c.generator p.1))

/-- The rows of the system that `ReconstructData` hands to the elimination. -/
def Coder.selectedRows (c : Coder) (data parity : List (Option Shard)) : List Row :=
  ((presentShards parity).take (missingIndices data).length).map (fun p =>
    ((missingIndices data).map (c.generator p.1), c.addColumns p.1 (presentShards data) p.2))

/-! # Theorems -/

/-! ## Little-endian integers -/

theorem putLE_length (w n : Nat) : (putLE w n).length = w := by
  induction w generalizing n with
  | zero => rfl
  | succ w ih => simp [putLE, ih]

theorem getLE_putLE (w n : Nat) : getLE (putLE w n) = n % 256 ^ w := by
  induction w generalizing n with
  | zero => simp [putLE, getLE, Nat.mod_one]
  | succ w ih =>
    rw [putLE, getLE, ih, pow_succ, Nat.mul_comm (256 ^ w) 256, Nat.mod_mul]

theorem getLE_putLE_of_lt (w n : Nat) (h : n < 256 ^ w) : getLE (putLE w n) = n := by
  rw [getLE_putLE, Nat.mod_eq_of_lt h]

theorem getLE_lt (bs : Bytes) (h : isBytes bs) : getLE bs < 256 ^ bs.length := by
  induction bs with
  | nil => simp [getLE]
  | cons b bs ih =>
    have hb : b < 256 := h b (List.mem_cons_self _ _)
    have ih2 := ih (fun c hc => h c (List.mem_cons_of_mem _ hc))
    rw [getLE, List.length_cons, pow_succ]
    omega

theorem isBytes_take (bs : Bytes) (n : Nat) (h : isBytes bs) : isBytes (bs.take n) :=
  fun b hb => h b (List.mem_of_mem_take hb)

/-- Reading back the fixed part of a serialized file entry. -/
theorem readFileEntryHeader_append (a b c : Nat) (h1 h2 rest : Bytes)
    (hl1 : h1.length = 16) (hl2 : h2.length = 16) :
    readFileEntryHeader (putLE 8 a ++ putLE 8 b ++ putLE 8 c ++ h1 ++ h2 ++ rest) =
      .ok ({ EntryBytes := a % 2 ^ 64, Status := b % 2 ^ 64, FileBytes := c % 2 ^ 64,
             Hash := h1, SixteenKHash := h2 }, rest) := by
  have e8 : ∀ n, (putLE 8 n).length = 8 := fun n => putLE_length 8 n
  have hlen : (putLE 8 a ++ putLE 8 b ++ putLE 8 c ++ h1 ++ h2 ++ rest).length =
      56 + rest.length := by
    simp only [List.length_append, e8, hl1, hl2]
  unfold readFileEntryHeader
  rw [if_neg (by rw [hlen]; omega), if_neg (by rw [hlen, fileEntryHeaderSize]; omega)]
  have hd : ∀ (n : Nat) (l r : Bytes), l.length ≤ n →
      (l ++ r).drop n = r.drop (n - l.length) := by
    intro n l r h
    rw [List.drop_append_eq_append_drop, List.drop_eq_nil_of_le h, List.nil_append]
  have ht : ∀ (n : Nat) (l r : Bytes), l.length = n → (l ++ r).take n = l :=
    fun n l r h => List.take_left' h
  simp only [List.append_assoc]
  simp only [hd, ht, e8, hl1, hl2, fileEntryHeaderSize, Nat.le_refl, Nat.reduceLeDiff,
    Nat.reduceSub, List.drop_zero, getLE_putLE]
  rfl

/-! ## UTF-16 and UTF-8 -/

theorem u16sOfBytes_putLE (us : List Nat) (h : ∀ u ∈ us, u < 65536) :
    u16sOfBytes ((us.map (putLE 2)).flatten) = us := by
  induction us with
  | nil => rfl
  | cons u us ih =>
    have hu : u < 65536 := h u (List.mem_cons_self _ _)
    have ih2 := ih (fun v hv => h v (List.mem_cons_of_mem _ hv))
    simp only [List.map_cons, List.flatten_cons, putLE, List.cons_append, List.nil_append,
      u16sOfBytes, ih2, Nat.shiftLeft_eq]
    congr 1
    omega

theorem utf16Encode_lt (rs : List Nat) : ∀ u ∈ utf16Encode rs, u < 65536 := by
  induction rs with
  | nil => intro u hu; cases hu
  | cons r rs ih =>
    intro u hu
    simp only [utf16Encode, surr1, surr2, surr3, surrSelf, maxRune, runeError] at hu
    split_ifs at hu with h1 h2
    · rcases List.mem_cons.1 hu with hu | hu
      · omega
      · exact ih u hu
    · rcases List.mem_cons.1 hu with hu | hu
      · omega
      · rcases List.mem_cons.1 hu with hu | hu
        · omega
        · exact ih u hu
    · rcases List.mem_cons.1 hu with hu | hu
      · omega
      · exact ih u hu

theorem utf16Decode_single (r : Nat) (rest : List Nat) (h : r < 0xd800 ∨ 0xe000 ≤ r) :
    utf16Decode (r :: rest) = r :: utf16Decode rest := by
  rw [utf16Decode.eq_def]
  simp only [surr1, surr3]
  rw [if_pos h]

theorem utf16Decode_pair (r r2 : Nat) (rest : List Nat) (h1 : 0xd800 ≤ r) (h2 : r < 0xdc00)
    (h3 : 0xdc00 ≤ r2) (h4 : r2 < 0xe000) :
    utf16Decode (r :: r2 :: rest) =
      ((r - 0xd800) * 1024 + (r2 - 0xdc00) + 0x10000) :: utf16Decode rest := by
  rw [utf16Decode.eq_def]
  simp only [surr1, surr2, surr3, surrSelf]
  rw [if_neg (by omega), if_pos ⟨h1, h2, h3, h4⟩]

theorem utf16Decode_encode (rs : List Nat) (h : ∀ r ∈ rs, isScalar r) :
    utf16Decode (utf16Encode rs) = rs := by
  induction rs with
  | nil => rfl
  | cons r rs ih =>
    have hr : isScalar r := h r (List.mem_cons_self _ _)
    have ih2 := ih (fun v hv => h v (List.mem_cons_of_mem _ hv))
    unfold isScalar at hr
    simp only [utf16Encode, surr1, surr2, surr3, surrSelf, maxRune, runeError]
    split_ifs with h1 h2
    · rw [utf16Decode_single _ _ (by omega), ih2]
    · rw [utf16Decode_pair _ _ _ (by omega) (by omega) (by omega) (by omega), ih2]
      congr 1
      omega
    · omega

theorem isCont_iff (b : Nat) : isCont b = true ↔ 0x80 ≤ b ∧ b ≤ 0xBF := by
  simp [isCont]

theorem utf8_step (b : Nat) (bs : Bytes)
    (h : ¬ ((utf8DecodeRune (b :: bs)).2 = 1 ∧ 0x80 ≤ b)) :
    isScalar (utf8DecodeRune (b :: bs)).1 ∧
      utf8EncodeRune (utf8DecodeRune (b :: bs)).1 ++
        (b :: bs).drop (utf8DecodeRune (b :: bs)).2 = b :: bs := by
  unfold utf8DecodeRune at h ⊢
  unfold isScalar
  by_cases h0 : b < 0x80
  · simp only [if_pos h0, utf8EncodeRune]
    rw [if_pos (by omega)]
    exact ⟨by omega, rfl⟩
  · simp only [if_neg h0] at h ⊢
    have hb : 0x80 ≤ b := by omega
    by_cases h2 : 0xC2 ≤ b ∧ b ≤ 0xDF
    · simp only [if_pos h2] at h ⊢
      match bs, h with
      | [], h => exact absurd ⟨rfl, hb⟩ h
      | b1 :: rest, h =>
        simp only at h ⊢
        by_cases c1 : isCont b1 = true
        · simp only [if_pos c1, utf8EncodeRune, maxRune, runeError]
          rw [isCont_iff] at c1
          rw [if_neg (by omega), if_pos (by omega)]
          refine ⟨by omega, ?_⟩
          simp only [List.drop_succ_cons, List.drop_zero, List.cons_append, List.nil_append]
          congr 1
          · omega
          · congr 1
            omega
        · rw [if_neg c1] at h
          exact absurd ⟨rfl, hb⟩ h
    · simp only [if_neg h2] at h ⊢
      by_cases h3 : 0xE0 ≤ b ∧ b ≤ 0xEF
      · simp only [if_pos h3] at h ⊢
        match bs, h with
        | [], h => exact absurd ⟨rfl, hb⟩ h
        | [_], h => exact absurd ⟨rfl, hb⟩ h
        | b1 :: b2 :: rest, h =>
          simp only at h ⊢
          by_cases c1 : (if b = 0xE0 then 0xA0 else 0x80) ≤ b1 ∧
              b1 ≤ (if b = 0xED then 0x9F else 0xBF) ∧ isCont b2 = true
          · rw [if_pos c1]
            simp only [utf8EncodeRune, maxRune, runeError]
            rw [isCont_iff] at c1
            obtain ⟨c1, c2, c3⟩ := c1
            split_ifs at c1 c2 with e0 ed
            all_goals
              rw [if_neg (by omega), if_neg (by omega), if_neg (by omega), if_pos (by omega)]
              refine ⟨by omega, ?_⟩
              simp only [List.drop_succ_cons, List.drop_zero, List.cons_append, List.nil_append]
              congr 1
              · omega
              · congr 1
                · omega
                · congr 1
                  omega
          · rw [if_neg c1] at h
            exact absurd ⟨rfl, hb⟩ h
      · simp only [if_neg h3] at h ⊢
        by_cases h4 : 0xF0 ≤ b ∧ b ≤ 0xF4
        · simp only [if_pos h4] at h ⊢
          match bs, h with
          | [], h => exact absurd ⟨rfl, hb⟩ h
          | [_], h => exact absurd ⟨rfl, hb⟩ h
          | [_, _], h => exact absurd ⟨rfl, hb⟩ h
          | b1 :: b2 :: b3 :: rest, h =>
            simp only at h ⊢
            by_cases c1 : (if b = 0xF0 then 0x90 else 0x80) ≤ b1 ∧
                b1 ≤ (if b = 0xF4 then 0x8F else 0xBF) ∧ isCont b2 = true ∧ isCont b3 = true
            · rw [if_pos c1]
              simp only [utf8EncodeRune, maxRune, runeError]
              rw [isCont_iff, isCont_iff] at c1
              obtain ⟨c1, c2, c3, c4⟩ := c1
              split_ifs at c1 c2 with e0 ed
              all_goals
                rw [if_neg (by omega), if_neg (by omega), if_neg (by omega), if_neg (by omega)]
                refine ⟨by omega, ?_⟩
                simp only [List.drop_succ_cons, List.drop_zero, List.cons_append,
                  List.nil_append]
                congr 1
                · omega
                · congr 1
                  · omega
                  · congr 1
                    · omega
                    · congr 1
                      omega
            · rw [if_neg c1] at h
              exact absurd ⟨rfl, hb⟩ h
        · rw [if_neg h4] at h
          exact absurd ⟨rfl, hb⟩ h

theorem runesAux_valid : ∀ (fuel : Nat) (s : Bytes), validAux fuel s = true →
    (∀ r ∈ runesAux fuel s, isScalar r) ∧
      ((runesAux fuel s).map utf8EncodeRune).flatten = s := by
  intro fuel
  induction fuel with
  | zero =>
    intro s h
    cases s with
    | nil => exact ⟨fun r hr => (by cases hr), rfl⟩
    | cons b bs => simp [validAux] at h
  | succ n ih =>
    intro s h
    cases s with
    | nil => exact ⟨fun r hr => (by cases hr), rfl⟩
    | cons b bs =>
      rw [validAux, Bool.and_eq_true] at h
      obtain ⟨h1, h2⟩ := h
      have hstep := utf8_step b bs (by rintro ⟨ha, hb⟩; simp [ha, hb] at h1)
      obtain ⟨ihA, ihB⟩ := ih _ h2
      rw [runesAux]
      refine ⟨?_, ?_⟩
      · intro r hr
        rcases List.mem_cons.1 hr with hr | hr
        · rw [hr]; exact hstep.1
        · exact ihA r hr
      · rw [List.map_cons, List.flatten_cons, ihB]
        exact hstep.2

theorem flatten_putLE2_length (us : List Nat) :
    ((us.map (putLE 2)).flatten).length = 2 * us.length := by
  induction us with
  | nil => rfl
  | cons u us ih =>
    rw [List.map_cons, List.flatten_cons, List.length_append, ih, putLE_length,
      List.length_cons]
    omega

theorem runesAux_length_le (fuel : Nat) (s : Bytes) : (runesAux fuel s).length ≤ fuel := by
  induction fuel generalizing s with
  | zero => simp [runesAux]
  | succ n ih =>
    cases s with
    | nil => simp [runesAux]
    | cons b bs =>
      rw [runesAux, List.length_cons]
      exact Nat.succ_le_succ (ih _)

theorem utf16Encode_length_le (rs : List Nat) : (utf16Encode rs).length ≤ 2 * rs.length := by
  induction rs with
  | nil => simp [utf16Encode]
  | cons r rs ih =>
    rw [utf16Encode]
    split_ifs <;> simp only [List.length_cons] <;> omega

theorem utf16Encode_length_pos (r : Nat) (rs : List Nat) :
    0 < (utf16Encode (r :: rs)).length := by
  rw [utf16Encode]
  split_ifs <;> simp only [List.length_cons] <;> omega

theorem encodeUTF16LEString_length_le (s : Bytes) :
    (encodeUTF16LEString s).length ≤ 4 * s.length := by
  unfold encodeUTF16LEString stringRunes
  rw [flatten_putLE2_length]
  have h1 := utf16Encode_length_le (runesAux s.length s)
  have h2 := runesAux_length_le s.length s
  omega

theorem encodeUTF16LEString_length_even (s : Bytes) :
    (encodeUTF16LEString s).length % 2 = 0 := by
  unfold encodeUTF16LEString
  rw [flatten_putLE2_length]
  omega

theorem encodeUTF16LEString_length_pos (s : Bytes) (h : s ≠ []) :
    0 < (encodeUTF16LEString s).length := by
  cases s with
  | nil => exact absurd rfl h
  | cons b bs =>
    unfold encodeUTF16LEString stringRunes
    rw [flatten_putLE2_length, List.length_cons, runesAux]
    have := utf16Encode_length_pos (utf8DecodeRune (b :: bs)).1
      (runesAux bs.length (List.drop (utf8DecodeRune (b :: bs)).2 (b :: bs)))
    omega

/-! ## File entries -/

/-- Decoding the UTF-16LE encoding of a valid UTF-8 string gives the string back. -/
theorem decode_encode_of_valid (s : Bytes) (h : validUTF8 s = true) :
    decodeUTF16LEString (encodeUTF16LEString s) = s := by
  unfold decodeUTF16LEString encodeUTF16LEString stringRunes
  obtain ⟨hs, hf⟩ := runesAux_valid s.length s h
  rw [u16sOfBytes_putLE _ (utf16Encode_lt _), utf16Decode_encode _ hs, hf]

/-- Claim C2: for every string `s` that is valid UTF-8 (the empty string, embedded
NULs, BMP characters and characters outside the BMP included),
`decodeUTF16LEString(encodeUTF16LEString(s)) == s`. -/
theorem utf16le_string_round_trip (s : Bytes) (h : validUTF8 s = true) :
    decodeUTF16LEString (encodeUTF16LEString s) = s :=
  decode_encode_of_valid s h

/-- Claim C2 at the string `"A\x00世😀"`: an ASCII character, a NUL, a BMP character
and a character outside the BMP. -/
theorem utf16le_string_round_trip_witness :
    validUTF8 [0x41, 0x00, 0xE4, 0xB8, 0x96, 0xF0, 0x9F, 0x98, 0x80] = true ∧
    decodeUTF16LEString (encodeUTF16LEString [0x41, 0x00, 0xE4, 0xB8, 0x96, 0xF0, 0x9F, 0x98, 0x80])
      = [0x41, 0x00, 0xE4, 0xB8, 0x96, 0xF0, 0x9F, 0x98, 0x80] :=
  ⟨by decide, utf16le_string_round_trip _ (by decide)⟩

theorem readFileEntry_writeFileEntry_append (e : fileEntry) (rest : Bytes) (ht : e.Typed)
    (hne : e.filename ≠ []) (hv : validUTF8 e.filename = true) :
    ∃ b, writeFileEntry e = .ok b ∧
      b.length = fileEntryHeaderSize + (encodeUTF16LEString e.filename).length ∧
      readFileEntry (b ++ rest) = .ok (e.written, rest) := by
  obtain ⟨hS, hF, hH, hK, hN⟩ := ht
  have hle := encodeUTF16LEString_length_le e.filename
  have hev := encodeUTF16LEString_length_even e.filename
  have hpos := encodeUTF16LEString_length_pos e.filename hne
  have hEB : (fileEntryHeaderSize + (encodeUTF16LEString e.filename).length) % 2 ^ 64 =
      fileEntryHeaderSize + (encodeUTF16LEString e.filename).length := by
    apply Nat.mod_eq_of_lt
    rw [fileEntryHeaderSize]
    omega
  refine ⟨_, rfl, ?_, ?_⟩
  · simp only [List.length_append, putLE_length, hH, hK, fileEntryHeaderSize]
  · unfold readFileEntry
    rw [List.append_assoc, readFileEntryHeader_append _ _ _ _ _ _ hH hK]
    simp only
    rw [Nat.mod_mod, hEB, Nat.mod_eq_of_lt hS, Nat.mod_eq_of_lt hF]
    have hfbc : (fileEntryHeaderSize + (encodeUTF16LEString e.filename).length + 2 ^ 64 -
        fileEntryHeaderSize) % 2 ^ 64 = (encodeUTF16LEString e.filename).length := by
      rw [fileEntryHeaderSize]
      omega
    rw [hfbc, if_neg (by omega), if_neg (by rw [List.length_append]; omega),
      List.take_left' rfl, List.drop_left' rfl, decode_encode_of_valid _ hv]
    rfl

/-- Claim C3, amended: for every file entry `e` of the Go type whose filename is
non-empty and valid UTF-8, `writeFileEntry(e)` succeeds with bytes `b`, and
`readFileEntry` on a buffer holding `b` succeeds, consumes the whole buffer and
returns `e` with `header.EntryBytes` set to `len(b)`; `Status`, `FileBytes`,
`Hash`, `SixteenKHash` and the filename come back unchanged. -/
theorem file_entry_round_trip (e : fileEntry) (ht : e.Typed)
    (hne : e.filename ≠ []) (hv : validUTF8 e.filename = true) :
    ∃ b, writeFileEntry e = .ok b ∧
      readFileEntry b =
        .ok ({ header := { e.header with EntryBytes := b.length }, filename := e.filename },
          []) := by
  obtain ⟨b, hw, hl, hr⟩ := readFileEntry_writeFileEntry_append e [] ht hne hv
  refine ⟨b, hw, ?_⟩
  rw [List.append_nil] at hr
  rw [hr, hl]
  rfl

/-- Claim C3, amended, at the entry of `TestFileEntryRoundTrip` with the filename
`"f世.r"`. -/
theorem file_entry_round_trip_witness :
    ∃ b, writeFileEntry ⟨⟨0, 10, 10, List.replicate 16 1, List.replicate 16 3⟩,
        [0x66, 0xE4, 0xB8, 0x96, 0x2E, 0x72]⟩ = .ok b ∧
      readFileEntry b =
        .ok ({ header := { (⟨0, 10, 10, List.replicate 16 1, List.replicate 16 3⟩ :
                fileEntryHeader) with EntryBytes := b.length },
               filename := [0x66, 0xE4, 0xB8, 0x96, 0x2E, 0x72] }, []) :=
  file_entry_round_trip ⟨⟨0, 10, 10, List.replicate 16 1, List.replicate 16 3⟩,
    [0x66, 0xE4, 0xB8, 0x96, 0x2E, 0x72]⟩ (by decide) (by decide) (by decide)

/-- Claim C3 as stated fails: the entry with the non-empty filename `"\xff"`, a Go
string that is not UTF-8, is written as the code unit U+FFFD and read back with
the filename `"\xef\xbf\xbd"`. -/
theorem file_entry_round_trip_invalid_utf8 :
    ¬ ∀ e : fileEntry, e.Typed → e.filename ≠ [] →
      ∃ b, writeFileEntry e = .ok b ∧
        readFileEntry b =
          .ok ({ header := { e.header with EntryBytes := b.length },
                 filename := e.filename }, []) := by
  intro h
  obtain ⟨b, hw, hr⟩ := h ⟨⟨0, 0, 0, List.replicate 16 0, List.replicate 16 0⟩, [0xFF]⟩
    (by decide) (by decide)
  have hw0 : writeFileEntry ⟨⟨0, 0, 0, List.replicate 16 0, List.replicate 16 0⟩, [0xFF]⟩ =
      .ok ([58, 0, 0, 0, 0, 0, 0, 0] ++ List.replicate 48 0 ++ [0xFD, 0xFF]) := rfl
  rw [hw0] at hw
  injection hw with hb
  subst hb
  have hr0 : readFileEntry ([58, 0, 0, 0, 0, 0, 0, 0] ++ List.replicate 48 0 ++ [0xFD, 0xFF]) =
      .ok (⟨⟨58, 0, 0, List.replicate 16 0, List.replicate 16 0⟩, [0xEF, 0xBF, 0xBD]⟩, []) :=
    rfl
  rw [hr0] at hr
  injection hr with hr
  injection hr with hr _
  injection hr with _ hr
  exact absurd hr (by decide)

/-- The three outcomes of `readFileEntry` on a buffer that holds a whole fixed part. -/
theorem readFileEntry_cases (buf : Bytes) (hlen : fileEntryHeaderSize ≤ buf.length) :
    readFileEntry buf =
      if (getLE (buf.take 8) + 2 ^ 64 - 56) % 2 ^ 64 ≤ 0 ∨
          (getLE (buf.take 8) + 2 ^ 64 - 56) % 2 ^ 64 % 2 ≠ 0 then
        .error "invalid entry byte count"
      else if (getLE (buf.take 8) + 2 ^ 64 - 56) % 2 ^ 64 > buf.length - 56 then
        .error "byte count mismatch"
      else
        .ok ({ header :=
                { EntryBytes := getLE (buf.take 8)
                  Status := getLE ((buf.drop 8).take 8)
                  FileBytes := getLE ((buf.drop 16).take 8)
                  Hash := (buf.drop 24).take 16
                  SixteenKHash := (buf.drop 40).take 16 }
               filename := decodeUTF16LEString
                ((buf.drop 56).take ((getLE (buf.take 8) + 2 ^ 64 - 56) % 2 ^ 64)) },
          (buf.drop 56).drop ((getLE (buf.take 8) + 2 ^ 64 - 56) % 2 ^ 64)) := by
  rw [fileEntryHeaderSize] at hlen
  unfold readFileEntry readFileEntryHeader
  rw [if_neg (by omega), if_neg (by rw [fileEntryHeaderSize]; omega)]
  simp only [fileEntryHeaderSize, List.length_drop]

/-- Claim C5: for every buffer (of at most `2 ^ 63 - 1` bytes, the range of
`buf.Len()`) that holds at least a 56-byte file-entry header, `readFileEntry`
succeeds if and only if the filename byte count `EntryBytes - 56` is positive,
even and no larger than the bytes remaining in the buffer; `EntryBytes = 56`
and an odd byte count give "invalid entry byte count", and every
`EntryBytes < 56`, where the `uint64` subtraction wraps around, gives an error. -/
theorem readFileEntry_accepts_iff (buf : Bytes) (hb : isBytes buf)
    (hlen : fileEntryHeaderSize ≤ buf.length) (hint : buf.length < 2 ^ 63) :
    ((∃ r, readFileEntry buf = .ok r) ↔
      (0 < (getLE (buf.take 8) : Int) - 56 ∧ ((getLE (buf.take 8) : Int) - 56) % 2 = 0 ∧
        (getLE (buf.take 8) : Int) - 56 ≤ (buf.length : Int) - 56)) ∧
    (getLE (buf.take 8) = 56 → readFileEntry buf = .error "invalid entry byte count") ∧
    (((getLE (buf.take 8) : Int) - 56) % 2 ≠ 0 →
      readFileEntry buf = .error "invalid entry byte count") ∧
    (getLE (buf.take 8) < 56 → ∃ err, readFileEntry buf = .error err) := by
  have hEB : getLE (buf.take 8) < 2 ^ 64 := by
    have h := getLE_lt (buf.take 8) (isBytes_take buf 8 hb)
    rw [List.length_take, Nat.min_eq_left (by rw [fileEntryHeaderSize] at hlen; omega)] at h
    exact h
  rw [readFileEntry_cases buf hlen]
  rw [fileEntryHeaderSize] at hlen
  generalize getLE (buf.take 8) = EB at hEB ⊢
  refine ⟨⟨?_, ?_⟩, ?_, ?_, ?_⟩
  · rintro ⟨r, hr⟩
    split_ifs at hr with h1 h2
    omega
  · intro h
    rw [if_neg (by omega), if_neg (by omega)]
    exact ⟨_, rfl⟩
  · intro h
    rw [if_pos (by omega)]
  · intro h
    rw [if_pos (by omega)]
  · intro h
    split_ifs with h1 h2
    · exact ⟨_, rfl⟩
    · exact ⟨_, rfl⟩
    · omega

/-- Claim C5 at a buffer of 58 bytes with `EntryBytes = 58` and the filename `"A"`. -/
theorem readFileEntry_accepts_iff_witness :
    ((∃ r, readFileEntry ([58, 0, 0, 0, 0, 0, 0, 0] ++ List.replicate 48 0 ++ [0x41, 0]) =
        .ok r) ↔
      (0 < (getLE (([58, 0, 0, 0, 0, 0, 0, 0] ++ List.replicate 48 0 ++ [0x41, 0]).take 8) : Int)
          - 56 ∧
        ((getLE (([58, 0, 0, 0, 0, 0, 0, 0] ++ List.replicate 48 0 ++ [0x41, 0]).take 8) : Int)
          - 56) % 2 = 0 ∧
        (getLE (([58, 0, 0, 0, 0, 0, 0, 0] ++ List.replicate 48 0 ++ [0x41, 0]).take 8) : Int)
          - 56 ≤
          ((([58, 0, 0, 0, 0, 0, 0, 0] ++ List.replicate 48 0 ++ [0x41, 0]) : Bytes).length : Int)
            - 56)) :=
  (readFileEntry_accepts_iff ([58, 0, 0, 0, 0, 0, 0, 0] ++ List.replicate 48 0 ++ [0x41, 0])
    (by decide) (by decide) (by decide)).1

/-! ## Headers and volumes -/

theorem drop_append_of_le (n : Nat) (l r : Bytes) (h : l.length ≤ n) :
    (l ++ r).drop n = r.drop (n - l.length) := by
  rw [List.drop_append_eq_append_drop, List.drop_eq_nil_of_le h, List.nil_append]

theorem take_append_of_eq (n : Nat) (l r : Bytes) (h : l.length = n) :
    (l ++ r).take n = l := List.take_left' h

theorem writeHeader_eq (h : header) : writeHeader h = .ok (headerBytes h) := rfl

theorem headerBytes_length (h : header) (ht : h.Typed) : (headerBytes h).length = 96 := by
  obtain ⟨h1, -, -, h4, h5, -⟩ := ht
  simp only [headerBytes, List.length_append, putLE_length, h1, h4, h5]

theorem headerBytes_drop (h : header) (ht : h.Typed) (c : Bytes) (hc : c.length = 16) :
    (headerBytes { h with ControlHash := c }).drop controlHashOffset =
      (headerBytes h).drop controlHashOffset := by
  obtain ⟨h1, -, -, h4, h5, -⟩ := ht
  simp only [headerBytes, List.append_assoc, controlHashOffset]
  simp only [drop_append_of_le, putLE_length, h1, h4, hc, Nat.reduceLeDiff, Nat.reduceSub,
    Nat.le_refl, List.drop_zero]

theorem readHeader_headerBytes (h : header) (rest : Bytes) (ht : h.Typed)
    (hid : h.ID = expectedID) (hver : h.VersionNumber = expectedVersion) :
    readHeader (headerBytes h ++ rest) = .ok (h, rest) := by
  have hlen := headerBytes_length h ht
  obtain ⟨h1, h2, h3, h4, h5, h6, h7, h8, h9, h10, h11⟩ := ht
  unfold readHeader
  rw [if_neg (by rw [List.length_append]; omega),
    if_neg (by rw [List.length_append, headerSize]; omega)]
  simp only [headerBytes, List.append_assoc]
  simp only [drop_append_of_le, take_append_of_eq, putLE_length, h1, h4, h5, headerSize,
    Nat.le_refl, Nat.reduceLeDiff, Nat.reduceSub, List.drop_zero, getLE_putLE,
    List.append_nil, List.take_append_of_le_length]
  have tk : ∀ (n : Nat) (l : Bytes), l.length = n → l.take n = l :=
    fun n l h => List.take_of_length_le (by omega)
  have p4 : (256 : Nat) ^ 4 = 2 ^ 32 := by norm_num
  have p8 : (256 : Nat) ^ 8 = 2 ^ 64 := by norm_num
  simp only [tk, putLE_length, h1, h4, h5, getLE_putLE, p4, p8, Nat.mod_eq_of_lt h2,
    Nat.mod_eq_of_lt h3, Nat.mod_eq_of_lt h6, Nat.mod_eq_of_lt h7, Nat.mod_eq_of_lt h8,
    Nat.mod_eq_of_lt h9, Nat.mod_eq_of_lt h10, Nat.mod_eq_of_lt h11]
  rw [if_neg (not_not.2 hid), if_neg (not_not.2 hver)]
theorem writeFileEntries_readFileEntries (entries : List fileEntry) (data : Bytes)
    (ht : ∀ e ∈ entries, e.Typed) (hne : ∀ e ∈ entries, e.filename ≠ [])
    (hv : ∀ e ∈ entries, validUTF8 e.filename = true) :
    ∃ b, writeFileEntries entries = .ok b ∧
      readFileEntries entries.length (b ++ data) = .ok (entries.map fileEntry.written, data) := by
  induction entries with
  | nil => exact ⟨[], rfl, rfl⟩
  | cons e es ih =>
    obtain ⟨bs, hws, hrs⟩ := ih (fun x hx => ht x (List.mem_cons_of_mem _ hx))
      (fun x hx => hne x (List.mem_cons_of_mem _ hx))
      (fun x hx => hv x (List.mem_cons_of_mem _ hx))
    obtain ⟨b, hw, -, hr⟩ := readFileEntry_writeFileEntry_append e (bs ++ data)
      (ht e (List.mem_cons_self _ _)) (hne e (List.mem_cons_self _ _))
      (hv e (List.mem_cons_self _ _))
    refine ⟨b ++ bs, ?_, ?_⟩
    · rw [writeFileEntries, hw, hws]
    · rw [List.length_cons, readFileEntries, List.append_assoc, hr]
      simp only
      rw [hrs]
      rfl

theorem writeVolume_eq (md5 : HashFn) (v : volume) (bs : Bytes)
    (hws : writeFileEntries v.entries = .ok bs) :
    writeVolume md5 v = .ok (writtenBytes md5 v bs) := by
  unfold writeVolume
  rw [writeHeader_eq, hws]
  simp only [writeHeader_eq]
  rfl

theorem writtenBytes_drop (md5 : HashFn) (v : volume) (bs : Bytes) (hth : v.header.Typed) :
    (writtenBytes md5 v bs).drop controlHashOffset =
      (headerBytes v.header).drop controlHashOffset ++ (bs ++ v.data) := by
  have hth2 : ∀ c : Bytes, c.length = 16 →
      ({ v.header with ControlHash := c } : header).Typed := by
    intro c hc
    obtain ⟨h1, h2, h3, h4, h5, h6⟩ := hth
    exact ⟨h1, h2, h3, hc, h5, h6⟩
  unfold writtenBytes
  rw [List.drop_append_of_le_length, headerBytes_drop v.header hth _ (md5.sum_length _)]
  rw [headerBytes_length _ (hth2 _ (md5.sum_length _)), controlHashOffset]
  omega

/-- Reading back a written volume: the header passes the control-hash check and the
entries are read from the serialized entries followed by the payload. -/
theorem readVolume_writtenBytes (md5 : HashFn) (v : volume) (bs : Bytes) (hth : v.header.Typed)
    (hid : v.header.ID = expectedID) (hver : v.header.VersionNumber = expectedVersion) :
    readVolume md5 (writtenBytes md5 v bs) =
      match readFileEntries v.header.FileCount (bs ++ v.data) with
      | .error err => .error err
      | .ok (entries, buf) =>
        .ok { header := { v.header with
                ControlHash := md5.sum ((writtenBytes md5 v bs).drop controlHashOffset) }
              entries := entries
              data := buf } := by
  have hth2 : ∀ c : Bytes, c.length = 16 →
      ({ v.header with ControlHash := c } : header).Typed := by
    intro c hc
    obtain ⟨h1, h2, h3, h4, h5, h6⟩ := hth
    exact ⟨h1, h2, h3, hc, h5, h6⟩
  have hd := writtenBytes_drop md5 v bs hth
  unfold readVolume
  rw [hd]
  unfold writtenBytes
  rw [readHeader_headerBytes _ _ (hth2 _ (md5.sum_length _)) hid hver]
  simp only
  rw [if_neg (not_not.2 rfl)]

/-- A written volume read back. -/
theorem readVolume_writeVolume (md5 : HashFn) (v : volume) (ht : v.Typed)
    (hid : v.header.ID = expectedID) (hver : v.header.VersionNumber = expectedVersion)
    (hcount : v.header.FileCount = v.entries.length)
    (hne : ∀ e ∈ v.entries, e.filename ≠ [])
    (hv : ∀ e ∈ v.entries, validUTF8 e.filename = true) :
    ∃ b, writeVolume md5 v = .ok b ∧
      readVolume md5 b =
        .ok { header := { v.header with ControlHash := md5.sum (b.drop controlHashOffset) }
              entries := v.entries.map fileEntry.written
              data := v.data } := by
  obtain ⟨hth, hte⟩ := ht
  obtain ⟨bs, hws, hrs⟩ := writeFileEntries_readFileEntries v.entries v.data hte hne hv
  refine ⟨writtenBytes md5 v bs, writeVolume_eq md5 v bs hws, ?_⟩
  rw [readVolume_writtenBytes md5 v bs hth hid hver, hcount, hrs]

theorem readFileEntry_error_ne (buf : Bytes) :
    readFileEntry buf ≠ .error "invalid control hash" := by
  by_cases h0 : buf.length = 0
  · unfold readFileEntry readFileEntryHeader
    rw [if_pos h0]
    intro h
    injection h with h
    exact absurd h (by decide)
  · by_cases h1 : buf.length < fileEntryHeaderSize
    · unfold readFileEntry readFileEntryHeader
      rw [if_neg h0, if_pos h1]
      intro h
      injection h with h
      exact absurd h (by decide)
    · rw [readFileEntry_cases buf (by omega)]
      generalize getLE (buf.take 8) = EB
      split_ifs <;>
        (intro h; first | (injection h with h; exact absurd h (by decide)) | cases h)

theorem readFileEntries_error_ne (n : Nat) (buf : Bytes) :
    readFileEntries n buf ≠ .error "invalid control hash" := by
  induction n generalizing buf with
  | zero => simp [readFileEntries]
  | succ n ih =>
    rw [readFileEntries]
    have h1 := readFileEntry_error_ne buf
    cases hr : readFileEntry buf with
    | error err =>
      rw [hr] at h1
      simpa using h1
    | ok r =>
      obtain ⟨e, buf2⟩ := r
      simp only
      have h2 := ih buf2
      cases hr2 : readFileEntries n buf2 with
      | error err =>
        rw [hr2] at h2
        simpa using h2
      | ok r2 => simp

/-- Claim C4: for every byte sequence `b` whose fixed header parses, the stored
`ControlHash` is `b[16:32]`, `readVolume(b)` fails with "invalid control hash" if
and only if the stored `ControlHash` differs from MD5 of `b[32:]` (whatever the
file entries are: the check comes before they are parsed), and every volume
that is returned has `ControlHash` equal to MD5 of `b[32:]`. -/
theorem readVolume_control_hash (md5 : HashFn) (b : Bytes) (h : header) (rest : Bytes)
    (hh : readHeader b = .ok (h, rest)) :
    h.ControlHash = (b.drop 16).take 16 ∧
    (readVolume md5 b = .error "invalid control hash" ↔
      h.ControlHash ≠ md5.sum (b.drop 32)) ∧
    (∀ v, readVolume md5 b = .ok v →
      v.header = h ∧ v.header.ControlHash = md5.sum (b.drop 32)) := by
  refine ⟨?_, ?_, ?_⟩
  · unfold readHeader at hh
    dsimp only at hh
    split_ifs at hh
    injection hh with hh
    injection hh with hh _
    rw [← hh]
  · unfold readVolume
    rw [hh]
    simp only [controlHashOffset]
    constructor
    · intro hv heq
      rw [if_neg (not_not.2 heq.symm)] at hv
      have h2 := readFileEntries_error_ne h.FileCount rest
      cases hr : readFileEntries h.FileCount rest with
      | error err =>
        rw [hr] at hv h2
        dsimp only at hv
        injection hv with hv
        exact h2 (by rw [hv])
      | ok r =>
        rw [hr] at hv
        simp at hv
    · intro hne
      rw [if_pos (fun heq => hne heq.symm)]
  · intro v hv
    unfold readVolume at hv
    rw [hh] at hv
    simp only [controlHashOffset] at hv
    split_ifs at hv with hc
    cases hr : readFileEntries h.FileCount rest with
    | error err =>
      rw [hr] at hv
      simp at hv
    | ok r =>
      rw [hr] at hv
      simp only at hv
      injection hv with hv
      rw [← hv]
      exact ⟨rfl, (not_not.1 hc).symm⟩

/-- Claim C1, amended: for every well-formed PAR1 volume `v` (a value of the Go
type, header with the expected magic and version and `FileCount` equal to the
number of entries, every entry with a non-empty filename that is valid UTF-8),
`writeVolume(v)` succeeds and `readVolume` applied to its output `b` succeeds and
returns `v` with `ControlHash` the MD5 of `b[32:]` and each `EntryBytes` the
length of the serialized entry, the values the writer computes. -/
theorem volume_round_trip (md5 : HashFn) (v : volume) (ht : v.Typed)
    (hid : v.header.ID = expectedID) (hver : v.header.VersionNumber = expectedVersion)
    (hcount : v.header.FileCount = v.entries.length)
    (hne : ∀ e ∈ v.entries, e.filename ≠ [])
    (hv : ∀ e ∈ v.entries, validUTF8 e.filename = true) :
    ∃ b, writeVolume md5 v = .ok b ∧
      readVolume md5 b =
        .ok { header := { v.header with ControlHash := md5.sum (b.drop controlHashOffset) }
              entries := v.entries.map fileEntry.written
              data := v.data } :=
  readVolume_writeVolume md5 v ht hid hver hcount hne hv

/-- Claim C1, amended, at a volume with two entries and a four-byte payload. -/
theorem volume_round_trip_witness :
    ∃ b, writeVolume sumHash goodVolume = .ok b ∧
      readVolume sumHash b =
        .ok { header := { goodVolume.header with
                ControlHash := sumHash.sum (b.drop controlHashOffset) }
              entries := goodVolume.entries.map fileEntry.written
              data := goodVolume.data } :=
  volume_round_trip sumHash goodVolume (by decide) rfl rfl rfl (by decide) (by decide)

/-- Claim C1 as stated fails: the volume `badVolume` is well-formed in the sense of
the claim (expected magic and version, `FileCount = 1`, one entry with the
non-empty filename `"\xff"`), and for no hash function does `readVolume` return
it from the bytes `writeVolume` gives: the filename comes back as
`"\xef\xbf\xbd"`. -/
theorem volume_round_trip_invalid_utf8 :
    (badVolume.Typed ∧ badVolume.header.ID = expectedID ∧
      badVolume.header.VersionNumber = expectedVersion ∧
      badVolume.header.FileCount = badVolume.entries.length ∧
      ∀ e ∈ badVolume.entries, e.filename ≠ []) ∧
    ¬ ∃ md5 : HashFn, ∃ b, writeVolume md5 badVolume = .ok b ∧
      readVolume md5 b =
        .ok { header := { badVolume.header with
                ControlHash := md5.sum (b.drop controlHashOffset) }
              entries := badVolume.entries.map fileEntry.written
              data := badVolume.data } := by
  refine ⟨⟨by decide, rfl, rfl, rfl, by decide⟩, ?_⟩
  rintro ⟨md5, b, hw, hr⟩
  have hws : writeFileEntries badVolume.entries =
      .ok ([58, 0, 0, 0, 0, 0, 0, 0] ++ List.replicate 48 0 ++ [0xFD, 0xFF]) := rfl
  rw [writeVolume_eq md5 _ _ hws] at hw
  injection hw with hb
  subst hb
  rw [readVolume_writtenBytes md5 _ _ (by decide) rfl rfl] at hr
  have hre : readFileEntries badVolume.header.FileCount
      ([58, 0, 0, 0, 0, 0, 0, 0] ++ List.replicate 48 0 ++ [0xFD, 0xFF] ++ badVolume.data) =
      .ok ([⟨⟨58, 0, 0, List.replicate 16 0, List.replicate 16 0⟩, [0xEF, 0xBF, 0xBD]⟩], []) :=
    rfl
  rw [hre] at hr
  dsimp only at hr
  injection hr with hr
  injection hr with _ he _
  exact absurd he (by decide)

/-- Claim C4 at the 96 bytes of a header whose stored control hash is zero. -/
theorem readVolume_control_hash_witness :
    readHeader (headerBytes goodVolume.header) = .ok (goodVolume.header, []) ∧
    (readVolume sumHash (headerBytes goodVolume.header) = .error "invalid control hash" ↔
      goodVolume.header.ControlHash ≠ sumHash.sum ((headerBytes goodVolume.header).drop 32)) :=
  ⟨rfl, (readVolume_control_hash sumHash (headerBytes goodVolume.header) goodVolume.header []
    rfl).2.1⟩

/-! ## Encoder: loading files and building shards -/

theorem length_le_maxLength (files : List Bytes) : ∀ d ∈ files, d.length ≤ maxLength files := by
  induction files with
  | nil => intro d hd; cases hd
  | cons f fs ih =>
    intro d hd
    simp only [maxLength, List.map_cons, List.foldr_cons]
    rcases List.mem_cons.1 hd with h | h
    · rw [h]; exact Nat.le_max_left _ _
    · exact Nat.le_trans (ih d h) (Nat.le_max_right _ _)

theorem loadFileDataLoop_ok (io : fileIO) (paths : List Bytes) :
    ∀ (m : Nat) (fd : List Bytes) (sbc : Int) (fd' : List Bytes) (log : List Event),
    loadFileDataLoop io paths (m : Int) fd = (.ok (sbc, fd'), log) →
    ∃ files, List.Forall₂ (fun p d => io.ReadFile p = .ok d) paths files ∧
      fd' = fd ++ files ∧ sbc = ((max m (maxLength files) : Nat) : Int) := by
  induction paths with
  | nil =>
    intro m fd sbc fd' log h
    rw [loadFileDataLoop] at h
    injection h with h1 h2
    injection h1 with h1
    injection h1 with h3 h4
    refine ⟨[], List.Forall₂.nil, ?_, ?_⟩
    · rw [← h4, List.append_nil]
    · rw [← h3]; simp [maxLength]
  | cons p ps ih =>
    intro m fd sbc fd' log h
    rw [loadFileDataLoop] at h
    cases hr : io.ReadFile p with
    | error err =>
      rw [hr] at h
      dsimp only at h
      injection h with h1 h2
      cases h1
    | ok data =>
      rw [hr] at h
      dsimp only at h
      have hm : (if (data.length : Int) > (m : Int) then (data.length : Int) else (m : Int)) =
          ((max m data.length : Nat) : Int) := by
        split_ifs with hc
        · rw [Nat.max_eq_right (by omega)]
        · rw [Nat.max_eq_left (by omega)]
      rw [hm] at h
      have hsplit : loadFileDataLoop io ps ((max m data.length : Nat) : Int) (fd ++ [data]) =
          (.ok (sbc, fd'), (loadFileDataLoop io ps ((max m data.length : Nat) : Int)
            (fd ++ [data])).2) := by
        injection h with h1 h2
        exact Prod.ext h1 rfl
      obtain ⟨files, hf, hfd, hs⟩ := ih _ _ _ _ _ hsplit
      refine ⟨data :: files, List.Forall₂.cons hr hf, ?_, ?_⟩
      · rw [hfd, List.append_assoc, List.singleton_append]
      · rw [hs]
        simp only [maxLength, List.map_cons, List.foldr_cons]
        congr 1
        omega

theorem makeBytes_of_nonneg (n : Nat) : makeBytes (n : Int) = some (List.replicate n 0) := by
  unfold makeBytes
  rw [if_neg (by omega), Int.toNat_ofNat]

theorem setShard_mid (pre post : List Bytes) (x s : Bytes) (i : Nat) (hi : pre.length = i) :
    setShard (pre ++ x :: post) i s = some (pre ++ s :: post) := by
  unfold setShard
  rw [if_pos (by rw [List.length_append, List.length_cons]; omega), ← hi,
    List.set_append_right _ _ (Nat.le_refl _), Nat.sub_self, List.set_cons_zero]

theorem dataShardsLoop_eq (n : Nat) (datas : List Bytes) :
    ∀ (pre mid post : List Bytes) (i : Nat), pre.length = i → mid.length = datas.length →
    (∀ d ∈ datas, d.length ≤ n) →
    dataShardsLoop (n : Int) datas i (pre ++ mid ++ post) =
      some (pre ++ datas.map (padTo n) ++ post) := by
  induction datas with
  | nil =>
    intro pre mid post i _ hm _
    rw [List.length_nil, List.length_eq_zero] at hm
    rw [hm, dataShardsLoop, List.map_nil]
  | cons d ds ih =>
    intro pre mid post i hi hm hle
    cases mid with
    | nil => simp at hm
    | cons x mid =>
      have hd : d.length ≤ n := hle d (List.mem_cons_self _ _)
      have hsub : (n : Int) - (d.length : Int) = ((n - d.length : Nat) : Int) := by omega
      rw [dataShardsLoop, hsub, makeBytes_of_nonneg]
      dsimp only
      rw [List.append_assoc, List.cons_append, setShard_mid _ _ _ _ _ hi]
      dsimp only
      have h2 := ih (pre ++ [d ++ List.replicate (n - d.length) 0]) mid post (i + 1)
        (by rw [List.length_append, List.length_singleton, hi])
        (by simpa using hm) (fun y hy => hle y (List.mem_cons_of_mem _ hy))
      simp only [List.append_assoc, List.singleton_append, List.cons_append] at h2
      rw [List.map_cons, padTo]
      simp only [List.append_assoc, List.cons_append]
      exact h2

theorem parityShardsLoop_eq (n base : Nat) (count : Nat) :
    ∀ (pre mid post : List Bytes) (i : Nat), pre.length = base + i → mid.length = count →
    parityShardsLoop (n : Int) base count i (pre ++ mid ++ post) =
      some (pre ++ List.replicate count (List.replicate n 0) ++ post) := by
  induction count with
  | zero =>
    intro pre mid post i _ hm
    rw [List.length_eq_zero] at hm
    rw [hm, parityShardsLoop, List.replicate_zero]
  | succ c ih =>
    intro pre mid post i hi hm
    cases mid with
    | nil => simp at hm
    | cons x mid =>
      rw [parityShardsLoop, makeBytes_of_nonneg]
      dsimp only
      rw [List.append_assoc, List.cons_append, setShard_mid _ _ _ _ _ hi]
      dsimp only
      have h2 := ih (pre ++ [List.replicate n 0]) mid post (i + 1)
        (by rw [List.length_append, List.length_singleton, hi]; omega)
        (by simpa using hm)
      simp only [List.append_assoc, List.singleton_append, List.cons_append] at h2
      rw [List.replicate_succ]
      simp only [List.append_assoc, List.cons_append]
      exact h2

/-- The shards built from loaded files. -/
theorem buildShards_eq (e : Encoder) (n vc : Nat) (hn : e.shardByteCount = (n : Int))
    (hvc : e.volumeCount = (vc : Int)) (hle : ∀ d ∈ e.fileData, d.length ≤ n) :
    e.buildShards =
      some (e.fileData.map (padTo n) ++ List.replicate vc (List.replicate n 0)) := by
  unfold Encoder.buildShards
  rw [hn, hvc, if_neg (by omega)]
  have hrep : List.replicate ((e.fileData.length : Int) + (vc : Int)).toNat ([] : Bytes) =
      [] ++ List.replicate e.fileData.length [] ++ List.replicate vc [] := by
    rw [List.nil_append, ← List.replicate_add]
    congr 1
  rw [hrep, dataShardsLoop_eq n e.fileData [] _ _ 0 rfl (List.length_replicate _ _) hle]
  dsimp only
  rw [Int.toNat_ofNat]
  have h2 := parityShardsLoop_eq n e.fileData.length vc (e.fileData.map (padTo n))
    (List.replicate vc []) [] 0 (by rw [List.length_map]; rfl) (List.length_replicate _ _)
  rw [List.append_nil] at h2
  rw [List.nil_append, h2, List.append_nil]

/-- Claim C8, amended: after a successful `Encoder.LoadFileData` of an encoder with
`volumeCount ≥ 0`, `fileData` holds the content of the files in order,
`shardByteCount` equals the maximum byte length over all loaded files (0 when
there are none), and `buildShards` returns `len(files) + volumeCount` shards each
of length exactly `shardByteCount`, where data shard `i` is file `i`'s bytes
followed by zero bytes and every parity shard is all zeros; when
`ComputeParityData` succeeds, the padded data shards followed by the computed
parity shards verify. -/
theorem LoadFileData_buildShards (e e' : Encoder) (log : List Event)
    (hload : e.LoadFileData = (e', none, log)) (hvc : 0 ≤ e.volumeCount) :
    List.Forall₂ (fun p d => e.fileIO.ReadFile p = .ok d) e.filePaths e'.fileData ∧
    e'.shardByteCount = (maxLength e'.fileData : Int) ∧
    ∃ shards, e'.buildShards = some shards ∧
      (shards.length : Int) = (e'.fileData.length : Int) + e.volumeCount ∧
      (∀ s ∈ shards, (s.length : Int) = e'.shardByteCount) ∧
      shards.take e'.fileData.length =
        e'.fileData.map (fun d => d ++ List.replicate (maxLength e'.fileData - d.length) 0) ∧
      shards.drop e'.fileData.length =
        List.replicate e.volumeCount.toNat (List.replicate (maxLength e'.fileData) 0) ∧
      ∀ (rs : ReedSolomon) (e'' : Encoder), e'.ComputeParityData rs = some (e'', none) →
        rs.Verify e'.fileData.length e.volumeCount
          (shards.take e'.fileData.length ++ e''.parityData) = .ok true := by
  unfold Encoder.LoadFileData at hload
  cases hl : loadFileDataLoop e.fileIO e.filePaths 0 [] with
  | mk r lg =>
    rw [hl] at hload
    cases r with
    | error err =>
      dsimp only at hload
      injection hload with _ h2
      injection h2 with h2 _
      cases h2
    | ok p =>
      obtain ⟨sbc, fd⟩ := p
      dsimp only at hload
      injection hload with h1 _
      obtain ⟨files, hf, hfd, hs⟩ := loadFileDataLoop_ok e.fileIO e.filePaths 0 [] sbc fd lg hl
      rw [List.nil_append] at hfd
      rw [Nat.zero_max] at hs
      subst hfd hs
      have hfd' : e'.fileData = fd := by rw [← h1]
      have hsbc' : e'.shardByteCount = (maxLength fd : Int) := by rw [← h1]
      have hvc' : e'.volumeCount = ((e.volumeCount.toNat : Nat) : Int) := by
        rw [← h1, Int.toNat_of_nonneg hvc]
      have hb := buildShards_eq e' (maxLength fd) e.volumeCount.toNat hsbc' hvc'
        (by rw [hfd']; exact length_le_maxLength fd)
      rw [hfd'] at hb ⊢
      have hlenmap : (fd.map (padTo (maxLength fd))).length = fd.length := List.length_map _ _
      refine ⟨hf, hsbc', _, hb, ?_, ?_, ?_, ?_, ?_⟩
      · rw [List.length_append, List.length_map, List.length_replicate, Nat.cast_add,
          Int.toNat_of_nonneg hvc]
      · intro s hs
        rw [hsbc']
        rcases List.mem_append.1 hs with h | h
        · obtain ⟨d, hd, rfl⟩ := List.mem_map.1 h
          have := length_le_maxLength fd d hd
          rw [padTo, List.length_append, List.length_replicate]
          omega
        · rw [List.eq_of_mem_replicate h, List.length_replicate]
      · rw [List.take_left' hlenmap]
        rfl
      · rw [List.drop_left' hlenmap]
      · intro rs e'' hc
        unfold Encoder.ComputeParityData at hc
        rw [hb] at hc
        dsimp only at hc
        rw [hfd'] at hc
        cases hn : rs.New (fd.length : Int) e'.volumeCount with
        | some err =>
          rw [hn] at hc
          dsimp only at hc
          injection hc with hc
          injection hc with _ hc
          cases hc
        | none =>
          rw [hn] at hc
          dsimp only at hc
          cases he : rs.Encode (fd.length : Int) e'.volumeCount
              (fd.map (padTo (maxLength fd)) ++
                List.replicate e.volumeCount.toNat (List.replicate (maxLength fd) 0)) with
          | error err =>
            rw [he] at hc
            dsimp only at hc
            injection hc with hc
            injection hc with _ hc
            cases hc
          | ok out =>
            rw [he] at hc
            dsimp only at hc
            injection hc with hc
            injection hc with hc _
            have hp : e''.parityData = out.drop fd.length := by rw [← hc]
            obtain ⟨-, htake⟩ := rs.encode_data fd.length e'.volumeCount _ out he
            have hv := rs.verify_encode fd.length e'.volumeCount _ out he
            rw [hp, ← htake, List.take_append_drop]
            have hvol : e.volumeCount = e'.volumeCount := by rw [← h1]
            rw [hvol]
            exact hv

/-- Claim C8, amended, at the encoder of `TestEncodeParity`. -/
theorem LoadFileData_buildShards_witness :
    List.Forall₂ (fun p d => testEncoder.fileIO.ReadFile p = .ok d) testEncoder.filePaths
      testEncoderLoaded.fileData ∧
    testEncoderLoaded.shardByteCount = (maxLength testEncoderLoaded.fileData : Int) :=
  have h := LoadFileData_buildShards testEncoder testEncoderLoaded
    testEncoder.LoadFileData.2.2 rfl (by decide)
  ⟨h.1, h.2.1⟩

/-- Claim C8 as stated fails: `newEncoder` accepts `volumeCount = -1`; with one
file, `LoadFileData` succeeds and `buildShards` panics, as `shards` is made with
length 0 and `shards[0]` is assigned. -/
theorem buildShards_negative_volumeCount :
    ∃ e e' log, newEncoder testIO [ascii "file.rar"] (-1) = .ok e ∧
      e.LoadFileData = (e', none, log) ∧ e'.buildShards = none :=
  ⟨negativeEncoder, _, _, rfl, rfl, rfl⟩

/-! ## Encoder: writing volumes -/

theorem writeFileEntries_ok (entries : List fileEntry) :
    ∃ bs, writeFileEntries entries = .ok bs := by
  induction entries with
  | nil => exact ⟨[], rfl⟩
  | cons e es ih =>
    obtain ⟨bs, hbs⟩ := ih
    exact ⟨_, by rw [writeFileEntries, writeFileEntry, hbs]⟩

theorem writeVolume_ok (md5 : HashFn) (v : volume) : ∃ b, writeVolume md5 v = .ok b := by
  obtain ⟨bs, hbs⟩ := writeFileEntries_ok v.entries
  exact ⟨_, writeVolume_eq md5 v bs hbs⟩

theorem writeEntriesLoop_eq (fileData : List Bytes) (paths : List Bytes) :
    ∀ i, i + paths.length ≤ fileData.length →
    writeEntriesLoop fileData paths i = some (List.zipWith entryOf paths (fileData.drop i)) := by
  induction paths with
  | nil => intro i _; rw [writeEntriesLoop, List.zipWith_nil_left]
  | cons k ks ih =>
    intro i hi
    rw [List.length_cons] at hi
    have hlt : i < fileData.length := by omega
    rw [writeEntriesLoop, List.get?_eq_get hlt]
    dsimp only
    rw [ih (i + 1) (by omega)]
    dsimp only
    rw [List.drop_eq_getElem_cons hlt, List.zipWith_cons_cons]
    rfl

theorem fileWrites_write_pair (p d : Bytes) (err : Option String) (rest : List Event) :
    fileWrites ([Event.writeFile p d, Event.onVolumeFileWrite p err] ++ rest) =
      (p, d) :: fileWrites rest := rfl

theorem writeParityLoop_eq (md5 : HashFn) (io : fileIO) (vTemplate : volume) (base : Bytes)
    (volBytes : Nat → Bytes → Bytes) (hio : ∀ p d, io.WriteFile p d = none)
    (hvb : ∀ n s, writeVolume md5
      { vTemplate with header := { vTemplate.header with VolumeNumber := n }, data := s } =
        .ok (volBytes n s))
    (shards : List Bytes) :
    ∀ i, ∃ log, writeParityLoop md5 io vTemplate base shards i = (none, log) ∧
      fileWrites log = (shards.enumFrom i).map
        (fun p => (base ++ [0x2E, 0x70] ++ fmt02d (p.1 + 1), volBytes (p.1 + 1) p.2)) := by
  induction shards with
  | nil => intro i; exact ⟨[], rfl, rfl⟩
  | cons s ss ih =>
    intro i
    obtain ⟨log, hl, hw⟩ := ih (i + 1)
    refine ⟨[Event.writeFile (base ++ [0x2E, 0x70] ++ fmt02d (i + 1)) (volBytes (i + 1) s),
      Event.onVolumeFileWrite (base ++ [0x2E, 0x70] ++ fmt02d (i + 1)) none] ++ log, ?_, ?_⟩
    · rw [writeParityLoop, hvb]
      dsimp only
      rw [hio]
      dsimp only
      rw [hl]
    · rw [fileWrites_write_pair, hw, List.enumFrom_cons, List.map_cons]

/-- The events of `Encoder.Write` when `e.fileData` has an element for every path and
every write succeeds. -/
theorem Write_eq (md5 : HashFn) (e : Encoder) (indexPath : Bytes)
    (hlen : e.fileData.length = e.filePaths.length)
    (hio : ∀ p d, e.fileIO.WriteFile p d = none) :
    ∃ (log : List Event) (bs : Bytes),
      writeFileEntries (List.zipWith entryOf e.filePaths e.fileData) = .ok bs ∧
      e.Write md5 indexPath = some (none, log) ∧
      fileWrites log =
        (indexPath.take (indexPath.length - (pathExt indexPath).length) ++
            [0x2E, 0x70, 0x61, 0x72],
          writtenBytes md5 ⟨writtenHeader 0, List.zipWith entryOf e.filePaths e.fileData, []⟩
            bs) ::
          e.parityData.enum.map (fun p =>
            (indexPath.take (indexPath.length - (pathExt indexPath).length) ++ [0x2E, 0x70] ++
              fmt02d (p.1 + 1),
              writtenBytes md5
                ⟨writtenHeader (p.1 + 1), List.zipWith entryOf e.filePaths e.fileData, p.2⟩
                bs)) := by
  obtain ⟨bs, hbs⟩ := writeFileEntries_ok (List.zipWith entryOf e.filePaths e.fileData)
  have hvb : ∀ n s, writeVolume md5
      { volumeTemplate (List.zipWith entryOf e.filePaths e.fileData) with
        header := { (volumeTemplate (List.zipWith entryOf e.filePaths e.fileData)).header with
          VolumeNumber := n }
        data := s } =
      .ok (writtenBytes md5
        ⟨writtenHeader n, List.zipWith entryOf e.filePaths e.fileData, s⟩ bs) :=
    fun n s => writeVolume_eq md5 _ bs hbs
  obtain ⟨log, hl, hw⟩ := writeParityLoop_eq md5 e.fileIO
    (volumeTemplate (List.zipWith entryOf e.filePaths e.fileData))
    (indexPath.take (indexPath.length - (pathExt indexPath).length)) _ hio hvb e.parityData 0
  have hentries := writeEntriesLoop_eq e.fileData e.filePaths 0 (by omega)
  rw [List.drop_zero] at hentries
  refine ⟨[Event.writeFile (indexPath.take (indexPath.length - (pathExt indexPath).length) ++
          [0x2E, 0x70, 0x61, 0x72]) (writtenBytes md5
            ⟨writtenHeader 0, List.zipWith entryOf e.filePaths e.fileData, []⟩ bs),
        Event.onVolumeFileWrite (indexPath.take (indexPath.length - (pathExt indexPath).length)
          ++ [0x2E, 0x70, 0x61, 0x72]) none] ++ log, bs, hbs, ?_, ?_⟩
  · unfold Encoder.Write
    rw [hentries]
    dsimp only
    have h0 := hvb 0 []
    rw [show ({ volumeTemplate (List.zipWith entryOf e.filePaths e.fileData) with
        header := { (volumeTemplate (List.zipWith entryOf e.filePaths e.fileData)).header with
          VolumeNumber := 0 } } : volume) =
        { volumeTemplate (List.zipWith entryOf e.filePaths e.fileData) with
        header := { (volumeTemplate (List.zipWith entryOf e.filePaths e.fileData)).header with
          VolumeNumber := 0 }
        data := [] } from rfl, h0]
    dsimp only
    rw [hio]
    dsimp only
    rw [hl]
  · rw [fileWrites_write_pair, hw]
    rfl

theorem LoadFileData_ok (e e' : Encoder) (log : List Event)
    (hload : e.LoadFileData = (e', none, log)) :
    e'.fileIO = e.fileIO ∧ e'.filePaths = e.filePaths ∧ e'.volumeCount = e.volumeCount ∧
      e'.parityData = e.parityData ∧ e'.fileData.length = e.filePaths.length := by
  unfold Encoder.LoadFileData at hload
  cases hl : loadFileDataLoop e.fileIO e.filePaths 0 [] with
  | mk r lg =>
    rw [hl] at hload
    cases r with
    | error err =>
      dsimp only at hload
      injection hload with _ h2
      injection h2 with h2 _
      cases h2
    | ok p =>
      obtain ⟨sbc, fd⟩ := p
      dsimp only at hload
      injection hload with h1 _
      obtain ⟨files, hf, hfd, -⟩ := loadFileDataLoop_ok e.fileIO e.filePaths 0 [] sbc fd lg hl
      rw [List.nil_append] at hfd
      subst hfd
      rw [← h1]
      exact ⟨rfl, rfl, rfl, rfl, hf.length_eq.symm⟩

theorem ComputeParityData_ok (rs : ReedSolomon) (e e' : Encoder)
    (hcomp : e.ComputeParityData rs = some (e', none)) :
    e'.fileIO = e.fileIO ∧ e'.filePaths = e.filePaths ∧ e'.fileData = e.fileData := by
  unfold Encoder.ComputeParityData at hcomp
  cases hb : e.buildShards with
  | none => rw [hb] at hcomp; cases hcomp
  | some shards =>
    rw [hb] at hcomp
    dsimp only at hcomp
    cases hn : rs.New (e.fileData.length : Int) e.volumeCount with
    | some err =>
      rw [hn] at hcomp
      dsimp only at hcomp
      injection hcomp with hc
      injection hc with _ hc
      cases hc
    | none =>
      rw [hn] at hcomp
      dsimp only at hcomp
      cases he : rs.Encode (e.fileData.length : Int) e.volumeCount shards with
      | error err =>
        rw [he] at hcomp
        dsimp only at hcomp
        injection hcomp with hc
        injection hc with _ hc
        cases hc
      | ok out =>
        rw [he] at hcomp
        dsimp only at hcomp
        injection hcomp with hc
        injection hc with hc _
        rw [← hc]
        exact ⟨rfl, rfl, rfl⟩

theorem fmt02d_two_digits : ∀ n, n < 100 → fmt02d n = [0x30 + n / 10, 0x30 + n % 10] := by
  decide

/-- Claim C9: for every encoder state `e` after `LoadFileData` and
`ComputeParityData` and every `indexPath`, when all writes succeed
`Encoder.Write` performs exactly `1 + len(parityData)` file writes in this order:
first the index volume with `VolumeNumber` 0 and empty payload to `<base>.par`,
then for each `i` the volume with `VolumeNumber` `i+1` and payload
`parityData[i]` to `<base>.pNN` with `NN = i+1` printed by `%02d` (two digits,
zero-padded, below 100), where `<base>` is `indexPath` with its extension
removed; the bytes written are those of `writeVolume`, and every volume carries
the same entries and a header that differs only in `VolumeNumber`. -/
theorem Write_file_writes (md5 : HashFn) (rs : ReedSolomon) (e0 e1 e : Encoder)
    (log0 : List Event) (indexPath : Bytes)
    (hload : e0.LoadFileData = (e1, none, log0))
    (hcomp : e1.ComputeParityData rs = some (e, none))
    (hio : ∀ p d, e.fileIO.WriteFile p d = none) :
    ∃ (log : List Event) (volBytes : Nat → Bytes → Bytes),
      e.Write md5 indexPath = some (none, log) ∧
      (∀ n s, writeVolume md5
        { header := { (volumeTemplate (List.zipWith entryOf e.filePaths e.fileData)).header with
            VolumeNumber := n }
          entries := List.zipWith entryOf e.filePaths e.fileData
          data := s } = .ok (volBytes n s)) ∧
      fileWrites log =
        (indexPath.take (indexPath.length - (pathExt indexPath).length) ++ ascii ".par",
            volBytes 0 []) ::
          e.parityData.enum.map (fun p =>
            (indexPath.take (indexPath.length - (pathExt indexPath).length) ++ ascii ".p" ++
              fmt02d (p.1 + 1), volBytes (p.1 + 1) p.2)) ∧
      (fileWrites log).length = 1 + e.parityData.length ∧
      ∀ n, n < 100 → fmt02d n = [0x30 + n / 10, 0x30 + n % 10] := by
  obtain ⟨-, hp1, -, -, hl1⟩ := LoadFileData_ok e0 e1 log0 hload
  obtain ⟨-, hp2, hd2⟩ := ComputeParityData_ok rs e1 e hcomp
  have hlen : e.fileData.length = e.filePaths.length := by rw [hd2, hp2, hp1, hl1]
  obtain ⟨log, bs, hbs, hw, hf⟩ := Write_eq md5 e indexPath hlen hio
  refine ⟨log, fun n s => writtenBytes md5
    ⟨writtenHeader n, List.zipWith entryOf e.filePaths e.fileData, s⟩ bs, hw,
    fun n s => writeVolume_eq md5 _ bs hbs, hf, ?_, fmt02d_two_digits⟩
  rw [hf, List.length_cons, List.length_map, List.enum_length]
  omega

/-- Claim C9 at the encoder of `TestEncodeParity` with three parity shards and the
index path `dir/file.par`. -/
theorem Write_file_writes_witness :
    ∃ (log : List Event) (volBytes : Nat → Bytes → Bytes),
      ({ testEncoderLoaded with parityData := List.replicate 3 [1, 2, 3, 0] }).Write sumHash
        (ascii "dir/file.par") = some (none, log) ∧
      (fileWrites log).map Prod.fst =
        [ascii "dir/file.par", ascii "dir/file.p01", ascii "dir/file.p02",
          ascii "dir/file.p03"] ∧
      (fileWrites log).map Prod.snd =
        [volBytes 0 [], volBytes 1 [1, 2, 3, 0], volBytes 2 [1, 2, 3, 0],
          volBytes 3 [1, 2, 3, 0]] := by
  obtain ⟨log, volBytes, hw, -, hf, -, -⟩ := Write_file_writes sumHash copyCoder testEncoder
    testEncoderLoaded { testEncoderLoaded with parityData := List.replicate 3 [1, 2, 3, 0] }
    testEncoder.LoadFileData.2.2 (ascii "dir/file.par") rfl rfl (fun _ _ => rfl)
  exact ⟨log, volBytes, hw, by rw [hf]; rfl, by rw [hf]; rfl⟩

set_option maxRecDepth 8192 in
/-- Claim C10 fails on the code. For the five files of `TestEncodeParity`, any three
parity shards `p1 p2 p3` and any hash function, `Encoder.Write` writes four
volume files, and `readVolume` of each of them succeeds with `FileCount = 0`, no
file entry, and a payload that is the 360 bytes of the five serialized entries
followed by the parity shard: `Encoder.Write` never sets `header.FileCount`. -/
theorem Write_volumes_read_back_without_entries (md5 : HashFn) (p1 p2 p3 : Bytes) :
    ∃ log, ({ testEncoderLoaded with parityData := [p1, p2, p3] }).Write md5
        (ascii "file.par") = some (none, log) ∧
      (fileWrites log).map Prod.fst =
        [ascii "file.par", ascii "file.p01", ascii "file.p02", ascii "file.p03"] ∧
      ∃ bs : Bytes, bs.length = 360 ∧
        (fileWrites log).map (fun w => (readVolume md5 w.2).toOption.map
          (fun v => (v.header.FileCount, v.entries, v.data))) =
          [some (0, [], bs), some (0, [], bs ++ p1), some (0, [], bs ++ p2),
            some (0, [], bs ++ p3)] := by
  obtain ⟨log, bs, hbs, hw, hf⟩ := Write_eq md5
    { testEncoderLoaded with parityData := [p1, p2, p3] } (ascii "file.par") rfl
    (fun _ _ => rfl)
  have hbs0 : writeFileEntries (List.zipWith entryOf testPaths testEncoderLoaded.fileData) =
      .ok (match writeFileEntries (List.zipWith entryOf testPaths testEncoderLoaded.fileData)
        with | .ok b => b | .error _ => []) := rfl
  have hbl : bs.length = 360 := by
    have h : writeFileEntries (List.zipWith entryOf testPaths testEncoderLoaded.fileData) =
        .ok bs := hbs
    rw [hbs0] at h
    injection h with h
    rw [← h]
    rfl
  have hf2 : fileWrites log =
      [(ascii "file.par", writtenBytes md5
          ⟨writtenHeader 0, List.zipWith entryOf testPaths testEncoderLoaded.fileData, []⟩ bs),
        (ascii "file.p01", writtenBytes md5
          ⟨writtenHeader 1, List.zipWith entryOf testPaths testEncoderLoaded.fileData, p1⟩ bs),
        (ascii "file.p02", writtenBytes md5
          ⟨writtenHeader 2, List.zipWith entryOf testPaths testEncoderLoaded.fileData, p2⟩ bs),
        (ascii "file.p03", writtenBytes md5
          ⟨writtenHeader 3, List.zipWith entryOf testPaths testEncoderLoaded.fileData, p3⟩ bs)] :=
    hf
  have hread : ∀ n s, n < 4 → readVolume md5 (writtenBytes md5
      ⟨writtenHeader n, List.zipWith entryOf testPaths testEncoderLoaded.fileData, s⟩ bs) =
      .ok ⟨{ writtenHeader n with ControlHash := md5.sum ((writtenBytes md5
        ⟨writtenHeader n, List.zipWith entryOf testPaths testEncoderLoaded.fileData, s⟩
        bs).drop controlHashOffset) }, [], bs ++ s⟩ := by
    intro n s hn
    have hT : (writtenHeader n).Typed := by
      refine ⟨rfl, ?_, ?_, rfl, rfl, ?_, ?_, ?_, ?_, ?_, ?_⟩
      · show expectedVersion < 2 ^ 32
        decide
      · show 0 < 2 ^ 32
        decide
      · show n < 2 ^ 64
        omega
      all_goals
        show 0 < 2 ^ 64
        decide
    rw [readVolume_writtenBytes md5 _ bs hT rfl rfl]
    rfl
  refine ⟨log, hw, ?_, bs, hbl, ?_⟩
  · rw [hf2]
    rfl
  · rw [hf2]
    simp only [List.map_cons, List.map_nil]
    rw [hread 0 [] (by omega), hread 1 p1 (by omega), hread 2 p2 (by omega),
      hread 3 p3 (by omega), List.append_nil]
    rfl

/-! ## Reed–Solomon coder -/

theorem enumFrom_filter_isNone_length (l : List (Option Shard)) :
    ∀ n, ((l.enumFrom n).filter (fun p => p.2.isNone)).length = l.countP (·.isNone) := by
  induction l with
  | nil => intro n; rfl
  | cons x xs ih =>
    intro n
    rw [List.enumFrom_cons, List.filter_cons, List.countP_cons]
    cases x with
    | none => simp [ih]
    | some s => simp [ih]

theorem enumFrom_filterMap_length (l : List (Option Shard)) :
    ∀ n, ((l.enumFrom n).filterMap (fun p => p.2.map (fun s => (p.1, s)))).length =
      l.countP (·.isSome) := by
  induction l with
  | nil => intro n; rfl
  | cons x xs ih =>
    intro n
    rw [List.enumFrom_cons, List.countP_cons]
    cases x with
    | none => simp [List.filterMap_cons, ih]
    | some s => simp [List.filterMap_cons, ih]

/-- Claim C7: for every coder and every data and parity input to `ReconstructData`
in which the number of missing (`nil`) data shards exceeds the number of present
(non-`nil`) parity shards, `ReconstructData` returns the error
"not enough parity shards". -/
theorem ReconstructData_not_enough (c : Coder) (data parity : List (Option Shard))
    (h : parity.countP (·.isSome) < data.countP (·.isNone)) :
    c.ReconstructData data parity = .error "not enough parity shards" := by
  unfold Coder.ReconstructData
  have h1 : (missingIndices data).length = data.countP (·.isNone) := by
    unfold missingIndices
    rw [List.length_map]
    exact enumFrom_filter_isNone_length data 0
  have h2 : (presentShards parity).length = parity.countP (·.isSome) :=
    enumFrom_filterMap_length parity 0
  simp only
  rw [if_pos (by rw [h1, h2]; exact h)]

/-- Claim C7 at the two inputs of `TestCoderReconstructDataNotEnough`: all three
parity shards present and four data shards missing; three data shards missing
and only two of the three parity shards present. -/
theorem ReconstructData_not_enough_witness :
    testCoder.ReconstructData [some [0x1, 0x2], none, none, none, none]
        ((testCoder.GenerateParity testData).map some) = .error "not enough parity shards" ∧
    testCoder.ReconstructData [some [0x1, 0x2], some [0x3, 0x4], none, none, none]
        (none :: ((testCoder.GenerateParity testData).map some).tail) =
      .error "not enough parity shards" :=
  ⟨ReconstructData_not_enough testCoder _ _ (by decide),
    ReconstructData_not_enough testCoder _ _ (by decide)⟩

/-- The product `x · x¹⁵` is `x¹⁶ = x¹² + x³ + x + 1`. -/
theorem gfMul_example : gfMul 2 0x8000 = 0x100B := by decide

set_option maxRecDepth 100000 in
/-- Scenario 6 of the specification: 5 input shards, 3 recovery shards; input shards
0 and 2 and recovery shard 0 are erased, and reconstruction yields the original
input. -/
theorem ReconstructData_scenario_6 :
    testCoder.ReconstructData [none, some [0x3, 0x4], none, some [0x7, 0x8], some [0x9, 0xa]]
        (none :: ((testCoder.GenerateParity testData).map some).tail) =
      .ok (testData.map some) := by
  rfl

/-! ## Reed–Solomon coder: the field GF(2^16) -/

theorem gfMulAux_succ (k a b acc : Nat) :
    gfMulAux (k + 1) a b acc =
      gfMulAux k (mulX a) (b / 2) (if b % 2 = 1 then acc ^^^ a else acc) := rfl

theorem two_pow_add_eq_xor (k r : Nat) (h : r < 2 ^ k) : 2 ^ k + r = 2 ^ k ^^^ r := by
  apply Nat.eq_of_testBit_eq
  intro i
  rw [Nat.testBit_xor, Nat.testBit_two_pow]
  rcases Nat.lt_trichotomy i k with hlt | heq | hgt
  · rw [Nat.testBit_two_pow_add_gt hlt]
    have : ¬ k = i := by omega
    simp [this]
  · subst heq
    rw [Nat.testBit_two_pow_add_eq, Nat.testBit_lt_two_pow h]
    simp
  · have hk : 2 ^ (k + 1) ≤ 2 ^ i := Nat.pow_le_pow_right (by omega) (by omega)
    have h1 : 2 ^ k + r < 2 ^ i := by rw [Nat.pow_succ] at hk; omega
    have h2 : r < 2 ^ i := by omega
    rw [Nat.testBit_lt_two_pow h1, Nat.testBit_lt_two_pow h2]
    have : ¬ k = i := by omega
    simp [this]

theorem two_mul_xor (a b : Nat) : 2 * (a ^^^ b) = 2 * a ^^^ 2 * b := by
  have h1 : (2 * a ^^^ 2 * b) / 2 = a ^^^ b := by
    rw [Nat.xor_div_two, Nat.mul_div_cancel_left _ (by omega), Nat.mul_div_cancel_left _ (by omega)]
  have h2 : (2 * a ^^^ 2 * b) % 2 = 0 := by
    rw [Nat.xor_mod_two_eq]
    omega
  omega

theorem xor_mod_two_pow (a b n : Nat) : (a ^^^ b) % 2 ^ n = a % 2 ^ n ^^^ b % 2 ^ n := by
  rw [← Nat.and_pow_two_sub_one_eq_mod, ← Nat.and_pow_two_sub_one_eq_mod,
    ← Nat.and_pow_two_sub_one_eq_mod, Nat.and_xor_distrib_right]

theorem xor_div_two_pow (a b n : Nat) : (a ^^^ b) / 2 ^ n = a / 2 ^ n ^^^ b / 2 ^ n := by
  induction n generalizing a b with
  | zero => simp
  | succ n ih =>
    rw [Nat.pow_succ, Nat.mul_comm, ← Nat.div_div_eq_div_mul, ← Nat.div_div_eq_div_mul,
      ← Nat.div_div_eq_div_mul, Nat.xor_div_two, ih]

/-- The normal form of `mulX` on 16-bit values. -/
theorem mulX_eq (a : Nat) (ha : a < 65536) :
    mulX a = (2 * a) % 65536 ^^^ (if 32768 ≤ a then 0x100B else 0) := by
  unfold mulX
  by_cases h : 32768 ≤ a
  · rw [if_pos (by omega), if_pos h]
    have e1 : 2 * a = 2 ^ 16 ^^^ (2 * a - 65536) := by
      rw [← two_pow_add_eq_xor 16 _ (by omega)]
      omega
    have e2 : (0x1100B : Nat) = 2 ^ 16 ^^^ 0x100B := by decide
    have e3 : 2 * a % 65536 = 2 * a - 65536 := by omega
    rw [e3]
    generalize 2 * a - 65536 = r at e1
    rw [e1, e2, Nat.xor_assoc, ← Nat.xor_assoc r, Nat.xor_comm r, Nat.xor_assoc (2 ^ 16),
      ← Nat.xor_assoc (2 ^ 16), Nat.xor_self, Nat.zero_xor]
  · rw [if_neg (by omega), if_neg h, Nat.xor_zero, Nat.mod_eq_of_lt (by omega)]

theorem mulX_lt (a : Nat) (ha : a < 65536) : mulX a < 65536 := by
  rw [mulX_eq a ha]
  apply Nat.xor_lt_two_pow (n := 16)
  · exact Nat.mod_lt _ (by decide)
  · split_ifs <;> decide

theorem xor_lt (a b : Nat) (ha : a < 65536) (hb : b < 65536) : a ^^^ b < 65536 :=
  Nat.xor_lt_two_pow (n := 16) ha hb

theorem mulX_xor (a b : Nat) (ha : a < 65536) (hb : b < 65536) :
    mulX (a ^^^ b) = mulX a ^^^ mulX b := by
  have hab := xor_lt a b ha hb
  rw [mulX_eq a ha, mulX_eq b hb, mulX_eq _ hab, two_mul_xor,
    show 65536 = 2 ^ 16 from rfl, xor_mod_two_pow]
  have hd := xor_div_two_pow a b 15
  have hq : ∀ x, x < 65536 → (32768 ≤ x ↔ x / 2 ^ 15 = 1) := by
    intro x hx
    constructor <;> intro h <;> omega
  have hq0 : ∀ x, x < 65536 → (¬ 32768 ≤ x ↔ x / 2 ^ 15 = 0) := by
    intro x hx
    constructor <;> intro h <;> omega
  generalize 2 * a % 2 ^ 16 = u
  generalize 2 * b % 2 ^ 16 = v
  by_cases h1 : 32768 ≤ a <;> by_cases h2 : 32768 ≤ b
  · have : ¬ 32768 ≤ a ^^^ b := by
      rw [hq0 _ hab, hd, (hq a ha).1 h1, (hq b hb).1 h2]
      rfl
    rw [if_pos h1, if_pos h2, if_neg this, Nat.xor_zero, Nat.xor_assoc, ← Nat.xor_assoc 4107,
      Nat.xor_comm 4107 v, Nat.xor_assoc v, Nat.xor_self, Nat.xor_zero]
  · have : 32768 ≤ a ^^^ b := by
      rw [hq _ hab, hd, (hq a ha).1 h1, (hq0 b hb).1 h2]
      rfl
    rw [if_pos h1, if_neg h2, if_pos this, Nat.xor_zero, Nat.xor_assoc, Nat.xor_assoc,
      Nat.xor_comm 4107 v]
  · have : 32768 ≤ a ^^^ b := by
      rw [hq _ hab, hd, (hq0 a ha).1 h1, (hq b hb).1 h2]
      rfl
    rw [if_neg h1, if_pos h2, if_pos this, Nat.xor_zero, Nat.xor_assoc]
  · have : ¬ 32768 ≤ a ^^^ b := by
      rw [hq0 _ hab, hd, (hq0 a ha).1 h1, (hq0 b hb).1 h2]
      rfl
    rw [if_neg h1, if_neg h2, if_neg this, Nat.xor_zero, Nat.xor_zero, Nat.xor_zero]

theorem gfMulAux_zero_right (k a acc : Nat) : gfMulAux k a 0 acc = acc := by
  induction k generalizing a with
  | zero => rfl
  | succ k ih =>
    rw [gfMulAux_succ]
    simpa using ih (mulX a)

theorem gfMulAux_lt (k a b acc : Nat) (ha : a < 65536) (hacc : acc < 65536) :
    gfMulAux k a b acc < 65536 := by
  induction k generalizing a b acc with
  | zero => exact hacc
  | succ k ih =>
    rw [gfMulAux_succ]
    apply ih _ _ _ (mulX_lt a ha)
    split_ifs
    · exact xor_lt _ _ hacc ha
    · exact hacc

theorem gfMul_lt (a b : Nat) (ha : a < 65536) : gfMul a b < 65536 :=
  gfMulAux_lt 16 a b 0 ha (by decide)

/-- The accumulator is only added to. -/
theorem gfMulAux_acc (k a b acc : Nat) :
    gfMulAux k a b acc = acc ^^^ gfMulAux k a b 0 := by
  induction k generalizing a b acc with
  | zero => simp [gfMulAux]
  | succ k ih =>
    rw [gfMulAux_succ, gfMulAux_succ]
    split_ifs with h
    · rw [ih _ _ (acc ^^^ a), ih _ _ (0 ^^^ a), Nat.zero_xor, Nat.xor_assoc]
    · exact ih _ _ acc

theorem xor_xor_cancel (a u v : Nat) : (a ^^^ u) ^^^ (a ^^^ v) = u ^^^ v := by
  calc (a ^^^ u) ^^^ (a ^^^ v) = a ^^^ (a ^^^ (u ^^^ v)) := by ac_rfl
    _ = u ^^^ v := Nat.xor_cancel_left _ _

theorem gfMulAux_xor_right (k a b b' : Nat) :
    gfMulAux k a (b ^^^ b') 0 = gfMulAux k a b 0 ^^^ gfMulAux k a b' 0 := by
  induction k generalizing a b b' with
  | zero => simp [gfMulAux]
  | succ k ih =>
    rw [gfMulAux_succ, gfMulAux_succ, gfMulAux_succ, Nat.xor_div_two]
    have hm := @Nat.xor_mod_two_eq b b'
    have hb : b % 2 = 0 ∨ b % 2 = 1 := by omega
    have hb' : b' % 2 = 0 ∨ b' % 2 = 1 := by omega
    rcases hb with hb | hb <;> rcases hb' with hb' | hb'
    · rw [if_neg (by omega), if_neg (by omega), if_neg (by omega), ih]
    · rw [if_pos (by omega), if_neg (by omega), if_pos (by omega),
        gfMulAux_acc _ _ _ (0 ^^^ a), gfMulAux_acc _ _ (b' / 2) (0 ^^^ a), ih]
      simp only [Nat.zero_xor]
      ac_rfl
    · rw [if_pos (by omega), if_pos (by omega), if_neg (by omega),
        gfMulAux_acc _ _ _ (0 ^^^ a), gfMulAux_acc _ _ (b / 2) (0 ^^^ a), ih]
      simp only [Nat.zero_xor]
      ac_rfl
    · rw [if_neg (by omega), if_pos (by omega), if_pos (by omega),
        gfMulAux_acc _ _ (b / 2) (0 ^^^ a), gfMulAux_acc _ _ (b' / 2) (0 ^^^ a), ih]
      simp only [Nat.zero_xor]
      rw [xor_xor_cancel]

theorem gfMul_xor_right (a b b' : Nat) : gfMul a (b ^^^ b') = gfMul a b ^^^ gfMul a b' :=
  gfMulAux_xor_right 16 a b b'

theorem gfMulAux_xor_left (k a a' b : Nat) (ha : a < 65536) (ha' : a' < 65536) :
    gfMulAux k (a ^^^ a') b 0 = gfMulAux k a b 0 ^^^ gfMulAux k a' b 0 := by
  induction k generalizing a a' b with
  | zero => simp [gfMulAux]
  | succ k ih =>
    rw [gfMulAux_succ, gfMulAux_succ, gfMulAux_succ, mulX_xor a a' ha ha']
    split_ifs with h
    · rw [gfMulAux_acc _ _ _ (0 ^^^ (a ^^^ a')), gfMulAux_acc _ _ _ (0 ^^^ a),
        gfMulAux_acc _ _ _ (0 ^^^ a'), ih _ _ _ (mulX_lt a ha) (mulX_lt a' ha')]
      simp only [Nat.zero_xor]
      ac_rfl
    · exact ih _ _ _ (mulX_lt a ha) (mulX_lt a' ha')

theorem gfMul_xor_left (a a' b : Nat) (ha : a < 65536) (ha' : a' < 65536) :
    gfMul (a ^^^ a') b = gfMul a b ^^^ gfMul a' b :=
  gfMulAux_xor_left 16 a a' b ha ha'

theorem gfMul_one_right (a : Nat) : gfMul a 1 = a := by
  unfold gfMul
  rw [gfMulAux_succ]
  simp [gfMulAux_zero_right]

theorem gfMul_zero_right (a : Nat) : gfMul a 0 = 0 := gfMulAux_zero_right 16 a 0

theorem mulX_zero : mulX 0 = 0 := rfl

theorem gfMulAux_zero_left (k b : Nat) : gfMulAux k 0 b 0 = 0 := by
  induction k generalizing b with
  | zero => rfl
  | succ k ih =>
    rw [gfMulAux_succ, mulX_zero]
    split_ifs <;> exact ih _

theorem gfMul_zero_left (b : Nat) : gfMul 0 b = 0 := gfMulAux_zero_left 16 b

/-- Multiplication commutes with multiplication by `x` on the left. -/
theorem gfMulAux_mulX (k a b acc : Nat) (ha : a < 65536) (hacc : acc < 65536) :
    gfMulAux k (mulX a) b (mulX acc) = mulX (gfMulAux k a b acc) := by
  induction k generalizing a b acc with
  | zero => rfl
  | succ k ih =>
    rw [gfMulAux_succ, gfMulAux_succ]
    split_ifs with h
    · rw [← mulX_xor acc a hacc ha]
      exact ih _ _ _ (mulX_lt a ha) (xor_lt _ _ hacc ha)
    · exact ih _ _ _ (mulX_lt a ha) hacc

theorem gfMul_mulX_left (a b : Nat) (ha : a < 65536) : gfMul (mulX a) b = mulX (gfMul a b) := by
  have h := gfMulAux_mulX 16 a b 0 ha (by decide)
  rw [mulX_zero] at h
  exact h

/-- Two maps that respect `^^^` on 16-bit values and agree on the powers of two agree
on all 16-bit values. -/
theorem eq_of_eq_on_basis (f g : Nat → Nat)
    (hf : ∀ a b, a < 65536 → b < 65536 → f (a ^^^ b) = f a ^^^ f b)
    (hg : ∀ a b, a < 65536 → b < 65536 → g (a ^^^ b) = g a ^^^ g b)
    (hb : ∀ i, i < 16 → f (2 ^ i) = g (2 ^ i)) :
    ∀ a, a < 65536 → f a = g a := by
  have h0 : ∀ h : Nat → Nat, (∀ a b, a < 65536 → b < 65536 → h (a ^^^ b) = h a ^^^ h b) →
      h 0 = 0 := by
    intro h hh
    have := hh 0 0 (by decide) (by decide)
    rw [Nat.xor_self] at this
    have h2 : h 0 ^^^ h 0 = 0 := Nat.xor_self _
    rw [h2] at this
    exact this
  have key : ∀ k, k ≤ 16 → ∀ a, a < 2 ^ k → f a = g a := by
    intro k
    induction k with
    | zero =>
      intro _ a ha
      have : a = 0 := by simpa using ha
      rw [this, h0 f hf, h0 g hg]
    | succ k ih =>
      intro hk a ha
      by_cases hlt : a < 2 ^ k
      · exact ih (by omega) a hlt
      · have hp : 2 ^ k < 65536 := by
          calc 2 ^ k < 2 ^ 16 := Nat.pow_lt_pow_right (by omega) (by omega)
            _ = 65536 := rfl
        have hr : a - 2 ^ k < 2 ^ k := by rw [Nat.pow_succ] at ha; omega
        have ha' : a = 2 ^ k ^^^ (a - 2 ^ k) := by
          rw [← two_pow_add_eq_xor k _ hr]
          omega
        have hr2 : a - 2 ^ k < 65536 := by omega
        rw [ha', hf _ _ hp hr2, hg _ _ hp hr2, hb k (by omega), ih (by omega) _ hr]
  intro a ha
  exact key 16 (Nat.le_refl _) a ha

theorem gfMulAux_two_pow (j : Nat) : ∀ (k a acc : Nat), j < k →
    gfMulAux k a (2 ^ j) acc = acc ^^^ (mulX^[j] a) := by
  induction j with
  | zero =>
    intro k a acc h
    obtain ⟨k', rfl⟩ : ∃ k', k = k' + 1 := ⟨k - 1, by omega⟩
    rw [gfMulAux_succ]
    simp [gfMulAux_zero_right]
  | succ j ih =>
    intro k a acc h
    obtain ⟨k', rfl⟩ : ∃ k', k = k' + 1 := ⟨k - 1, by omega⟩
    have h2 : 2 ^ (j + 1) % 2 = 0 := by rw [Nat.pow_succ]; omega
    have h3 : 2 ^ (j + 1) / 2 = 2 ^ j := by rw [Nat.pow_succ]; omega
    rw [gfMulAux_succ, if_neg (by omega), h3, ih k' _ _ (by omega), Function.iterate_succ_apply]

theorem gfMul_two_pow (a j : Nat) (h : j < 16) : gfMul a (2 ^ j) = mulX^[j] a := by
  unfold gfMul
  rw [gfMulAux_two_pow j 16 a 0 h, Nat.zero_xor]

theorem iterate_mulX_lt (j a : Nat) (ha : a < 65536) : mulX^[j] a < 65536 := by
  induction j with
  | zero => exact ha
  | succ j ih => rw [Function.iterate_succ_apply']; exact mulX_lt _ ih

theorem gfMul_iterate_mulX_left (j a b : Nat) (ha : a < 65536) :
    gfMul (mulX^[j] a) b = mulX^[j] (gfMul a b) := by
  induction j with
  | zero => rfl
  | succ j ih =>
    rw [Function.iterate_succ_apply', Function.iterate_succ_apply',
      gfMul_mulX_left _ _ (iterate_mulX_lt j a ha), ih]

theorem iterate_mulX_one (i : Nat) (h : i < 16) : mulX^[i] 1 = 2 ^ i := by
  induction i with
  | zero => rfl
  | succ i ih =>
    rw [Function.iterate_succ_apply', ih (by omega)]
    have hp : 2 ^ i < 32768 := by
      calc 2 ^ i < 2 ^ 15 := Nat.pow_lt_pow_right (by omega) (by omega)
        _ = 32768 := rfl
    unfold mulX
    rw [if_neg (by omega), Nat.pow_succ]
    omega

theorem gfMul_basis_comm (i j : Nat) (hi : i < 16) (hj : j < 16) :
    gfMul (2 ^ i) (2 ^ j) = gfMul (2 ^ j) (2 ^ i) := by
  rw [gfMul_two_pow _ j hj, gfMul_two_pow _ i hi, ← iterate_mulX_one i hi,
    ← iterate_mulX_one j hj, ← Function.iterate_add_apply, ← Function.iterate_add_apply,
    Nat.add_comm]

theorem two_pow_lt (i : Nat) (h : i < 16) : 2 ^ i < 65536 := by
  calc 2 ^ i < 2 ^ 16 := Nat.pow_lt_pow_right (by omega) h
    _ = 65536 := rfl

theorem gfMul_comm (a b : Nat) (ha : a < 65536) (hb : b < 65536) : gfMul a b = gfMul b a := by
  have step : ∀ i, i < 16 → ∀ b, b < 65536 → gfMul (2 ^ i) b = gfMul b (2 ^ i) := by
    intro i hi
    apply eq_of_eq_on_basis (fun b => gfMul (2 ^ i) b) (fun b => gfMul b (2 ^ i))
    · intro x y _ _
      exact gfMul_xor_right _ _ _
    · intro x y hx hy
      exact gfMul_xor_left _ _ _ hx hy
    · intro j hj
      exact gfMul_basis_comm i j hi hj
  revert a
  apply eq_of_eq_on_basis (fun a => gfMul a b) (fun a => gfMul b a)
  · intro x y hx hy
    exact gfMul_xor_left _ _ _ hx hy
  · intro x y _ _
    exact gfMul_xor_right _ _ _
  · intro i hi
    exact step i hi b hb

theorem gfMul_one_left (a : Nat) (ha : a < 65536) : gfMul 1 a = a := by
  rw [gfMul_comm 1 a (by decide) ha, gfMul_one_right]

theorem gfMul_mulX_right (a b : Nat) (ha : a < 65536) (hb : b < 65536) :
    gfMul a (mulX b) = mulX (gfMul a b) := by
  rw [gfMul_comm a _ ha (mulX_lt b hb), gfMul_mulX_left b a hb, gfMul_comm b a hb ha]

theorem gfMul_iterate_mulX_right (j a b : Nat) (ha : a < 65536) (hb : b < 65536) :
    gfMul a (mulX^[j] b) = mulX^[j] (gfMul a b) := by
  induction j with
  | zero => rfl
  | succ j ih =>
    rw [Function.iterate_succ_apply', Function.iterate_succ_apply',
      gfMul_mulX_right _ _ ha (iterate_mulX_lt j b hb), ih]

theorem gfMul_assoc (a b c : Nat) (ha : a < 65536) (hb : b < 65536) (hc : c < 65536) :
    gfMul (gfMul a b) c = gfMul a (gfMul b c) := by
  revert c
  apply eq_of_eq_on_basis (fun c => gfMul (gfMul a b) c) (fun c => gfMul a (gfMul b c))
  · intro x y _ _
    exact gfMul_xor_right _ _ _
  · intro x y _ _
    show gfMul a (gfMul b (x ^^^ y)) = _
    rw [gfMul_xor_right, gfMul_xor_right]
  · intro k hk
    show gfMul (gfMul a b) (2 ^ k) = gfMul a (gfMul b (2 ^ k))
    rw [gfMul_two_pow _ k hk, gfMul_two_pow _ k hk, gfMul_iterate_mulX_right k a b ha hb]

/-- In a finite commutative monoid with an absorbing element `z`, if `g` has order
`N` and there are `N + 1` elements, every element but `z` is a power of `g`, so its
`N`-th power is one. -/
theorem pow_eq_one_of_generator {M : Type} [CommMonoid M] [Fintype M] [DecidableEq M]
    (z g : M) (N : Nat) (hz : ∀ a, z * a = z) (hz1 : z ≠ 1)
    (hcard : Fintype.card M = N + 1) (hg : orderOf g = N) (hN : 0 < N) :
    ∀ a, a ≠ z → a ^ N = 1 := by
  have hgN : g ^ N = 1 := by rw [← hg]; exact pow_orderOf_eq_one g
  have hzN : z ^ N = z := by
    obtain ⟨n, rfl⟩ : ∃ n, N = n + 1 := ⟨N - 1, by omega⟩
    rw [pow_succ', hz]
  have hne : ∀ n, g ^ n ≠ z := by
    intro n hn
    have h1 : (g ^ n) ^ N = 1 := by rw [← pow_mul, mul_comm, pow_mul, hgN, one_pow]
    rw [hn, hzN] at h1
    exact hz1 h1
  have hinj : Set.InjOn (fun n => g ^ n) (Finset.range N : Set Nat) := by
    intro x hx y hy hxy
    have hx' : x ∈ Set.Iio (orderOf g) := by rw [hg]; simpa using hx
    have hy' : y ∈ Set.Iio (orderOf g) := by rw [hg]; simpa using hy
    exact pow_injOn_Iio_orderOf hx' hy' hxy
  have hsub : (Finset.range N).image (fun n => g ^ n) ⊆ Finset.univ.erase z := by
    intro x hx
    obtain ⟨n, -, rfl⟩ := Finset.mem_image.1 hx
    exact Finset.mem_erase.2 ⟨hne n, Finset.mem_univ _⟩
  have hc1 : ((Finset.range N).image (fun n => g ^ n)).card = N := by
    rw [Finset.card_image_of_injOn hinj, Finset.card_range]
  have hc2 : (Finset.univ.erase z).card = N := by
    rw [Finset.card_erase_of_mem (Finset.mem_univ _), Finset.card_univ, hcard]
    rfl
  have heq := Finset.eq_of_subset_of_card_le hsub (by rw [hc1, hc2])
  intro a ha
  have hmem : a ∈ (Finset.range N).image (fun n => g ^ n) := by
    rw [heq]
    exact Finset.mem_erase.2 ⟨ha, Finset.mem_univ _⟩
  obtain ⟨n, -, rfl⟩ := Finset.mem_image.1 hmem
  rw [← pow_mul, mul_comm, pow_mul, hgN, one_pow]

/-- Square-and-multiply computes the power of the monoid. -/
theorem gfPowAux_eq_pow {M : Type} [CommMonoid M] (v : M → Nat)
    (hv : ∀ x y, v (x * y) = gfMul (v x) (v y)) (k : Nat) :
    ∀ (b acc : M) (e : Nat), e < 2 ^ k → gfPowAux k (v b) e (v acc) = v (acc * b ^ e) := by
  induction k with
  | zero =>
    intro b acc e he
    have : e = 0 := by simpa using he
    rw [this, pow_zero, mul_one]
    rfl
  | succ k ih =>
    intro b acc e he
    have he2 : e / 2 < 2 ^ k := by rw [Nat.pow_succ] at he; omega
    rw [gfPowAux, ← hv b b]
    by_cases hodd : e % 2 = 1
    · rw [if_pos hodd, ← hv acc b, ih (b * b) (acc * b) (e / 2) he2]
      congr 1
      have : e = 2 * (e / 2) + 1 := by omega
      conv_rhs => rw [this]
      rw [pow_succ, pow_mul, pow_two, mul_assoc, mul_comm b]
    · rw [if_neg hodd, ih (b * b) acc (e / 2) he2]
      congr 1
      have : e = 2 * (e / 2) := by omega
      conv_rhs => rw [this]
      rw [pow_mul, pow_two]

set_option maxRecDepth 100000 in
theorem gfPow_two_values :
    gfPow 2 65535 = 1 ∧ gfPow 2 21845 ≠ 1 ∧ gfPow 2 13107 ≠ 1 ∧ gfPow 2 3855 ≠ 1 ∧
      gfPow 2 255 ≠ 1 := by
  decide

theorem prime_dvd_65535 (p : Nat) (hp : p.Prime) (hd : p ∣ 65535) :
    p = 3 ∨ p = 5 ∨ p = 17 ∨ p = 257 := by
  have h : (65535 : Nat) = 3 * (5 * (17 * 257)) := by norm_num
  rw [h] at hd
  rcases (Nat.Prime.dvd_mul hp).1 hd with h1 | hd
  · exact Or.inl ((Nat.prime_dvd_prime_iff_eq hp (by norm_num)).1 h1)
  rcases (Nat.Prime.dvd_mul hp).1 hd with h1 | hd
  · exact Or.inr (Or.inl ((Nat.prime_dvd_prime_iff_eq hp (by norm_num)).1 h1))
  rcases (Nat.Prime.dvd_mul hp).1 hd with h1 | hd
  · exact Or.inr (Or.inr (Or.inl ((Nat.prime_dvd_prime_iff_eq hp (by norm_num)).1 h1)))
  · exact Or.inr (Or.inr (Or.inr ((Nat.prime_dvd_prime_iff_eq hp (by norm_num)).1 hd)))

/-- The inverse law of the field: `x^65534 · x = 1` for every non-zero 16-bit `x`. -/
theorem gfMul_gfPow_inv (a : Nat) (ha : a < 65536) (h0 : a ≠ 0) :
    gfMul (gfPow a 65534) a = 1 := by
  letI instMul : Mul { x : Nat // x < 65536 } :=
    ⟨fun x y => ⟨gfMul x.1 y.1, gfMul_lt x.1 y.1 x.2⟩⟩
  letI instOne : One { x : Nat // x < 65536 } := ⟨⟨1, by decide⟩⟩
  have hv : ∀ x y : { x : Nat // x < 65536 }, (x * y).1 = gfMul x.1 y.1 := fun _ _ => rfl
  have hone : ((1 : { x : Nat // x < 65536 }) : Nat) = 1 := rfl
  letI inst : CommMonoid { x : Nat // x < 65536 } :=
    { mul := (· * ·)
      one := 1
      mul_assoc := fun x y z => Subtype.ext (by
        rw [hv, hv, hv, hv]; exact gfMul_assoc x.1 y.1 z.1 x.2 y.2 z.2)
      one_mul := fun x => Subtype.ext (by rw [hv, hone]; exact gfMul_one_left x.1 x.2)
      mul_one := fun x => Subtype.ext (by rw [hv, hone]; exact gfMul_one_right x.1)
      mul_comm := fun x y => Subtype.ext (by rw [hv, hv]; exact gfMul_comm x.1 y.1 x.2 y.2)
      npow := fun n x => npowRec n x
      npow_zero := fun _ => rfl
      npow_succ := fun _ _ => rfl }
  letI : Fintype { x : Nat // x < 65536 } := Fintype.ofEquiv (Fin 65536) Fin.equivSubtype
  have hcard : Fintype.card { x : Nat // x < 65536 } = 65535 + 1 := by
    rw [Fintype.card_congr (Fin.equivSubtype (n := 65536)).symm, Fintype.card_fin]
  have hpow : ∀ (b : { x : Nat // x < 65536 }) (e : Nat), e < 65536 →
      ((b ^ e : { x : Nat // x < 65536 }) : Nat) = gfPow b.1 e := by
    intro b e he
    have := gfPowAux_eq_pow (fun x : { x : Nat // x < 65536 } => x.1) hv 16 b 1 e he
    rw [one_mul] at this
    exact this.symm
  obtain ⟨v1, v2, v3, v4, v5⟩ := gfPow_two_values
  have hord : orderOf (⟨2, by decide⟩ : { x : Nat // x < 65536 }) = 65535 := by
    apply orderOf_eq_of_pow_and_pow_div_prime (by decide)
    · apply Subtype.ext
      rw [hpow _ _ (by decide), hone]
      exact v1
    · intro p hp hd
      intro hc
      have hc' := congrArg Subtype.val hc
      rw [hone] at hc'
      rcases prime_dvd_65535 p hp hd with rfl | rfl | rfl | rfl
      · rw [hpow _ _ (by decide)] at hc'; exact v2 hc'
      · rw [hpow _ _ (by decide)] at hc'; exact v3 hc'
      · rw [hpow _ _ (by decide)] at hc'; exact v4 hc'
      · rw [hpow _ _ (by decide)] at hc'; exact v5 hc'
  have hz : ∀ x : { x : Nat // x < 65536 }, (⟨0, by decide⟩ : { x : Nat // x < 65536 }) * x =
      ⟨0, by decide⟩ := by
    intro x
    apply Subtype.ext
    rw [hv]
    exact gfMul_zero_left x.1
  have hz1 : (⟨0, by decide⟩ : { x : Nat // x < 65536 }) ≠ 1 := by
    intro h
    have h' := congrArg Subtype.val h
    rw [hone] at h'
    exact absurd h' (by decide)
  have hane : (⟨a, ha⟩ : { x : Nat // x < 65536 }) ≠ ⟨0, by decide⟩ :=
    fun h => h0 (congrArg Subtype.val h)
  have hall := pow_eq_one_of_generator (⟨0, by decide⟩ : { x : Nat // x < 65536 })
    ⟨2, by decide⟩ 65535 hz hz1 hcard hord (Nat.succ_pos _) ⟨a, ha⟩ hane
  have h2 : ((⟨a, ha⟩ : { x : Nat // x < 65536 }) ^ 65534 * ⟨a, ha⟩ :
      { x : Nat // x < 65536 }) = 1 := by
    rw [← pow_succ]
    exact hall
  have h3 := congrArg Subtype.val h2
  rw [hv, hpow _ _ (by decide), hone] at h3
  exact h3

/-! ## Reed–Solomon coder: Gauss–Jordan elimination -/

theorem gfPowAux_lt (k b e acc : Nat) (hb : b < 65536) (hacc : acc < 65536) :
    gfPowAux k b e acc < 65536 := by
  induction k generalizing b e acc with
  | zero => exact hacc
  | succ k ih =>
    rw [gfPowAux]
    apply ih _ _ _ (gfMul_lt b b hb)
    split_ifs
    · exact gfMul_lt acc b hacc
    · exact hacc

theorem gfPow_lt (a e : Nat) (ha : a < 65536) : gfPow a e < 65536 :=
  gfPowAux_lt 16 a e 1 ha (by decide)

theorem dot_lt (cs xs : List Nat) (hc : isU16s cs) : dot cs xs < 65536 := by
  induction cs generalizing xs with
  | nil => unfold dot; decide
  | cons c cs ih =>
    cases xs with
    | nil => unfold dot; decide
    | cons x xs =>
      rw [dot]
      exact xor_lt _ _ (gfMul_lt c x (hc c (List.mem_cons_self _ _)))
        (ih xs (fun y hy => hc y (List.mem_cons_of_mem _ hy)))

theorem dot_scale (k : Nat) (cs xs : List Nat) (hk : k < 65536) (hc : isU16s cs)
    (hx : isU16s xs) : dot (cs.map (gfMul k)) xs = gfMul k (dot cs xs) := by
  induction cs generalizing xs with
  | nil => simp [dot, gfMul_zero_right]
  | cons c cs ih =>
    cases xs with
    | nil => simp [dot, gfMul_zero_right]
    | cons x xs =>
      have hc1 : c < 65536 := hc c (List.mem_cons_self _ _)
      have hx1 : x < 65536 := hx x (List.mem_cons_self _ _)
      rw [List.map_cons, dot, dot, ih xs (fun y hy => hc y (List.mem_cons_of_mem _ hy))
        (fun y hy => hx y (List.mem_cons_of_mem _ hy)), gfMul_xor_right,
        gfMul_assoc k c x hk hc1 hx1]

theorem dot_addMul (k : Nat) (ps cs xs : List Nat) (hk : k < 65536) (hp : isU16s ps)
    (hc : isU16s cs) (hx : isU16s xs) (hl : ps.length = cs.length) :
    dot (List.zipWith (fun p x => x ^^^ gfMul k p) ps cs) xs =
      dot cs xs ^^^ gfMul k (dot ps xs) := by
  induction ps generalizing cs xs with
  | nil =>
    cases cs with
    | nil => simp [dot, gfMul_zero_right]
    | cons c cs => simp at hl
  | cons p ps ih =>
    cases cs with
    | nil => simp at hl
    | cons c cs =>
      cases xs with
      | nil => simp [dot, gfMul_zero_right]
      | cons x xs =>
        have hp1 : p < 65536 := hp p (List.mem_cons_self _ _)
        have hc1 : c < 65536 := hc c (List.mem_cons_self _ _)
        have hx1 : x < 65536 := hx x (List.mem_cons_self _ _)
        rw [List.zipWith_cons_cons, dot, dot, dot,
          ih cs xs (fun y hy => hp y (List.mem_cons_of_mem _ hy))
            (fun y hy => hc y (List.mem_cons_of_mem _ hy))
            (fun y hy => hx y (List.mem_cons_of_mem _ hy)) (by simpa using hl),
          gfMul_xor_left c _ x hc1 (gfMul_lt k p hk), gfMul_assoc k p x hk hp1 hx1,
          gfMul_xor_right]
        ac_rfl

theorem getD_zipWith (f : Nat → Nat → Nat) (hf : f 0 0 = 0) (l1 l2 : List Nat)
    (hl : l1.length = l2.length) (t : Nat) :
    (List.zipWith f l1 l2).getD t 0 = f (l1.getD t 0) (l2.getD t 0) := by
  induction l1 generalizing l2 t with
  | nil =>
    cases l2 with
    | nil => simp [hf]
    | cons y ys => simp at hl
  | cons x xs ih =>
    cases l2 with
    | nil => simp at hl
    | cons y ys =>
      cases t with
      | zero => simp
      | succ t =>
        simp only [List.zipWith_cons_cons, List.getD_cons_succ]
        exact ih ys (by simpa using hl) t

theorem getD_map_gfMul (k : Nat) (l : List Nat) (t : Nat) :
    (l.map (gfMul k)).getD t 0 = gfMul k (l.getD t 0) := by
  induction l generalizing t with
  | nil => simp [gfMul_zero_right]
  | cons x xs ih =>
    cases t with
    | zero => simp
    | succ t => simpa using ih t

theorem getD_lt (l : List Nat) (h : isU16s l) (t : Nat) : l.getD t 0 < 65536 := by
  induction l generalizing t with
  | nil => simp
  | cons x xs ih =>
    cases t with
    | zero => simpa using h x (List.mem_cons_self _ _)
    | succ t => simpa using ih (fun y hy => h y (List.mem_cons_of_mem _ hy)) t

theorem isU16s_colAt (t : Nat) (d : List Shard) (hd : ∀ s ∈ d, isU16s s) :
    isU16s (colAt t d) := by
  intro x hx
  obtain ⟨s, hs, rfl⟩ := List.mem_map.1 hx
  exact getD_lt s (hd s hs) t

theorem isU16s_zipWith (f : Nat → Nat → Nat) (l1 l2 : List Nat)
    (h : ∀ a ∈ l1, ∀ b ∈ l2, f a b < 65536) : isU16s (List.zipWith f l1 l2) := by
  induction l1 generalizing l2 with
  | nil => intro x hx; simp at hx
  | cons a as ih =>
    cases l2 with
    | nil => intro x hx; simp at hx
    | cons b bs =>
      intro x hx
      rw [List.zipWith_cons_cons] at hx
      rcases List.mem_cons.1 hx with rfl | hx
      · exact h a (List.mem_cons_self _ _) b (List.mem_cons_self _ _)
      · exact ih bs (fun a' ha' b' hb' =>
          h a' (List.mem_cons_of_mem _ ha') b' (List.mem_cons_of_mem _ hb')) x hx

theorem RowOK_scale (m n : Nat) (d : List Shard) (hd : ∀ s ∈ d, isU16s s) (k : Nat)
    (hk : k < 65536) (row : Row) (h : RowOK m n d row) : RowOK m n d (rowScale k row) := by
  obtain ⟨h1, h2, h3, h4, h5⟩ := h
  refine ⟨by simp [rowScale, h1], by simp [rowScale, h2], ?_, ?_, ?_⟩
  · intro x hx
    obtain ⟨y, -, rfl⟩ := List.mem_map.1 hx
    exact gfMul_lt k y hk
  · intro x hx
    obtain ⟨y, -, rfl⟩ := List.mem_map.1 hx
    exact gfMul_lt k y hk
  · intro t ht
    show dot (row.1.map (gfMul k)) (colAt t d) = (row.2.map (gfMul k)).getD t 0
    rw [dot_scale k _ _ hk h3 (isU16s_colAt t d hd), getD_map_gfMul, h5 t ht]

theorem RowOK_addMul (m n : Nat) (d : List Shard) (hd : ∀ s ∈ d, isU16s s) (k : Nat)
    (hk : k < 65536) (pivot row : Row) (hp : RowOK m n d pivot) (h : RowOK m n d row) :
    RowOK m n d (rowAddMul k pivot row) := by
  obtain ⟨p1, p2, p3, p4, p5⟩ := hp
  obtain ⟨h1, h2, h3, h4, h5⟩ := h
  refine ⟨by simp [rowAddMul, h1, p1], by simp [rowAddMul, mulSliceXor, h2, p2], ?_, ?_, ?_⟩
  · exact isU16s_zipWith _ _ _ (fun a _ b hb => xor_lt _ _ (h3 b hb) (gfMul_lt k a hk))
  · exact isU16s_zipWith _ _ _ (fun a _ b hb => xor_lt _ _ (h4 b hb) (gfMul_lt k a hk))
  · intro t ht
    show dot (List.zipWith (fun p x => x ^^^ gfMul k p) pivot.1 row.1) (colAt t d) =
      (List.zipWith (fun s d => d ^^^ gfMul k s) pivot.2 row.2).getD t 0
    rw [dot_addMul k _ _ _ hk p3 h3 (isU16s_colAt t d hd) (by rw [p1, h1]),
      getD_zipWith _ (by simp [gfMul_zero_right]) _ _ (by rw [p2, h2]), h5 t ht, p5 t ht]

theorem findPivot_spec (col : Nat) (rest : List Row) (p : Row) (others : List Row)
    (h : findPivot col rest = some (p, others)) :
    p ∈ rest ∧ p.1.getD col 0 ≠ 0 ∧ (∀ r ∈ others, r ∈ rest) ∧
      others.length + 1 = rest.length := by
  induction rest generalizing p others with
  | nil => simp [findPivot] at h
  | cons row rest ih =>
    rw [findPivot] at h
    by_cases hc : row.1.getD col 0 ≠ 0
    · rw [if_pos hc] at h
      injection h with h
      injection h with h1 h2
      subst h1 h2
      exact ⟨List.mem_cons_self _ _, hc, fun r hr => List.mem_cons_of_mem _ hr, rfl⟩
    · rw [if_neg hc] at h
      cases hf : findPivot col rest with
      | none => rw [hf] at h; cases h
      | some q =>
        obtain ⟨q1, q2⟩ := q
        rw [hf] at h
        dsimp only at h
        injection h with h
        injection h with h1 h2
        subst h1 h2
        obtain ⟨a, b, c, e⟩ := ih q1 q2 hf
        refine ⟨List.mem_cons_of_mem _ a, b, ?_, by simp [e]⟩
        intro r hr
        rcases List.mem_cons.1 hr with rfl | hr
        · exact List.mem_cons_self _ _
        · exact List.mem_cons_of_mem _ (c r hr)

theorem rowScale_coeff (k : Nat) (row : Row) (j : Nat) :
    (rowScale k row).1.getD j 0 = gfMul k (row.1.getD j 0) :=
  getD_map_gfMul k row.1 j

theorem rowAddMul_coeff (k : Nat) (pivot row : Row) (hl : pivot.1.length = row.1.length)
    (j : Nat) :
    (rowAddMul k pivot row).1.getD j 0 = row.1.getD j 0 ^^^ gfMul k (pivot.1.getD j 0) :=
  getD_zipWith (fun p x => x ^^^ gfMul k p) (by simp [gfMul_zero_right]) _ _ hl j

theorem dot_unit (cs : List Nat) : ∀ (v : List Nat) (i : Nat), cs.length = v.length →
    (∀ j, j < cs.length → cs.getD j 0 = if j = i then 1 else 0) → isU16s v →
    dot cs v = v.getD i 0 := by
  induction cs with
  | nil =>
    intro v i hl _ _
    have : v = [] := List.length_eq_zero.1 hl.symm
    subst this
    simp [dot]
  | cons c cs ih =>
    intro v i hl hc hv
    cases v with
    | nil => simp at hl
    | cons x xs =>
      have hx : x < 65536 := hv x (List.mem_cons_self _ _)
      have hxs : isU16s xs := fun y hy => hv y (List.mem_cons_of_mem _ hy)
      have hl' : cs.length = xs.length := by simpa using hl
      have h0 := hc 0 (by simp)
      rw [List.getD_cons_zero] at h0
      rw [dot]
      cases i with
      | zero =>
        rw [if_pos rfl] at h0
        have htail := ih xs cs.length hl' (by
          intro j hj
          have := hc (j + 1) (by simpa using hj)
          rw [List.getD_cons_succ, if_neg (by omega)] at this
          rw [this, if_neg (by omega)]) hxs
        rw [htail, h0, gfMul_one_left x hx, List.getD_cons_zero, hl',
          List.getD_eq_default _ _ (Nat.le_refl _), Nat.xor_zero]
      | succ i =>
        rw [if_neg (by omega)] at h0
        have htail := ih xs i hl' (by
          intro j hj
          have := hc (j + 1) (by simpa using hj)
          rw [List.getD_cons_succ] at this
          rw [this]
          by_cases hji : j = i
          · rw [if_pos hji, if_pos (by omega)]
          · rw [if_neg hji, if_neg (by omega)]) hxs
        rw [htail, h0, gfMul_zero_left, Nat.zero_xor, List.getD_cons_succ]

theorem eq_of_getD_eq (l1 l2 : List Nat) (hl : l1.length = l2.length)
    (h : ∀ t, t < l1.length → l1.getD t 0 = l2.getD t 0) : l1 = l2 := by
  apply List.ext_getElem hl
  intro t h1 h2
  have := h t h1
  rw [List.getD_eq_getElem _ _ h1, List.getD_eq_getElem _ _ h2] at this
  exact this

theorem gaussJordan_done (m n : Nat) (d : List Shard) (hdl : d.length = m)
    (hdn : ∀ s ∈ d, s.length = n) (hd : ∀ s ∈ d, isU16s s) (done : List Row)
    (hlen : done.length = m) (hrow : ∀ row ∈ done, RowOK m n d row) (hdone : DoneOK m done) :
    done.map Prod.snd = d := by
  apply List.ext_getElem (by rw [List.length_map, hlen, hdl])
  intro i h1 h2
  rw [List.getElem_map]
  rw [List.length_map] at h1
  have hrow_i := hrow _ (List.getElem_mem h1)
  obtain ⟨r1, r2, r3, r4, r5⟩ := hrow_i
  have hdi := hdone i done[i] (List.getElem?_eq_getElem h1)
  apply eq_of_getD_eq _ _ (by rw [r2, hdn _ (List.getElem_mem h2)])
  intro t ht
  rw [r2] at ht
  rw [← r5 t ht, dot_unit done[i].1 (colAt t d) i (by rw [r1, colAt, List.length_map, hdl])
    (fun j hj => hdi j (by rw [r1] at hj; exact hj)) (isU16s_colAt t d hd)]
  unfold colAt
  rw [List.getD_eq_getElem _ _ (by rw [List.length_map]; exact h2), List.getElem_map]

theorem gaussJordan_correct (m n : Nat) (d : List Shard) (hdl : d.length = m)
    (hdn : ∀ s ∈ d, s.length = n) (hd : ∀ s ∈ d, isU16s s) :
    ∀ (fuel col : Nat) (done rest : List Row), rest.length ≤ fuel → done.length = col →
    col + rest.length = m → (∀ row ∈ done, RowOK m n d row) →
    (∀ row ∈ rest, RowOK m n d row) → DoneOK col done → RestOK col rest →
    gaussJordan fuel col done rest = .error "zero divisor" ∨
      gaussJordan fuel col done rest = .ok d := by
  intro fuel
  induction fuel with
  | zero =>
    intro col done rest hf hlen hm hrd hrr hdone hrest
    have hnil : rest = [] := List.length_eq_zero.1 (by omega)
    subst hnil
    right
    rw [gaussJordan]
    rw [List.length_nil, Nat.add_zero] at hm
    subst hm
    exact congrArg Except.ok (gaussJordan_done _ n d hdl hdn hd done hlen hrd hdone)
  | succ fuel ih =>
    intro col done rest hf hlen hm hrd hrr hdone hrest
    cases rest with
    | nil =>
      right
      rw [gaussJordan]
      rw [List.length_nil, Nat.add_zero] at hm
      subst hm
      exact congrArg Except.ok (gaussJordan_done _ n d hdl hdn hd done hlen hrd hdone)
    | cons r rs =>
      rw [gaussJordan]
      cases hfp : findPivot col (r :: rs) with
      | none => left; rfl
      | some q =>
        obtain ⟨p, others⟩ := q
        dsimp only
        obtain ⟨hp_mem, hp_ne, hsub, hcount⟩ := findPivot_spec col _ p others hfp
        have hpok := hrr p hp_mem
        have hpc : p.1.getD col 0 < 65536 := getD_lt p.1 hpok.2.2.1 col
        have hinv : gfInv (p.1.getD col 0) = some (gfPow (p.1.getD col 0) 65534) := by
          unfold gfInv
          rw [if_neg hp_ne]
        rw [hinv]
        dsimp only
        have hk : gfPow (p.1.getD col 0) 65534 < 65536 := gfPow_lt _ _ hpc
        have hone : gfMul (gfPow (p.1.getD col 0) 65534) (p.1.getD col 0) = 1 :=
          gfMul_gfPow_inv _ hpc hp_ne
        have hpiv : RowOK m n d (rowScale (gfPow (p.1.getD col 0) 65534) p) :=
          RowOK_scale m n d hd _ hk p hpok
        -- the coefficients of the pivot row
        have hpiv_lt : ∀ j, j < col →
            (rowScale (gfPow (p.1.getD col 0) 65534) p).1.getD j 0 = 0 := by
          intro j hj
          rw [rowScale_coeff, hrest p hp_mem j hj, gfMul_zero_right]
        have hpiv_col : (rowScale (gfPow (p.1.getD col 0) 65534) p).1.getD col 0 = 1 := by
          rw [rowScale_coeff, hone]
        -- clearing a row
        have hclear_ok : ∀ row, RowOK m n d row →
            RowOK m n d (rowAddMul (row.1.getD col 0)
              (rowScale (gfPow (p.1.getD col 0) 65534) p) row) :=
          fun row hr => RowOK_addMul m n d hd _ (getD_lt row.1 hr.2.2.1 col) _ row hpiv hr
        have hclear_lt : ∀ row, RowOK m n d row → ∀ j, j < col →
            (rowAddMul (row.1.getD col 0)
              (rowScale (gfPow (p.1.getD col 0) 65534) p) row).1.getD j 0 =
              row.1.getD j 0 := by
          intro row hr j hj
          rw [rowAddMul_coeff _ _ _ (by rw [hpiv.1, hr.1]), hpiv_lt j hj, gfMul_zero_right,
            Nat.xor_zero]
        have hclear_col : ∀ row, RowOK m n d row →
            (rowAddMul (row.1.getD col 0)
              (rowScale (gfPow (p.1.getD col 0) 65534) p) row).1.getD col 0 = 0 := by
          intro row hr
          rw [rowAddMul_coeff _ _ _ (by rw [hpiv.1, hr.1]), hpiv_col, gfMul_one_right,
            Nat.xor_self]
        apply ih (col + 1)
        · rw [List.length_map]
          rw [List.length_cons] at hf hcount
          omega
        · rw [List.length_append, List.length_map, List.length_singleton, hlen]
        · rw [List.length_map]
          rw [List.length_cons] at hm hcount
          omega
        · intro row hrow
          rcases List.mem_append.1 hrow with h | h
          · obtain ⟨r0, hr0, rfl⟩ := List.mem_map.1 h
            exact hclear_ok r0 (hrd r0 hr0)
          · rw [List.mem_singleton] at h
            rw [h]
            exact hpiv
        · intro row hrow
          obtain ⟨r0, hr0, rfl⟩ := List.mem_map.1 hrow
          exact hclear_ok r0 (hrr r0 (hsub r0 hr0))
        · intro i row hi j hj
          by_cases hic : i < done.length
          · rw [List.getElem?_append_left (by rw [List.length_map]; exact hic),
              List.getElem?_map, List.getElem?_eq_getElem hic] at hi
            injection hi with hi
            subst hi
            have hr0 := hrd _ (List.getElem_mem hic)
            by_cases hjc : j < col
            · rw [hclear_lt _ hr0 j hjc]
              exact hdone i _ (List.getElem?_eq_getElem hic) j hjc
            · have : j = col := by omega
              subst this
              rw [hclear_col _ hr0, if_neg (by omega)]
          · rw [List.getElem?_append_right (by rw [List.length_map]; omega),
              List.length_map] at hi
            have hi0 : i - done.length = 0 := by
              by_contra hne
              rw [List.getElem?_eq_none (by simp; omega)] at hi
              cases hi
            rw [hi0] at hi
            have hrow : some (rowScale (gfPow (p.1.getD col 0) 65534) p) = some row := hi
            injection hrow with hrow
            subst hrow
            have hieq : i = col := by omega
            by_cases hjc : j < col
            · rw [hpiv_lt j hjc, if_neg (by omega)]
            · have : j = col := by omega
              subst this
              rw [hpiv_col, if_pos hieq.symm]
        · intro row hrow j hj
          obtain ⟨r0, hr0, rfl⟩ := List.mem_map.1 hrow
          have hr0ok := hrr r0 (hsub r0 hr0)
          by_cases hjc : j < col
          · rw [hclear_lt _ hr0ok j hjc]
            exact hrest r0 (hsub r0 hr0) j hjc
          · have : j = col := by omega
            subst this
            exact hclear_col _ hr0ok

/-! ## Reed–Solomon coder: reconstruction -/

theorem erasedFrom_eraseShards (mask : List Bool) (shards : List Shard)
    (h : mask.length = shards.length) : ErasedFrom (eraseShards mask shards) shards := by
  induction mask generalizing shards with
  | nil =>
    have : shards = [] := List.length_eq_zero.1 h.symm
    subst this
    exact List.Forall₂.nil
  | cons b bs ih =>
    cases shards with
    | nil => simp at h
    | cons s ss =>
      have h' : bs.length = ss.length := by simpa using h
      unfold eraseShards
      rw [List.zipWith_cons_cons]
      refine List.Forall₂.cons ?_ (ih ss h')
      cases b
      · right; rfl
      · left; rfl

theorem countP_isNone_eraseShards (mask : List Bool) (shards : List Shard)
    (h : mask.length = shards.length) :
    (eraseShards mask shards).countP (·.isNone) = mask.count true := by
  induction mask generalizing shards with
  | nil => simp [eraseShards]
  | cons b bs ih =>
    cases shards with
    | nil => simp at h
    | cons s ss =>
      have h' : bs.length = ss.length := by simpa using h
      have := ih ss h'
      unfold eraseShards at this ⊢
      rw [List.zipWith_cons_cons, List.countP_cons, this, List.count_cons]
      cases b <;> simp

theorem countP_isSome_eraseShards (mask : List Bool) (shards : List Shard)
    (h : mask.length = shards.length) :
    (eraseShards mask shards).countP (·.isSome) = mask.count false := by
  induction mask generalizing shards with
  | nil => simp [eraseShards]
  | cons b bs ih =>
    cases shards with
    | nil => simp at h
    | cons s ss =>
      have h' : bs.length = ss.length := by simpa using h
      have := ih ss h'
      unfold eraseShards at this ⊢
      rw [List.zipWith_cons_cons, List.countP_cons, this, List.count_cons]
      cases b <;> simp

theorem fillMissing_missingShards (erased : List (Option Shard)) (data : List Shard)
    (h : ErasedFrom erased data) :
    fillMissing erased (missingShards erased data) = data.map some := by
  induction h with
  | nil => rfl
  | cons hx _ ih =>
    rcases hx with rfl | rfl
    · rw [missingShards, fillMissing, ih, List.map_cons]
    · rw [missingShards, fillMissing, ih, List.map_cons]

theorem missingShards_length (erased : List (Option Shard)) (data : List Shard)
    (h : ErasedFrom erased data) :
    (missingShards erased data).length = erased.countP (·.isNone) := by
  induction h with
  | nil => rfl
  | cons hx _ ih =>
    rcases hx with rfl | rfl
    · rw [missingShards, List.length_cons, ih, List.countP_cons]
      simp
    · rw [missingShards, ih, List.countP_cons]
      simp

theorem missingShards_mem (erased : List (Option Shard)) (data : List Shard) :
    ∀ s ∈ missingShards erased data, s ∈ data := by
  induction erased generalizing data with
  | nil => intro s hs; simp [missingShards] at hs
  | cons e es ih =>
    cases data with
    | nil => intro s hs; cases e <;> simp [missingShards] at hs
    | cons x xs =>
      intro s hs
      cases e with
      | none =>
        rw [missingShards] at hs
        rcases List.mem_cons.1 hs with rfl | hs
        · exact List.mem_cons_self _ _
        · exact List.mem_cons_of_mem _ (ih xs s hs)
      | some y =>
        rw [missingShards] at hs
        exact List.mem_cons_of_mem _ (ih xs s hs)

/-- The sum over all the columns is the sum over the present columns plus the one
over the missing columns. -/
theorem sumAt_split (g : Nat → Nat) (t : Nat) (erased : List (Option Shard))
    (data : List Shard) (h : ErasedFrom erased data) :
    ∀ k, sumAt g t (data.enumFrom k) =
      sumAt g t ((erased.enumFrom k).filterMap (fun p => p.2.map (fun s => (p.1, s)))) ^^^
        dot ((((erased.enumFrom k).filter (fun p => p.2.isNone)).map Prod.fst).map g)
          (colAt t (missingShards erased data)) := by
  induction h with
  | nil => intro k; simp [sumAt, dot, colAt, missingShards]
  | @cons e s es ss hx _ ih =>
    intro k
    rcases hx with rfl | rfl
    · rw [List.enumFrom_cons, List.enumFrom_cons, sumAt, ih (k + 1), missingShards]
      simp only [List.filterMap_cons, Option.map_none', List.filter_cons, Option.isNone_none,
        if_true, List.map_cons, colAt, dot]
      ac_rfl
    · rw [List.enumFrom_cons, List.enumFrom_cons, sumAt, ih (k + 1), missingShards]
      simp only [List.filterMap_cons, Option.map_some', List.filter_cons, Option.isNone_some,
        sumAt]
      simp only [Bool.false_eq_true, if_false]
      ac_rfl

theorem generator_lt (c : Coder) (r col : Nat) : c.generator r col < 65536 :=
  gfPow_lt 2 _ (by decide)

theorem mulSliceXor_length (k : Nat) (src dst : Shard) (h : src.length = dst.length) :
    (mulSliceXor k src dst).length = dst.length := by
  unfold mulSliceXor
  rw [List.length_zipWith, h, Nat.min_self]

theorem mulSliceXor_isU16s (k : Nat) (src dst : Shard) (hk : k < 65536) (hd : isU16s dst) :
    isU16s (mulSliceXor k src dst) :=
  isU16s_zipWith _ src dst (fun a _ b hb => xor_lt _ _ (hd b hb) (gfMul_lt k a hk))

theorem mulSliceXor_getD (k : Nat) (src dst : Shard) (h : src.length = dst.length) (t : Nat) :
    (mulSliceXor k src dst).getD t 0 = dst.getD t 0 ^^^ gfMul k (src.getD t 0) := by
  unfold mulSliceXor
  rw [getD_zipWith (fun s d => d ^^^ gfMul k s) (by show 0 ^^^ gfMul k 0 = 0; rw [gfMul_zero_right]; rfl) src dst h t]

theorem addColumns_length (c : Coder) (r : Nat) (cols : List (Nat × Shard)) (acc : Shard)
    (h : ∀ p ∈ cols, p.2.length = acc.length) : (c.addColumns r cols acc).length = acc.length := by
  induction cols generalizing acc with
  | nil => rfl
  | cons p rest ih =>
    obtain ⟨col, shard⟩ := p
    have hp : shard.length = acc.length := h (col, shard) (List.mem_cons_self _ _)
    have hl := mulSliceXor_length (c.generator r col) shard acc hp
    rw [Coder.addColumns, ih _ (fun q hq => by rw [hl]; exact h q (List.mem_cons_of_mem _ hq)), hl]

theorem addColumns_isU16s (c : Coder) (r : Nat) (cols : List (Nat × Shard)) (acc : Shard)
    (h : isU16s acc) : isU16s (c.addColumns r cols acc) := by
  induction cols generalizing acc with
  | nil => exact h
  | cons p rest ih =>
    obtain ⟨col, shard⟩ := p
    rw [Coder.addColumns]
    exact ih _ (mulSliceXor_isU16s _ shard acc (generator_lt c r col) h)

theorem addColumns_getD (c : Coder) (r : Nat) (cols : List (Nat × Shard)) (acc : Shard)
    (h : ∀ p ∈ cols, p.2.length = acc.length) (t : Nat) :
    (c.addColumns r cols acc).getD t 0 = acc.getD t 0 ^^^ sumAt (c.generator r) t cols := by
  induction cols generalizing acc with
  | nil => simp [Coder.addColumns, sumAt]
  | cons p rest ih =>
    obtain ⟨col, shard⟩ := p
    have hp : shard.length = acc.length := h (col, shard) (List.mem_cons_self _ _)
    have hl := mulSliceXor_length (c.generator r col) shard acc hp
    rw [Coder.addColumns, ih _ (fun q hq => by rw [hl]; exact h q (List.mem_cons_of_mem _ hq)),
      mulSliceXor_getD _ _ _ hp, sumAt]
    ac_rfl

theorem mem_enumFrom_snd (l : List Shard) (k : Nat) (p : Nat × Shard)
    (h : p ∈ l.enumFrom k) : p.2 ∈ l := by
  induction l generalizing k with
  | nil => simp at h
  | cons x xs ih =>
    rw [List.enumFrom_cons] at h
    rcases List.mem_cons.1 h with rfl | h
    · exact List.mem_cons_self _ _
    · exact List.mem_cons_of_mem _ (ih (k + 1) h)

/-- The shards that are present in an erased list are shards of the original. -/
theorem mem_present_erased (erased : List (Option Shard)) (data : List Shard)
    (h : ErasedFrom erased data) : ∀ k (p : Nat × Shard),
    p ∈ (erased.enumFrom k).filterMap (fun p => p.2.map (fun s => (p.1, s))) → p.2 ∈ data := by
  induction h with
  | nil => intro k p hp; simp at hp
  | @cons e s es ss hx _ ih =>
    intro k p hp
    rw [List.enumFrom_cons] at hp
    rcases hx with rfl | rfl
    · rw [List.filterMap_cons] at hp
      exact List.mem_cons_of_mem _ (ih (k + 1) p hp)
    · rw [List.filterMap_cons] at hp
      rcases List.mem_cons.1 hp with rfl | hp
      · exact List.mem_cons_self _ _
      · exact List.mem_cons_of_mem _ (ih (k + 1) p hp)

/-- The shard that is present at index `r` of an erased list of `f k, f (k+1), …`
is `f r`. -/
theorem present_erased_range (f : Nat → Shard) (erased : List (Option Shard)) :
    ∀ (k len : Nat), ErasedFrom erased ((List.range' k len).map f) → ∀ (p : Nat × Shard),
    p ∈ (erased.enumFrom k).filterMap (fun p => p.2.map (fun s => (p.1, s))) →
    p.2 = f p.1 := by
  induction erased with
  | nil => intro k len _ p hp; simp at hp
  | cons e es ih =>
    intro k len h p hp
    cases len with
    | zero => cases h
    | succ len =>
      rw [List.range'_succ, List.map_cons] at h
      cases h with
      | cons hx hrest =>
        rw [List.enumFrom_cons] at hp
        rcases hx with rfl | rfl
        · rw [List.filterMap_cons] at hp
          exact ih (k + 1) len hrest p hp
        · rw [List.filterMap_cons] at hp
          rcases List.mem_cons.1 hp with rfl | hp
          · rfl
          · exact ih (k + 1) len hrest p hp

theorem getD_replicate_zero (k t : Nat) : (List.replicate k 0).getD t 0 = 0 := by
  induction k generalizing t with
  | zero => simp
  | succ k ih =>
    cases t with
    | zero => simp [List.replicate_succ]
    | succ t => simp [List.replicate_succ]

theorem isU16s_replicate_zero (k : Nat) : isU16s (List.replicate k 0) := by
  intro x hx
  rw [(List.mem_replicate.1 hx).2]
  decide

/-- The parity shard of row `r`: its length, its range and its elements. -/
theorem parityRow_spec (c : Coder) (r n : Nat) (data : List Shard)
    (hn : ∀ s ∈ data, s.length = n) (h0 : (data.headD []).length = n) :
    (c.addColumns r data.enum (List.replicate (data.headD []).length 0)).length = n ∧
    isU16s (c.addColumns r data.enum (List.replicate (data.headD []).length 0)) ∧
    ∀ t, (c.addColumns r data.enum (List.replicate (data.headD []).length 0)).getD t 0 =
      sumAt (c.generator r) t (data.enumFrom 0) := by
  have hcols : ∀ p ∈ data.enum, p.2.length =
      (List.replicate (data.headD []).length (0 : Nat)).length := by
    intro p hp
    rw [List.length_replicate, h0]
    exact hn _ (mem_enumFrom_snd data 0 p hp)
  refine ⟨?_, addColumns_isU16s c r _ _ (isU16s_replicate_zero _), ?_⟩
  · rw [addColumns_length c r _ _ hcols, List.length_replicate, h0]
  · intro t
    rw [addColumns_getD c r _ _ hcols, getD_replicate_zero, Nat.zero_xor]
    rfl

/-- Every row that `ReconstructData` builds is an equation that the erased shards
satisfy. -/
theorem reconstructRow_ok (c : Coder) (n : Nat) (data : List Shard)
    (erased : List (Option Shard)) (hn : ∀ s ∈ data, s.length = n)
    (h0 : (data.headD []).length = n) (he : ErasedFrom erased data) (r : Nat) :
    RowOK (missingIndices erased).length n (missingShards erased data)
      ((missingIndices erased).map (c.generator r),
        c.addColumns r (presentShards erased)
          (c.addColumns r data.enum (List.replicate (data.headD []).length 0))) := by
  obtain ⟨hlen, hu16, hget⟩ := parityRow_spec c r n data hn h0
  have hknown : ∀ p ∈ presentShards erased, p.2.length =
      (c.addColumns r data.enum (List.replicate (data.headD []).length 0)).length := by
    intro p hp
    rw [hlen]
    exact hn _ (mem_present_erased erased data he 0 p hp)
  refine ⟨List.length_map _ _, ?_, ?_, addColumns_isU16s c r _ _ hu16, ?_⟩
  · show (c.addColumns r (presentShards erased) _).length = n
    rw [addColumns_length c r _ _ hknown, hlen]
  · intro x hx
    obtain ⟨i, _, rfl⟩ := List.mem_map.1 hx
    exact generator_lt c r i
  · intro t _
    show dot ((missingIndices erased).map (c.generator r)) _ =
      (c.addColumns r (presentShards erased) _).getD t 0
    rw [addColumns_getD c r _ _ hknown, hget t, sumAt_split (c.generator r) t erased data he 0]
    unfold missingIndices presentShards List.enum
    generalize sumAt (c.generator r) t _ = K
    generalize dot _ _ = D
    calc D = K ^^^ (K ^^^ D) := (Nat.xor_cancel_left K D).symm
      _ = K ^^^ D ^^^ K := by ac_rfl

theorem erasedFrom_nil_right (erased : List (Option Shard)) (h : ErasedFrom erased []) :
    erased = [] := by
  cases h
  rfl

/-- The reconstruction of an erased list of shards from an erased list of their
parity shards, with at least as many parity shards left as data shards erased,
either fails with "zero divisor" or restores the data. -/
theorem ReconstructData_erased (c : Coder) (n : Nat) (data : List Shard)
    (erased parity : List (Option Shard)) (hn : ∀ s ∈ data, s.length = n)
    (hu : ∀ s ∈ data, isU16s s) (he : ErasedFrom erased data)
    (hp : ErasedFrom parity (c.GenerateParity data))
    (hcount : erased.countP (·.isNone) ≤ parity.countP (·.isSome)) :
    c.ReconstructData erased parity = .ok (data.map some) ∨
      c.ReconstructData erased parity = .error "zero divisor" := by
  have h1 : (missingIndices erased).length = erased.countP (·.isNone) := by
    unfold missingIndices
    rw [List.length_map]
    exact enumFrom_filter_isNone_length erased 0
  have h2 : (presentShards parity).length = parity.countP (·.isSome) :=
    enumFrom_filterMap_length parity 0
  have hdl : (missingShards erased data).length = (missingIndices erased).length := by
    rw [h1, missingShards_length erased data he]
  have hdn : ∀ s ∈ missingShards erased data, s.length = n :=
    fun s hs => hn s (missingShards_mem erased data s hs)
  have hd : ∀ s ∈ missingShards erased data, isU16s s :=
    fun s hs => hu s (missingShards_mem erased data s hs)
  have htake : ((presentShards parity).take (missingIndices erased).length).length =
      (missingIndices erased).length := by
    rw [List.length_take, h1, h2]
    exact Nat.min_eq_left hcount
  have hrows : ∀ row ∈ ((presentShards parity).take (missingIndices erased).length).map
      (fun p => ((missingIndices erased).map (c.generator p.1),
        c.addColumns p.1 (presentShards erased) p.2)),
      RowOK (missingIndices erased).length n (missingShards erased data) row := by
    intro row hrow
    obtain ⟨p, hp1, rfl⟩ := List.mem_map.1 hrow
    have hp2 := List.mem_of_mem_take hp1
    have hne : (missingIndices erased).length ≠ 0 := by
      intro h
      rw [h, List.take_zero] at hp1
      cases hp1
    have h0 : (data.headD []).length = n := by
      cases data with
      | nil =>
        rw [erasedFrom_nil_right erased he] at hne
        exact absurd rfl hne
      | cons s ss => exact hn s (List.mem_cons_self _ _)
    have hpar : p.2 = c.addColumns p.1 data.enum (List.replicate (data.headD []).length 0) := by
      unfold Coder.GenerateParity at hp
      rw [List.range_eq_range'] at hp
      exact present_erased_range
        (fun r => c.addColumns r data.enum (List.replicate (data.headD []).length 0))
        parity 0 c.numParity hp p hp2
    show RowOK _ n _ (_, c.addColumns p.1 (presentShards erased) p.2)
    rw [hpar]
    exact reconstructRow_ok c n data erased hn h0 he p.1
  have hle : (((presentShards parity).take (missingIndices erased).length).map
      (fun p => ((missingIndices erased).map (c.generator p.1),
        c.addColumns p.1 (presentShards erased) p.2))).length ≤ (missingIndices erased).length := by
    rw [List.length_map, htake]
  have hsum : 0 + (((presentShards parity).take (missingIndices erased).length).map
      (fun p => ((missingIndices erased).map (c.generator p.1),
        c.addColumns p.1 (presentShards erased) p.2))).length = (missingIndices erased).length := by
    rw [List.length_map, htake, Nat.zero_add]
  have hdone : ∀ row ∈ ([] : List Row),
      RowOK (missingIndices erased).length n (missingShards erased data) row :=
    fun row hrow => by cases hrow
  have hD : DoneOK 0 [] := fun i row hi => by simp at hi
  have hR : RestOK 0 (((presentShards parity).take (missingIndices erased).length).map
      (fun p => ((missingIndices erased).map (c.generator p.1),
        c.addColumns p.1 (presentShards erased) p.2))) :=
    fun row _ j hj => absurd hj (Nat.not_lt_zero j)
  have key := gaussJordan_correct (missingIndices erased).length n (missingShards erased data)
    hdl hdn hd (missingIndices erased).length 0 [] _ hle rfl hsum hdone hrows hD hR
  unfold Coder.ReconstructData
  simp only
  rw [if_neg (by rw [h1, h2]; exact Nat.not_lt.2 hcount)]
  rcases key with h | h
  · right
    rw [h]
  · left
    rw [h]
    exact congrArg Except.ok (fillMissing_missingShards erased data he)

theorem GenerateParity_length (c : Coder) (data : List Shard) :
    (c.GenerateParity data).length = c.numParity := by
  unfold Coder.GenerateParity
  rw [List.length_map, List.length_range]

set_option maxRecDepth 100000 in
/-- The columns 0, 93 and 469 of the generator matrix add up to zero in the rows of
exponent 1, 2 and 4: `1 + α⁹³ + α⁴⁶⁹ = 0`, and squaring is additive. -/
theorem bigCoder_columns_dependent :
    ∀ r ∈ [0, 1, 3],
      bigCoder.generator r 0 ^^^ bigCoder.generator r 93 ^^^ bigCoder.generator r 469 = 0 := by
  decide

set_option maxRecDepth 1000000 in
/-- Claim C6 as stated fails: with 470 data shards and 4 parity shards of exponent
1, 2, 3, 4, the first four exponents that the specification lists, data shards 0, 93
and 469 erased and parity shard 2 erased, three parity shards are left for three
missing data shards, and `ReconstructData` returns the error "zero divisor". -/
theorem ReconstructData_zero_divisor :
    bigData.length = 470 ∧ (∀ s ∈ bigData, s.length = 1) ∧
    bigDataMask.length = 470 ∧ bigDataMask.count true = 3 ∧
    bigParityMask.length = 4 ∧ bigParityMask.count false = 3 ∧
    bigCoder.ReconstructData (eraseShards bigDataMask bigData)
        (eraseShards bigParityMask (bigCoder.GenerateParity bigData)) =
      .error "zero divisor" := by
  refine ⟨rfl, ?_, rfl, rfl, rfl, rfl, rfl⟩
  intro s hs
  obtain ⟨i, _, rfl⟩ := List.mem_map.1 hs
  rfl

/-! ## Decoder: loading parity volumes and verifying -/

/-- Claim C11: for every decoder state with a `nil` entry in `fileData` or in
`parityData`, `Decoder.Verify` returns `(false, nil)`; the Reed–Solomon library is
not called, and no shard is built: the result is the same whatever the coder and
`shardByteCount` are. -/
theorem Verify_missing (rs : ReedSolomon) (d : Decoder)
    (h : none ∈ d.fileData ∨ none ∈ d.parityData) :
    d.Verify rs = (some (.ok false), []) := by
  unfold Decoder.Verify
  by_cases hf : d.fileData.any Option.isNone = true
  · rw [if_pos hf]
  · rw [if_neg hf]
    have hp : d.parityData.any Option.isNone = true := by
      rcases h with h | h
      · exact absurd (List.any_eq_true.2 ⟨none, h, rfl⟩) hf
      · exact List.any_eq_true.2 ⟨none, h, rfl⟩
    rw [if_pos hp]

/-- Claim C11 at a decoder with one data file missing and a data file longer than
`shardByteCount`, and at a decoder with a parity volume slot missing. -/
theorem Verify_missing_witness :
    Decoder.Verify copyCoder
      { indexFile := ascii "file.par", indexVolume := testVolume 2 0 [],
        fileData := [some [1, 2, 3, 4, 5], none], shardByteCount := 4,
        parityData := [some [1, 2, 3, 4]] } = (some (.ok false), []) ∧
    Decoder.Verify copyCoder
      { indexFile := ascii "file.par", indexVolume := testVolume 1 0 [],
        fileData := [some [1, 2, 3, 4]], shardByteCount := 4,
        parityData := [none, some [1, 2, 3, 4]] } = (some (.ok false), []) :=
  ⟨Verify_missing copyCoder _ (Or.inl (by decide)),
    Verify_missing copyCoder _ (Or.inr (by decide))⟩

theorem maxParityVolumeCount_of_le (fileCount : Nat) (h : fileCount ≤ 256) :
    maxParityVolumeCount fileCount = min 99 (256 - fileCount) := by
  unfold maxParityVolumeCount
  have h1 : (256 + 2 ^ 64 - fileCount) % 2 ^ 64 = 256 - fileCount := by omega
  rw [h1]
  split_ifs <;> omega

theorem maxParityVolumeCount_of_gt (fileCount : Nat) (h : 256 < fileCount)
    (h64 : fileCount < 2 ^ 64) : maxParityVolumeCount fileCount = 99 := by
  unfold maxParityVolumeCount
  have h1 : (256 + 2 ^ 64 - fileCount) % 2 ^ 64 = 256 + 2 ^ 64 - fileCount := by omega
  rw [h1, if_pos (by omega)]

/-- The paths probed by a loop that returns no error: one for each iteration. -/
theorem loadParityLoop_probed (io : decoderEnv) (base : Bytes) :
    ∀ (count i : Nat) (sbc : Int) (pd : List (Option Bytes)) (maxI : Nat)
      (r : Int × List (Option Bytes) × Nat) (probed : List Bytes),
    loadParityLoop io base count i sbc pd maxI = (.ok r, probed) →
    probed = (List.range' i count).map (fun j => base ++ ascii ".p" ++ fmt02d (j + 1)) := by
  intro count
  induction count with
  | zero =>
    intro i sbc pd maxI r probed h
    rw [loadParityLoop] at h
    injection h with _ h2
    rw [← h2]
    rfl
  | succ count ih =>
    intro i sbc pd maxI r probed h
    rw [loadParityLoop] at h
    rw [List.range'_succ, List.map_cons]
    cases hv : io.readVolume (base ++ ascii ".p" ++ fmt02d (i + 1)) with
    | notExist e =>
      rw [hv] at h
      dsimp only at h
      injection h with h1 h2
      rw [← h2]
      congr 1
      exact ih (i + 1) sbc pd maxI r _ (Prod.ext h1 rfl)
    | failed e =>
      rw [hv] at h
      dsimp only at h
      injection h with h1 _
      cases h1
    | ok v =>
      rw [hv] at h
      dsimp only at h
      by_cases c1 : v.header.VolumeNumber ≠ i + 1
      · rw [if_pos c1] at h
        injection h with h1 _
        cases h1
      · rw [if_neg c1] at h
        by_cases c2 : v.data.length = 0
        · rw [if_pos c2] at h
          injection h with h1 _
          cases h1
        · rw [if_neg c2] at h
          by_cases c3 : sbc ≠ 0 ∧ (v.data.length : Int) ≠ sbc
          · rw [if_pos c3] at h
            injection h with h1 _
            cases h1
          · rw [if_neg c3] at h
            injection h with h1 h2
            rw [← h2]
            congr 1
            exact ih (i + 1) _ _ i r _ (Prod.ext h1 rfl)

set_option maxRecDepth 100000 in
/-- Claim C13 fails on the code: for an index volume with `FileCount = 257` and no
parity volume on disk, `256 - fileCount` wraps around in `uint64`, the bound is
99, and `LoadParityData` probes the 99 names `file.p01`, …, `file.p99`. -/
theorem LoadParityData_probes_99_for_257_files :
    ∃ d d', NewDecoder (testDecoderEnv 257 [] none none) (ascii "file.par") = .ok d ∧
      d.indexVolume.header.FileCount = 257 ∧
      d.LoadParityData (testDecoderEnv 257 [] none none) =
        (some (d', none), (List.range 99).map (parityVolumePath (ascii "file.par"))) ∧
      ((List.range 99).map (parityVolumePath (ascii "file.par"))).length = 99 ∧
      parityVolumePath (ascii "file.par") 0 = ascii "file.p01" ∧
      parityVolumePath (ascii "file.par") 98 = ascii "file.p99" :=
  ⟨_, _, rfl, rfl, rfl, rfl, rfl, rfl⟩

set_option maxRecDepth 100000 in
/-- Claim C20 fails on the code: the index volume lists the file `a`, which has 5
bytes on disk, and the parity volume `file.p01` has a payload of 4 bytes.
`LoadFileData` and `LoadParityData` succeed, every data file and parity volume is
present, `shardByteCount` is 4, and `Verify` panics in
`make([]byte, d.shardByteCount-len(data))`, the length being `-1`. -/
theorem Verify_panics_on_long_file :
    ∃ d0 d1 d probed,
      NewDecoder (testDecoderEnv 1 [1, 2, 3, 4, 5] (some (testVolume 1 1 [9, 9, 9, 9])) none)
        (ascii "file.par") = .ok d0 ∧
      d0.LoadFileData (testDecoderEnv 1 [1, 2, 3, 4, 5] (some (testVolume 1 1 [9, 9, 9, 9])) none)
        = (d1, none) ∧
      d1.LoadParityData
          (testDecoderEnv 1 [1, 2, 3, 4, 5] (some (testVolume 1 1 [9, 9, 9, 9])) none)
        = (some (d, none), probed) ∧
      d.fileData = [some [1, 2, 3, 4, 5]] ∧ d.parityData = [some [9, 9, 9, 9]] ∧
      d.shardByteCount = 4 ∧
      ∀ rs : ReedSolomon, rs.New 1 1 = none → d.Verify rs = (none, [.new 1 1]) := by
  refine ⟨_, _,
    { indexFile := ascii "file.par", indexVolume := testVolume 1 0 [],
      fileData := [some [1, 2, 3, 4, 5]], shardByteCount := 4,
      parityData := [some [9, 9, 9, 9]] }, _, rfl, rfl, rfl, rfl, rfl, rfl, ?_⟩
  intro rs hnew
  unfold Decoder.Verify
  rw [if_neg (by decide), if_neg (by decide)]
  have hnew1 : rs.New (([some [1, 2, 3, 4, 5]] : List (Option Bytes)).length : Int)
      (([some [9, 9, 9, 9]] : List (Option Bytes)).length : Int) = none := hnew
  dsimp only
  rw [hnew1]
  rfl

theorem not_mem_replicate_none (n : Nat) (s : Bytes) :
    some s ∉ List.replicate n (none : Option Bytes) := by
  intro h
  cases (List.mem_replicate.1 h).2

/-- A loop of `LoadParityData` that returns no error: the loaded shards have the
non-zero length `shardByteCount`, and every volume probed is absent or passes the
three checks. -/
theorem loadParityLoop_ok (io : decoderEnv) (base : Bytes) :
    ∀ (count i : Nat) (sbc : Int) (pd : List (Option Bytes)) (maxI : Nat)
      (sbc' : Int) (pd' : List (Option Bytes)) (maxI' : Nat) (probed : List Bytes),
    loadParityLoop io base count i sbc pd maxI = (.ok (sbc', pd', maxI'), probed) →
    (∀ s, some s ∈ pd → s.length ≠ 0 ∧ (s.length : Int) = sbc) →
    (∀ s, some s ∈ pd' → s.length ≠ 0 ∧ (s.length : Int) = sbc') ∧
    (sbc ≠ 0 → sbc' = sbc) ∧
    ∀ j, i ≤ j → j < i + count →
      (∃ e, io.readVolume (base ++ ascii ".p" ++ fmt02d (j + 1)) = .notExist e) ∨
      ∃ v, io.readVolume (base ++ ascii ".p" ++ fmt02d (j + 1)) = .ok v ∧
        v.header.VolumeNumber = j + 1 ∧ v.data.length ≠ 0 ∧ (v.data.length : Int) = sbc' := by
  intro count
  induction count with
  | zero =>
    intro i sbc pd maxI sbc' pd' maxI' probed h hinv
    rw [loadParityLoop] at h
    injection h with h1 _
    injection h1 with h1
    injection h1 with h1 h2
    injection h2 with h2 _
    subst h1 h2
    exact ⟨hinv, fun _ => rfl, fun j h1 h2 => absurd h2 (by omega)⟩
  | succ count ih =>
    intro i sbc pd maxI sbc' pd' maxI' probed h hinv
    rw [loadParityLoop] at h
    cases hv : io.readVolume (base ++ ascii ".p" ++ fmt02d (i + 1)) with
    | notExist e =>
      rw [hv] at h
      dsimp only at h
      injection h with h1 _
      obtain ⟨g1, g2, g3⟩ := ih (i + 1) sbc pd maxI sbc' pd' maxI' _ (Prod.ext h1 rfl) hinv
      refine ⟨g1, g2, fun j hj1 hj2 => ?_⟩
      by_cases hji : j = i
      · subst hji
        exact Or.inl ⟨e, hv⟩
      · exact g3 j (by omega) (by omega)
    | failed e =>
      rw [hv] at h
      dsimp only at h
      injection h with h1 _
      cases h1
    | ok v =>
      rw [hv] at h
      dsimp only at h
      by_cases c1 : v.header.VolumeNumber ≠ i + 1
      · rw [if_pos c1] at h
        injection h with h1 _
        cases h1
      · rw [if_neg c1] at h
        by_cases c2 : v.data.length = 0
        · rw [if_pos c2] at h
          injection h with h1 _
          cases h1
        · rw [if_neg c2] at h
          by_cases c3 : sbc ≠ 0 ∧ (v.data.length : Int) ≠ sbc
          · rw [if_pos c3] at h
            injection h with h1 _
            cases h1
          · rw [if_neg c3] at h
            injection h with h1 _
            have hlen : (v.data.length : Int) =
                (if sbc = 0 then (v.data.length : Int) else sbc) := by
              by_cases hs : sbc = 0
              · rw [if_pos hs]
              · rw [if_neg hs]
                by_contra hne
                exact c3 ⟨hs, hne⟩
            have hne0 : (if sbc = 0 then (v.data.length : Int) else sbc) ≠ 0 := by
              rw [← hlen]
              exact_mod_cast c2
            have hinv1 : ∀ s, some s ∈ pd.set i (some v.data) → s.length ≠ 0 ∧
                (s.length : Int) = (if sbc = 0 then (v.data.length : Int) else sbc) := by
              intro s hs
              rcases List.mem_or_eq_of_mem_set hs with hs | hs
              · obtain ⟨k1, k2⟩ := hinv s hs
                have hs0 : sbc ≠ 0 := by
                  rw [← k2]
                  exact_mod_cast k1
                rw [if_neg hs0]
                exact ⟨k1, k2⟩
              · injection hs with hs
                subst hs
                exact ⟨c2, hlen⟩
            obtain ⟨g1, g2, g3⟩ := ih (i + 1) _ _ i sbc' pd' maxI' _ (Prod.ext h1 rfl) hinv1
            have hsbc : sbc' = (if sbc = 0 then (v.data.length : Int) else sbc) := g2 hne0
            refine ⟨g1, fun hs => by rw [hsbc, if_neg hs], fun j hj1 hj2 => ?_⟩
            by_cases hji : j = i
            · subst hji
              exact Or.inr ⟨v, hv, not_not.1 c1, c2, by rw [hsbc]; exact hlen⟩
            · exact g3 j (by omega) (by omega)

/-- Claim C12: `LoadParityData` returns an error whenever a parity volume that is
present (index `i` below the bound, read without error) has a `VolumeNumber` other
than `i + 1`, an empty payload, or a payload length other than that of the first
present parity volume; and after a successful `LoadParityData` every non-nil
parity shard has the same non-zero length, `d.shardByteCount`. -/
theorem LoadParityData_checks (io : decoderEnv) (d : Decoder) :
    (∀ (i : Nat) (v : volume), i < maxParityVolumeCount d.indexVolume.header.FileCount →
      io.readVolume (parityVolumePath d.indexFile i) = .ok v →
      (v.header.VolumeNumber ≠ i + 1 ∨ v.data.length = 0 ∨
        ∃ (k : Nat) (w : volume), k < maxParityVolumeCount d.indexVolume.header.FileCount ∧
          io.readVolume (parityVolumePath d.indexFile k) = .ok w ∧
          (∀ k', k' < k → ∃ e, io.readVolume (parityVolumePath d.indexFile k') = .notExist e) ∧
          v.data.length ≠ w.data.length) →
      ∃ err, (d.LoadParityData io).1 = some (d, some err)) ∧
    (∀ d', (d.LoadParityData io).1 = some (d', none) →
      ∀ s, some s ∈ d'.parityData → s.length ≠ 0 ∧ (s.length : Int) = d'.shardByteCount) := by
  unfold Decoder.LoadParityData
  cases hl : loadParityLoop io
      (d.indexFile.take (d.indexFile.length - (pathExt d.indexFile).length))
      (maxParityVolumeCount d.indexVolume.header.FileCount) 0 0
      (List.replicate (maxParityVolumeCount d.indexVolume.header.FileCount) none) 0 with
  | mk r probed =>
    cases r with
    | error err =>
      refine ⟨fun _ _ _ _ _ => ⟨err, rfl⟩, fun d' h => ?_⟩
      dsimp only at h
      injection h with h
      injection h with _ h
      cases h
    | ok st =>
      obtain ⟨sbc', pd', maxI'⟩ := st
      obtain ⟨g1, -, g3⟩ := loadParityLoop_ok io _ _ 0 0 _ 0 sbc' pd' maxI' probed hl
        (fun s hs => absurd hs (not_mem_replicate_none _ s))
      constructor
      · intro i v hi hv hdefect
        exfalso
        have fact : ∀ (j : Nat) (u : volume),
            j < maxParityVolumeCount d.indexVolume.header.FileCount →
            io.readVolume (parityVolumePath d.indexFile j) = .ok u →
            u.header.VolumeNumber = j + 1 ∧ u.data.length ≠ 0 ∧ (u.data.length : Int) = sbc' := by
          intro j u hj hu
          rcases g3 j (Nat.zero_le j) (by omega) with ⟨e, he⟩ | ⟨u', hu', k⟩
          · have he' : io.readVolume (parityVolumePath d.indexFile j) = .notExist e := he
            rw [hu] at he'
            cases he'
          · have hu'' : io.readVolume (parityVolumePath d.indexFile j) = .ok u' := hu'
            rw [hu] at hu''
            injection hu'' with hu''
            subst hu''
            exact k
        obtain ⟨f1, f2, f3⟩ := fact i v hi hv
        rcases hdefect with h | h | ⟨k, w, hk, hw, -, hne⟩
        · exact h f1
        · exact f2 h
        · obtain ⟨-, -, f3'⟩ := fact k w hk hw
          apply hne
          have : (v.data.length : Int) = (w.data.length : Int) := by rw [f3, f3']
          exact_mod_cast this
      · intro d' h
        dsimp only at h
        by_cases hm : maxI' + 1 ≤ maxParityVolumeCount d.indexVolume.header.FileCount
        · rw [if_pos hm] at h
          injection h with h
          injection h with h _
          subst h
          intro s hs
          exact g1 s (List.mem_of_mem_take hs)
        · rw [if_neg hm] at h
          cases h

set_option maxRecDepth 100000 in
/-- Claim C12 at two directories: `file.p02` with a payload of 2 bytes next to
`file.p01` with one of 4 bytes is an error; with both payloads of 4 bytes the
loaded shards have the length `shardByteCount = 4`. -/
theorem LoadParityData_checks_witness :
    (∃ err, (testDecoder.LoadParityData (testDecoderEnv 1 [1, 2, 3, 4]
        (some (testVolume 1 1 [9, 9, 9, 9])) (some (testVolume 1 2 [9, 9])))).1 =
      some (testDecoder, some err)) ∧
    (∀ s, some s ∈ ({ testDecoder with
          shardByteCount := 4, parityData := [some [9, 9, 9, 9], some [8, 8, 8, 8]] } :
          Decoder).parityData →
      s.length ≠ 0 ∧ (s.length : Int) = 4) :=
  ⟨(LoadParityData_checks (testDecoderEnv 1 [1, 2, 3, 4]
      (some (testVolume 1 1 [9, 9, 9, 9])) (some (testVolume 1 2 [9, 9]))) testDecoder).1
      1 (testVolume 1 2 [9, 9]) (by decide) rfl
      (Or.inr (Or.inr ⟨0, testVolume 1 1 [9, 9, 9, 9], by decide, rfl,
        fun k' hk' => absurd hk' (Nat.not_lt_zero k'), by decide⟩)),
    (LoadParityData_checks (testDecoderEnv 1 [1, 2, 3, 4]
      (some (testVolume 1 1 [9, 9, 9, 9])) (some (testVolume 1 2 [8, 8, 8, 8]))) testDecoder).2
      { testDecoder with
        shardByteCount := 4, parityData := [some [9, 9, 9, 9], some [8, 8, 8, 8]] } rfl⟩

/-! ## Written volumes: the control hash -/

theorem writtenBytes_control_hash (md5 : HashFn) (v : volume) (bs : Bytes)
    (hth : v.header.Typed) :
    ((writtenBytes md5 v bs).drop 16).take 16 =
      md5.sum ((headerBytes v.header).drop controlHashOffset ++ (bs ++ v.data)) := by
  obtain ⟨h1, -, -, h4, h5, -⟩ := hth
  unfold writtenBytes
  simp only [headerBytes, List.append_assoc]
  simp only [drop_append_of_le, putLE_length, h1, Nat.reduceLeDiff, Nat.reduceSub,
    Nat.le_refl, List.drop_zero]
  exact take_append_of_eq 16 _ _ (md5.sum_length _)

theorem readHeader_control_hash (b : Bytes) (h : header) (rest : Bytes)
    (hh : readHeader b = .ok (h, rest)) : h.ControlHash = (b.drop 16).take 16 := by
  unfold readHeader at hh
  dsimp only at hh
  split_ifs at hh
  injection hh with hh
  injection hh with hh _
  rw [← hh]

theorem readHeader_error_ne (b : Bytes) : readHeader b ≠ .error "invalid control hash" := by
  unfold readHeader
  dsimp only
  split_ifs <;> intro h <;>
    first
    | cases h
    | (injection h with h; exact absurd h (by decide))

theorem readVolume_hash_ok (md5 : HashFn) (b : Bytes)
    (hb : (b.drop 16).take 16 = md5.sum (b.drop 32)) :
    readVolume md5 b ≠ .error "invalid control hash" := by
  unfold readVolume
  cases hh : readHeader b with
  | error err =>
    dsimp only
    intro h
    injection h with h
    rw [h] at hh
    exact readHeader_error_ne b hh
  | ok r =>
    obtain ⟨h, rest⟩ := r
    have hc := readHeader_control_hash b h rest hh
    simp only [controlHashOffset]
    rw [if_neg (not_not.2 (by rw [hc, hb]))]
    have h2 := readFileEntries_error_ne h.FileCount rest
    cases hr : readFileEntries h.FileCount rest with
    | error err =>
      dsimp only
      intro h3
      injection h3 with h3
      rw [hr, h3] at h2
      exact h2 rfl
    | ok r2 =>
      dsimp only
      intro h3
      cases h3

/-- Claim C15: for every volume `v` on which `writeVolume` succeeds with output `b`,
the `ControlHash` field of `b` (bytes 16..32) is MD5 of `b[32:]`; the output is the
same whatever `ControlHash` the header of `v` held; and `readVolume(b)` does not
fail with "invalid control hash". -/
theorem writeVolume_control_hash (md5 : HashFn) (v : volume) (b : Bytes)
    (ht : v.header.Typed) (hw : writeVolume md5 v = .ok b) :
    (b.drop 16).take 16 = md5.sum (b.drop 32) ∧
    (∀ c : Bytes, c.length = 16 →
      writeVolume md5 { v with header := { v.header with ControlHash := c } } = .ok b) ∧
    readVolume md5 b ≠ .error "invalid control hash" := by
  obtain ⟨bs, hbs⟩ := writeFileEntries_ok v.entries
  have hb : b = writtenBytes md5 v bs := by
    rw [writeVolume_eq md5 v bs hbs] at hw
    injection hw with hw
    exact hw.symm
  have h1 : (b.drop 16).take 16 = md5.sum (b.drop 32) := by
    rw [hb, writtenBytes_control_hash md5 v bs ht]
    have := writtenBytes_drop md5 v bs ht
    rw [controlHashOffset] at this
    rw [this]
    rfl
  refine ⟨h1, ?_, readVolume_hash_ok md5 b h1⟩
  intro c hc
  have hw2 := writeVolume_eq md5 { v with header := { v.header with ControlHash := c } } bs hbs
  rw [hw2, hb]
  unfold writtenBytes
  dsimp only
  rw [headerBytes_drop v.header ht c hc]

/-- Claim C15 at a volume with two entries and a four-byte payload. -/
theorem writeVolume_control_hash_witness :
    ∃ b, writeVolume sumHash goodVolume = .ok b ∧
      (b.drop 16).take 16 = sumHash.sum (b.drop 32) ∧
      readVolume sumHash b ≠ .error "invalid control hash" :=
  match writeVolume_ok sumHash goodVolume with
  | ⟨b, hb⟩ =>
    have h := writeVolume_control_hash sumHash goodVolume b (by decide) hb
    ⟨b, hb, h.1, h.2.2⟩

/-! ## File entries: the filename bytes -/

theorem readFileEntry_short (buf : Bytes) (h : buf.length < fileEntryHeaderSize) :
    ∃ err, readFileEntry buf = .error err := by
  unfold readFileEntry readFileEntryHeader
  by_cases h0 : buf.length = 0
  · rw [if_pos h0]
    exact ⟨_, rfl⟩
  · rw [if_neg h0, if_pos h]
    exact ⟨_, rfl⟩

/-- Claim C16, amended: for every entry that `readFileEntry` accepts, `EntryBytes`
is above 56, the buffer is the 56 bytes of the fixed fields, then exactly
`EntryBytes - 56` bytes, then the bytes left unread, and the filename is the
UTF-16LE decoding of those `EntryBytes - 56` bytes. -/
theorem readFileEntry_filename_bytes (buf : Bytes) (e : fileEntry) (rest : Bytes)
    (hb : isBytes buf) (hint : buf.length < 2 ^ 63)
    (h : readFileEntry buf = .ok (e, rest)) :
    e.header.EntryBytes = getLE (buf.take 8) ∧ 56 < e.header.EntryBytes ∧
    buf = buf.take 56 ++ (buf.drop 56).take (e.header.EntryBytes - 56) ++ rest ∧
    (buf.take 56).length = 56 ∧
    ((buf.drop 56).take (e.header.EntryBytes - 56)).length = e.header.EntryBytes - 56 ∧
    e.filename = decodeUTF16LEString ((buf.drop 56).take (e.header.EntryBytes - 56)) := by
  have hlen : fileEntryHeaderSize ≤ buf.length := by
    by_contra hc
    obtain ⟨err, herr⟩ := readFileEntry_short buf (Nat.lt_of_not_le hc)
    rw [herr] at h
    cases h
  have hEB : getLE (buf.take 8) < 2 ^ 64 := by
    have h := getLE_lt (buf.take 8) (isBytes_take buf 8 hb)
    rw [List.length_take, Nat.min_eq_left (by rw [fileEntryHeaderSize] at hlen; omega)] at h
    exact h
  rw [readFileEntry_cases buf hlen] at h
  rw [fileEntryHeaderSize] at hlen
  by_cases c1 : (getLE (buf.take 8) + 2 ^ 64 - 56) % 2 ^ 64 ≤ 0 ∨
      (getLE (buf.take 8) + 2 ^ 64 - 56) % 2 ^ 64 % 2 ≠ 0
  · rw [if_pos c1] at h
    cases h
  · rw [if_neg c1] at h
    by_cases c2 : (getLE (buf.take 8) + 2 ^ 64 - 56) % 2 ^ 64 > buf.length - 56
    · rw [if_pos c2] at h
      cases h
    · rw [if_neg c2] at h
      have hge : 56 < getLE (buf.take 8) := by
        by_contra hlt
        have hle : getLE (buf.take 8) ≤ 56 := Nat.le_of_not_lt hlt
        rcases Nat.lt_or_eq_of_le hle with h56 | h56
        · have : (getLE (buf.take 8) + 2 ^ 64 - 56) % 2 ^ 64 =
              getLE (buf.take 8) + 2 ^ 64 - 56 := Nat.mod_eq_of_lt (by omega)
          rw [this] at c2
          omega
        · apply c1
          left
          rw [h56]
          decide
      have hsub : (getLE (buf.take 8) + 2 ^ 64 - 56) % 2 ^ 64 = getLE (buf.take 8) - 56 := by
        have : getLE (buf.take 8) + 2 ^ 64 - 56 = (getLE (buf.take 8) - 56) + 2 ^ 64 := by omega
        rw [this, Nat.add_mod_right]
        exact Nat.mod_eq_of_lt (by omega)
      rw [hsub] at h c2
      injection h with h
      injection h with h1 h2
      subst h1 h2
      dsimp only
      refine ⟨rfl, hge, ?_, ?_, ?_, rfl⟩
      · rw [List.append_assoc, List.take_append_drop, List.take_append_drop]
      · rw [List.length_take]
        omega
      · rw [List.length_take, List.length_drop]
        omega

set_option maxRecDepth 10000 in
/-- Claim C16, amended, at an entry with `EntryBytes = 76`: the filename is the 20
bytes after the fixed fields. -/
theorem readFileEntry_filename_bytes_witness :
    ∃ e rest, readFileEntry entry76 = .ok (e, rest) ∧
      e.header.EntryBytes = 76 ∧ rest = [0xAA] ∧
      ((entry76.drop 56).take (e.header.EntryBytes - 56)).length = 76 - 56 ∧
      e.filename = decodeUTF16LEString ((entry76.drop 56).take (76 - 56)) :=
  ⟨⟨⟨76, 0, 0, List.replicate 16 0, List.replicate 16 0⟩, ascii "abcdefghij"⟩, [0xAA], rfl,
    rfl, rfl,
    (readFileEntry_filename_bytes entry76 _ [0xAA] (by decide) (by decide) rfl).2.2.2.2.1,
    (readFileEntry_filename_bytes entry76 _ [0xAA] (by decide) (by decide) rfl).2.2.2.2.2⟩

set_option maxRecDepth 10000 in
/-- Claim C16 as stated fails: the entry with `EntryBytes = 76` is accepted; the
filename `abcdefghij` is read from 20 bytes, which is `EntryBytes - 56`, while
`EntryBytes - 72` is 4 and the next 4 bytes are the filename `ab`. -/
theorem readFileEntry_not_entryBytes_minus_72 :
    ∃ e rest, readFileEntry entry76 = .ok (e, rest) ∧ e.header.EntryBytes = 76 ∧
      e.filename = ascii "abcdefghij" ∧
      entry76.length - rest.length - 56 = 20 ∧ e.header.EntryBytes - 72 = 4 ∧
      decodeUTF16LEString ((entry76.drop 56).take (e.header.EntryBytes - 72)) = ascii "ab" ∧
      e.filename ≠ decodeUTF16LEString ((entry76.drop 56).take (e.header.EntryBytes - 72)) :=
  ⟨⟨⟨76, 0, 0, List.replicate 16 0, List.replicate 16 0⟩, ascii "abcdefghij"⟩, [0xAA], rfl,
    rfl, rfl, rfl, rfl, rfl, by decide⟩

/-! ## Encoder: shard lengths and the number of volumes -/

/-- The shards that `buildShards` returns after `LoadFileData`: every file padded to
the largest file length, then `volumeCount` shards of zeros. -/
theorem LoadFileData_shards (e e' : Encoder) (log : List Event)
    (hload : e.LoadFileData = (e', none, log)) (hvc : 0 ≤ e.volumeCount) :
    e'.buildShards = some (e'.fileData.map (padTo (maxLength e'.fileData)) ++
      List.replicate e.volumeCount.toNat (List.replicate (maxLength e'.fileData) 0)) := by
  unfold Encoder.LoadFileData at hload
  cases hl : loadFileDataLoop e.fileIO e.filePaths 0 [] with
  | mk r lg =>
    rw [hl] at hload
    cases r with
    | error err =>
      dsimp only at hload
      injection hload with _ h2
      injection h2 with h2 _
      cases h2
    | ok p =>
      obtain ⟨sbc, fd⟩ := p
      dsimp only at hload
      injection hload with h1 _
      obtain ⟨files, -, hfd, hs⟩ := loadFileDataLoop_ok e.fileIO e.filePaths 0 [] sbc fd lg hl
      rw [List.nil_append] at hfd
      rw [Nat.zero_max] at hs
      subst hfd hs
      have hfd' : e'.fileData = fd := by rw [← h1]
      have hsbc' : e'.shardByteCount = (maxLength fd : Int) := by rw [← h1]
      have hvc' : e'.volumeCount = ((e.volumeCount.toNat : Nat) : Int) := by
        rw [← h1, Int.toNat_of_nonneg hvc]
      have hb := buildShards_eq e' (maxLength fd) e.volumeCount.toNat hsbc' hvc'
        (by rw [hfd']; exact length_le_maxLength fd)
      rw [hfd'] at hb ⊢
      exact hb

theorem padTo_length (n : Nat) (d : Bytes) (h : d.length ≤ n) : (padTo n d).length = n := by
  rw [padTo, List.length_append, List.length_replicate]
  omega

/-- Claim C17, amended: for every set of input files, every shard that `buildShards`
returns after `LoadFileData` has the length of the longest input file; no rounding
is made, so the shard lengths are multiples of 4 exactly when there is no shard or
the longest file has a length that is a multiple of 4. -/
theorem buildShards_shard_lengths (e e' : Encoder) (log : List Event)
    (hload : e.LoadFileData = (e', none, log)) (hvc : 0 ≤ e.volumeCount) :
    ∃ shards, e'.buildShards = some shards ∧
      (∀ s ∈ shards, s.length = maxLength e'.fileData) ∧
      ((∀ s ∈ shards, s.length % 4 = 0) ↔ (shards = [] ∨ maxLength e'.fileData % 4 = 0)) := by
  have hlen : ∀ s ∈ e'.fileData.map (padTo (maxLength e'.fileData)) ++
      List.replicate e.volumeCount.toNat (List.replicate (maxLength e'.fileData) 0),
      s.length = maxLength e'.fileData := by
    intro s hs
    rcases List.mem_append.1 hs with h | h
    · obtain ⟨d, hd, rfl⟩ := List.mem_map.1 h
      exact padTo_length _ d (length_le_maxLength e'.fileData d hd)
    · rw [List.eq_of_mem_replicate h, List.length_replicate]
  refine ⟨_, LoadFileData_shards e e' log hload hvc, hlen, ?_⟩
  constructor
  · intro h
    cases hsh : e'.fileData.map (padTo (maxLength e'.fileData)) ++
        List.replicate e.volumeCount.toNat (List.replicate (maxLength e'.fileData) 0) with
    | nil => exact Or.inl rfl
    | cons s rest =>
      right
      have hs : s ∈ e'.fileData.map (padTo (maxLength e'.fileData)) ++
          List.replicate e.volumeCount.toNat (List.replicate (maxLength e'.fileData) 0) := by
        rw [hsh]
        exact List.mem_cons_self _ _
      rw [← hlen s hs]
      exact h s hs
  · intro h s hs
    rcases h with h | h
    · rw [h] at hs
      cases hs
    · rw [hlen s hs]
      exact h

/-- Claim C17, amended, at the encoder of `TestEncodeParity`: the longest file has 4
bytes, and the eight shards have 4 bytes each. -/
theorem buildShards_shard_lengths_witness :
    ∃ shards, testEncoderLoaded.buildShards = some shards ∧
      (∀ s ∈ shards, s.length = 4) ∧ shards.length = 8 := by
  obtain ⟨shards, h1, h2, -⟩ := buildShards_shard_lengths testEncoder testEncoderLoaded
    testEncoder.LoadFileData.2.2 rfl (by decide)
  refine ⟨shards, h1, h2, ?_⟩
  have h3 : testEncoderLoaded.buildShards = some
      [[1, 2, 3, 0], [5, 6, 7, 8], [9, 10, 11, 12], [13, 14, 0, 0], [0, 0, 0, 0],
        [0, 0, 0, 0], [0, 0, 0, 0], [0, 0, 0, 0]] := rfl
  rw [h3] at h1
  injection h1 with h1
  rw [← h1]
  rfl

/-- Claim C17 as stated fails: for the single input file `file.rar` of 3 bytes and
one parity volume, `buildShards` returns two shards of 3 bytes. -/
theorem buildShards_three_byte_shards :
    ∃ e e' log, newEncoder testIO [ascii "file.rar"] 1 = .ok e ∧
      e.LoadFileData = (e', none, log) ∧
      e'.buildShards = some [[1, 2, 3], [0, 0, 0]] ∧
      ¬ ∀ s ∈ [[1, 2, 3], [0, 0, 0]], List.length s % 4 = 0 :=
  ⟨oneFileEncoder, _, _, rfl, rfl, rfl, by decide⟩

theorem enum_map_fst_comp {α β : Type} (f : Nat → β) (l : List α) :
    l.enum.map (fun p => f p.1) = (List.range l.length).map f := by
  have h : l.enum.map (fun p => f p.1) = (l.enum.map Prod.fst).map f := by
    rw [List.map_map]
    rfl
  rw [h, List.enum_map_fst]

/-- The functions `newEncoder` and `NewEncoder` make no check: for every
`volumeCount` they return an encoder with that `volumeCount` and no error; and
`Write` names the parity volume of index `i` with `i + 1` printed by `%02d`,
however many parity shards there are. -/
theorem newEncoder_accepts_every_volumeCount (io : fileIO) (filePaths : List Bytes)
    (volumeCount : Int) :
    (∃ e, newEncoder io filePaths volumeCount = .ok e ∧ e.volumeCount = volumeCount ∧
      NewEncoder io filePaths volumeCount = .ok e) ∧
    (∀ (md5 : HashFn) (e : Encoder) (indexPath : Bytes),
      e.fileData.length = e.filePaths.length → (∀ p d, e.fileIO.WriteFile p d = none) →
      ∃ log, e.Write md5 indexPath = some (none, log) ∧
        (fileWrites log).map Prod.fst =
          (indexPath.take (indexPath.length - (pathExt indexPath).length) ++ ascii ".par") ::
            (List.range e.parityData.length).map (fun i =>
              indexPath.take (indexPath.length - (pathExt indexPath).length) ++ ascii ".p" ++
                fmt02d (i + 1))) := by
  refine ⟨⟨_, rfl, rfl, rfl⟩, ?_⟩
  intro md5 e indexPath hlen hio
  obtain ⟨log, bs, -, hw, hf⟩ := Write_eq md5 e indexPath hlen hio
  refine ⟨log, hw, ?_⟩
  rw [hf, List.map_cons, List.map_map]
  congr 1
  exact enum_map_fst_comp (fun i =>
    indexPath.take (indexPath.length - (pathExt indexPath).length) ++ ascii ".p" ++
      fmt02d (i + 1)) e.parityData

set_option maxRecDepth 100000 in
/-- Claim C14 fails on the code: `newEncoder(io, paths, 100)` returns an encoder
and no error, the check being a TODO; after `LoadFileData` and
`ComputeParityData` there are 100 parity shards, and `Write` names the last parity
volume `file.p100`, a name that `Decoder.LoadParityData` never probes. -/
theorem newEncoder_accepts_100_volumes :
    ∃ e0 e1 log0 log, newEncoder testIO testPaths 100 = .ok e0 ∧
      e0.LoadFileData = (e1, none, log0) ∧
      e1.ComputeParityData copyCoder = some (hundredVolumeEncoder, none) ∧
      hundredVolumeEncoder.parityData.length = 100 ∧
      hundredVolumeEncoder.Write sumHash (ascii "file.par") = some (none, log) ∧
      ((fileWrites log).map Prod.fst).getLast? = some (ascii "file.p100") := by
  obtain ⟨log, bs, -, hw, hf⟩ := Write_eq sumHash hundredVolumeEncoder (ascii "file.par") rfl
    (fun _ _ => rfl)
  refine ⟨_, _, _, log, rfl, rfl, rfl, rfl, hw, ?_⟩
  rw [hf]
  rfl

/-! ## Command line -/

/-- Claim C18: `processVerifyOrRepairError` returns 2 if and only if `err` is a
`rsec16.NotEnoughParityShardsError`, 7 for every other non-nil `err`, and for a nil
`err` 1 if `needsRepair` is true and 0 otherwise; with a non-nil `err` the result
does not depend on `needsRepair`. -/
theorem processVerifyOrRepairError_exit_code (needsRepair : Bool) (err : Option GoError) :
    ((processVerifyOrRepairError needsRepair err).1 = 2 ↔
      ∃ msg, err = some (.notEnoughParityShardsError msg)) ∧
    (∀ msg, err = some (.other msg) → (processVerifyOrRepairError needsRepair err).1 = 7) ∧
    (err = none →
      (processVerifyOrRepairError needsRepair err).1 = if needsRepair then 1 else 0) ∧
    (err ≠ none → ∀ b, processVerifyOrRepairError b err =
      processVerifyOrRepairError needsRepair err) := by
  cases err with
  | none =>
    refine ⟨⟨fun h => ?_, fun h => ?_⟩, fun _ h => ?_, fun _ => ?_, fun h => absurd rfl h⟩
    · cases needsRepair <;> exact absurd h (by decide)
    · obtain ⟨_, h⟩ := h
      cases h
    · cases h
    · cases needsRepair <;> rfl
  | some e =>
    cases e with
    | notEnoughParityShardsError msg =>
      refine ⟨⟨fun _ => ⟨msg, rfl⟩, fun _ => rfl⟩, fun _ h => ?_, fun h => ?_, fun _ _ => rfl⟩
      · cases h
      · cases h
    | other msg =>
      refine ⟨⟨fun h => ?_, fun h => ?_⟩, fun _ _ => rfl, fun h => ?_, fun _ _ => rfl⟩
      · have h7 : (processVerifyOrRepairError needsRepair (some (.other msg))).1 = 7 := rfl
        rw [h7] at h
        exact absurd h (by decide)
      · obtain ⟨_, h⟩ := h
        cases h
      · cases h

/-- Claim C18 at the four kinds of input. -/
theorem processVerifyOrRepairError_exit_code_witness :
    (processVerifyOrRepairError true
      (some (.notEnoughParityShardsError "not enough parity shards"))).1 = 2 ∧
    (processVerifyOrRepairError true (some (.other "zero divisor"))).1 = 7 ∧
    (processVerifyOrRepairError true none).1 = 1 ∧
    (processVerifyOrRepairError false none).1 = 0 :=
  ⟨(processVerifyOrRepairError_exit_code true _).1.2 ⟨_, rfl⟩,
    (processVerifyOrRepairError_exit_code true _).2.1 "zero divisor" rfl,
    (processVerifyOrRepairError_exit_code true none).2.2.1 rfl,
    (processVerifyOrRepairError_exit_code false none).2.2.1 rfl⟩

/-- The branch taken by the switch of `main`, for every command word. -/
theorem mainSwitch_spec (toLower : Bytes → Bytes) (name cmd : Bytes) :
    (mainSwitch toLower name cmd = .create ↔
      (toLower cmd = ascii "c" ∨ toLower cmd = ascii "create")) ∧
    (mainSwitch toLower name cmd = .verify ↔
      (toLower cmd = ascii "v" ∨ toLower cmd = ascii "verify")) ∧
    (mainSwitch toLower name cmd = .repair ↔
      (toLower cmd = ascii "r" ∨ toLower cmd = ascii "repair")) := by
  unfold mainSwitch
  by_cases h1 : toLower cmd = ascii "c"
  · rw [if_pos h1, h1]; decide
  · rw [if_neg h1]
    by_cases h2 : toLower cmd = ascii "create"
    · rw [if_pos h2, h2]; decide
    · rw [if_neg h2]
      by_cases h3 : toLower cmd = ascii "v"
      · rw [if_pos h3, h3]; decide
      · rw [if_neg h3]
        by_cases h4 : toLower cmd = ascii "verify"
        · rw [if_pos h4, h4]; decide
        · rw [if_neg h4]
          by_cases h5 : toLower cmd = ascii "r"
          · rw [if_pos h5, h5]; decide
          · rw [if_neg h5]
            by_cases h6 : toLower cmd = ascii "repair"
            · rw [if_pos h6, h6]; decide
            · rw [if_neg h6]
              simp [h1, h2, h3, h4, h5, h6]

/-- Claim C19 fails on the code: the switch of `main` has no case for `f`. The
command words `f` and `F` take the default branch, which prints
`unknown command 'f'` and the usage and exits with code 3, although the usage line
for repair reads `f(epair)`; `r` and `repair` select repair. -/
theorem mainSwitch_f_is_unknown :
    mainSwitch asciiToLower (ascii "par") (ascii "f") =
      .unknown (printUsageAndExit (ascii "par") allCommands
        (some (ascii "unknown command 'f'"))) ∧
    (printUsageAndExit (ascii "par") allCommands (some (ascii "unknown command 'f'"))).2 = 3 ∧
    ascii "  par [global options] f(epair) [repair options] <PAR file>\n" ∈
      (printUsageAndExit (ascii "par") allCommands (some (ascii "unknown command 'f'"))).1 ∧
    mainSwitch asciiToLower (ascii "par") (ascii "F") =
      .unknown (printUsageAndExit (ascii "par") allCommands
        (some (ascii "unknown command 'F'"))) ∧
    mainSwitch asciiToLower (ascii "par") (ascii "r") = .repair ∧
    mainSwitch asciiToLower (ascii "par") (ascii "Repair") = .repair := by
  refine ⟨by decide, by decide, by decide, by decide, by decide, by decide⟩

/-! ## Encoder: the first read error -/

theorem loadFileDataLoop_error (io : fileIO) (pre : List Bytes) (pk : Bytes) (post : List Bytes)
    (err : String) (hpre : ∀ p ∈ pre, ∃ d, io.ReadFile p = .ok d)
    (hk : io.ReadFile pk = .error err) :
    ∀ (sbc : Int) (fd : List Bytes),
    loadFileDataLoop io (pre ++ pk :: post) sbc fd =
      (.error err, loadedEvents pre ++ [.readFile pk, .onDataFileLoad pk (some err)]) := by
  induction pre with
  | nil =>
    intro sbc fd
    rw [List.nil_append, loadFileDataLoop, hk]
    rfl
  | cons p pre ih =>
    intro sbc fd
    obtain ⟨d, hd⟩ := hpre p (List.mem_cons_self _ _)
    rw [List.cons_append, loadFileDataLoop, hd]
    dsimp only
    rw [ih (fun q hq => hpre q (List.mem_cons_of_mem _ hq))]
    rfl

/-- Claim C23: for every list of file paths in which the file `pk` is the first
whose read fails, with the error `err`, `Encoder.LoadFileData` returns `err` and
leaves the encoder as it was, so `fileData` and `shardByteCount` are unchanged; the
events are, for each file before `pk` in order, its read and `OnDataFileLoad` with a
nil error, then the read of `pk` and `OnDataFileLoad(pk, err)`, and nothing for a
later file. -/
theorem LoadFileData_first_error (e : Encoder) (pre : List Bytes) (pk : Bytes)
    (post : List Bytes) (err : String) (hpaths : e.filePaths = pre ++ pk :: post)
    (hpre : ∀ p ∈ pre, ∃ d, e.fileIO.ReadFile p = .ok d)
    (hk : e.fileIO.ReadFile pk = .error err) :
    e.LoadFileData =
      (e, some err,
        (pre.map (fun p => [Event.readFile p, Event.onDataFileLoad p none])).flatten ++
          [.readFile pk, .onDataFileLoad pk (some err)]) := by
  unfold Encoder.LoadFileData
  rw [hpaths, loadFileDataLoop_error e.fileIO pre pk post err hpre hk]
  rfl

/-- Claim C23 at the files of `TestEncodeParity` with a missing file in the third
place, followed by a file that exists. -/
theorem LoadFileData_first_error_witness :
    Encoder.LoadFileData { testEncoderLoaded with
        filePaths := [ascii "file.rar", ascii "file.r01", ascii "gone", ascii "file.r02"] } =
      ({ testEncoderLoaded with
          filePaths := [ascii "file.rar", ascii "file.r01", ascii "gone", ascii "file.r02"] },
        some "file does not exist",
        [.readFile (ascii "file.rar"), .onDataFileLoad (ascii "file.rar") none,
          .readFile (ascii "file.r01"), .onDataFileLoad (ascii "file.r01") none,
          .readFile (ascii "gone"), .onDataFileLoad (ascii "gone") (some "file does not exist")]) := by
  refine LoadFileData_first_error _ [ascii "file.rar", ascii "file.r01"] (ascii "gone")
    [ascii "file.r02"] "file does not exist" rfl ?_ rfl
  intro p hp
  rcases List.mem_cons.1 hp with h | hp
  · exact ⟨[0x1, 0x2, 0x3], by rw [h]; rfl⟩
  · rcases List.mem_cons.1 hp with h | hp
    · exact ⟨[0x5, 0x6, 0x7, 0x8], by rw [h]; rfl⟩
    · cases hp

/-! ## Decoder: the slice of the parity data -/

/-- The index `maxI` after a loop of `LoadParityData` that returns no error is the
one before the loop or one of the indices of the loop. -/
theorem loadParityLoop_maxI (io : decoderEnv) (base : Bytes) :
    ∀ (count i : Nat) (sbc : Int) (pd : List (Option Bytes)) (maxI : Nat)
      (sbc' : Int) (pd' : List (Option Bytes)) (maxI' : Nat) (probed : List Bytes),
    loadParityLoop io base count i sbc pd maxI = (.ok (sbc', pd', maxI'), probed) →
    pd'.length = pd.length ∧ (maxI' = maxI ∨ (i ≤ maxI' ∧ maxI' < i + count)) := by
  intro count
  induction count with
  | zero =>
    intro i sbc pd maxI sbc' pd' maxI' probed h
    rw [loadParityLoop] at h
    injection h with h1 _
    injection h1 with h1
    injection h1 with h1 h2
    injection h2 with h2 h3
    subst h2 h3
    exact ⟨rfl, Or.inl rfl⟩
  | succ count ih =>
    intro i sbc pd maxI sbc' pd' maxI' probed h
    rw [loadParityLoop] at h
    cases hv : io.readVolume (base ++ ascii ".p" ++ fmt02d (i + 1)) with
    | notExist e =>
      rw [hv] at h
      dsimp only at h
      injection h with h1 _
      obtain ⟨g1, g2⟩ := ih (i + 1) sbc pd maxI sbc' pd' maxI' _ (Prod.ext h1 rfl)
      refine ⟨g1, ?_⟩
      rcases g2 with g2 | g2
      · exact Or.inl g2
      · exact Or.inr (by omega)
    | failed e =>
      rw [hv] at h
      dsimp only at h
      injection h with h1 _
      cases h1
    | ok v =>
      rw [hv] at h
      dsimp only at h
      by_cases c1 : v.header.VolumeNumber ≠ i + 1
      · rw [if_pos c1] at h
        injection h with h1 _
        cases h1
      · rw [if_neg c1] at h
        by_cases c2 : v.data.length = 0
        · rw [if_pos c2] at h
          injection h with h1 _
          cases h1
        · rw [if_neg c2] at h
          by_cases c3 : sbc ≠ 0 ∧ (v.data.length : Int) ≠ sbc
          · rw [if_pos c3] at h
            injection h with h1 _
            cases h1
          · rw [if_neg c3] at h
            injection h with h1 _
            obtain ⟨g1, g2⟩ := ih (i + 1) _ _ i sbc' pd' maxI' _ (Prod.ext h1 rfl)
            rw [List.length_set] at g1
            refine ⟨g1, Or.inr ?_⟩
            rcases g2 with g2 | g2 <;> omega

/-- With a positive bound `LoadParityData` does not panic: the slice
`parityData[:maxI+1]` is within the capacity. -/
theorem LoadParityData_no_panic (io : decoderEnv) (d : Decoder)
    (hpos : 0 < maxParityVolumeCount d.indexVolume.header.FileCount) :
    (d.LoadParityData io).1 ≠ none := by
  unfold Decoder.LoadParityData
  cases hl : loadParityLoop io
      (d.indexFile.take (d.indexFile.length - (pathExt d.indexFile).length))
      (maxParityVolumeCount d.indexVolume.header.FileCount) 0 0
      (List.replicate (maxParityVolumeCount d.indexVolume.header.FileCount) none) 0 with
  | mk r probed =>
    cases r with
    | error err =>
      dsimp only
      intro h
      cases h
    | ok st =>
      obtain ⟨sbc', pd', maxI'⟩ := st
      obtain ⟨-, g2⟩ := loadParityLoop_maxI io _ _ 0 0 _ 0 sbc' pd' maxI' probed hl
      dsimp only
      rw [if_pos (by rcases g2 with g2 | g2 <;> omega)]
      intro h
      cases h

/-- With `FileCount = 256` the bound is 0: no volume is probed, and the slice
`parityData[:1]` of the empty `parityData` panics. -/
theorem LoadParityData_256 (io : decoderEnv) (d : Decoder)
    (h : d.indexVolume.header.FileCount = 256) : d.LoadParityData io = (none, []) := by
  unfold Decoder.LoadParityData
  rw [h]
  rfl

/-- Claim C21 fails on the code: for an index volume with `FileCount = 256` the
bound `maxParityVolumeCount` is 0, `parityData` is made with length and capacity 0,
the loop is not entered, `maxI` is 0, and the slice `parityData[:maxI+1]` panics. -/
theorem LoadParityData_panics_for_256_files :
    ∃ d, NewDecoder (testDecoderEnv 256 [] none none) (ascii "file.par") = .ok d ∧
      d.indexVolume.header.FileCount = 256 ∧
      maxParityVolumeCount d.indexVolume.header.FileCount = 0 ∧
      d.LoadParityData (testDecoderEnv 256 [] none none) = (none, []) :=
  ⟨_, rfl, rfl, rfl, rfl⟩

/-! ## Command line: the verify command -/

/-- `Decoder.Verify` of `par1/decoder.go` returns `(true, nil)` for a decoder with
every file present and consistent, and `(false, nil)` when a data file is missing:
its first result says that the data is consistent. -/
theorem Verify_consistent :
    (intactDecoder.Verify copyCoder).1 = some (.ok true) ∧
    (missingFileDecoder.Verify copyCoder).1 = some (.ok false) :=
  ⟨rfl, rfl⟩

/-- Claim C22, amended: the exit code of the verify command is
`processVerifyOrRepairError` applied to the two results of the decoder's `Verify`,
the first of which `main` takes for `needsRepair`: with a nil error it is 0, with
"Repair not necessary." printed, exactly when `Verify` returns `false`, and it is 1,
"Repair necessary and possible.", exactly when `Verify` returns `true`. -/
theorem verifyCommandExit_needsRepair (needsRepair : Bool) :
    ((verifyCommandExit needsRepair none).1 = 0 ↔ needsRepair = false) ∧
    ((verifyCommandExit needsRepair none).1 = 1 ↔ needsRepair = true) ∧
    verifyCommandExit false none = (0, "", "Repair not necessary.\n") ∧
    verifyCommandExit true none = (1, "Repair necessary and possible.\n", "") := by
  cases needsRepair <;> exact ⟨by decide, by decide, rfl, rfl⟩

/-- Claim C22, amended, at the two results of `Verify` without an error. -/
theorem verifyCommandExit_needsRepair_witness :
    (verifyCommandExit false none).1 = 0 ∧ (verifyCommandExit true none).1 = 1 :=
  ⟨(verifyCommandExit_needsRepair false).1.2 rfl, (verifyCommandExit_needsRepair true).2.1.2 rfl⟩

/-- Claim C22 as stated fails: when `Verify` returns `(true, nil)`, the exit code of
the verify command is 1 and not 0, and "Repair necessary and possible." is printed;
when `Verify` returns `(false, nil)`, the exit code is 0 and not 1. -/
theorem verifyCommandExit_true_is_not_success :
    verifyCommandExit true none = (1, "Repair necessary and possible.\n", "") ∧
    (verifyCommandExit true none).1 ≠ 0 ∧
    verifyCommandExit false none = (0, "", "Repair not necessary.\n") ∧
    (verifyCommandExit false none).1 ≠ 1 :=
  ⟨rfl, by decide, rfl, by decide⟩

/-! ## Volumes: the layout that readVolume accepts -/

theorem isBytes_drop (bs : Bytes) (n : Nat) (h : isBytes bs) : isBytes (bs.drop n) :=
  fun b hb => h b (List.mem_of_mem_drop hb)

/-- An entry that `readFileEntry` accepts has `EntryBytes` of at least 58, within
the buffer, and the bytes left unread are the buffer without its first `EntryBytes`
bytes. -/
theorem readFileEntry_consumed (buf : Bytes) (e : fileEntry) (rest : Bytes)
    (hb : isBytes buf) (hint : buf.length < 2 ^ 63)
    (h : readFileEntry buf = .ok (e, rest)) :
    58 ≤ e.header.EntryBytes ∧ e.header.EntryBytes ≤ buf.length ∧
      rest = buf.drop e.header.EntryBytes := by
  have hlen : fileEntryHeaderSize ≤ buf.length := by
    by_contra hc
    obtain ⟨err, herr⟩ := readFileEntry_short buf (Nat.lt_of_not_le hc)
    rw [herr] at h
    cases h
  have hEB : getLE (buf.take 8) < 2 ^ 64 := by
    have h := getLE_lt (buf.take 8) (isBytes_take buf 8 hb)
    rw [List.length_take, Nat.min_eq_left (by rw [fileEntryHeaderSize] at hlen; omega)] at h
    exact h
  rw [readFileEntry_cases buf hlen] at h
  rw [fileEntryHeaderSize] at hlen
  by_cases c1 : (getLE (buf.take 8) + 2 ^ 64 - 56) % 2 ^ 64 ≤ 0 ∨
      (getLE (buf.take 8) + 2 ^ 64 - 56) % 2 ^ 64 % 2 ≠ 0
  · rw [if_pos c1] at h
    cases h
  · rw [if_neg c1] at h
    by_cases c2 : (getLE (buf.take 8) + 2 ^ 64 - 56) % 2 ^ 64 > buf.length - 56
    · rw [if_pos c2] at h
      cases h
    · rw [if_neg c2] at h
      have hge : 56 ≤ getLE (buf.take 8) := by
        by_contra hlt
        have : (getLE (buf.take 8) + 2 ^ 64 - 56) % 2 ^ 64 =
            getLE (buf.take 8) + 2 ^ 64 - 56 := Nat.mod_eq_of_lt (by omega)
        rw [this] at c2
        omega
      have hsub : (getLE (buf.take 8) + 2 ^ 64 - 56) % 2 ^ 64 = getLE (buf.take 8) - 56 := by
        have : getLE (buf.take 8) + 2 ^ 64 - 56 = (getLE (buf.take 8) - 56) + 2 ^ 64 := by omega
        rw [this, Nat.add_mod_right]
        exact Nat.mod_eq_of_lt (by omega)
      rw [hsub] at h c1 c2
      injection h with h
      injection h with h1 h2
      subst h1 h2
      dsimp only
      refine ⟨by omega, by omega, ?_⟩
      rw [List.drop_drop]
      exact congrArg (fun k => List.drop k buf) (by omega)

/-- The entries that the loop of `readVolume` reads: their number, their sizes, and
where each of them lies in the buffer. -/
theorem readFileEntries_consumed :
    ∀ (n : Nat) (buf : Bytes) (entries : List fileEntry) (rest : Bytes),
    isBytes buf → buf.length < 2 ^ 63 → readFileEntries n buf = .ok (entries, rest) →
    entries.length = n ∧ (∀ e ∈ entries, 58 ≤ e.header.EntryBytes) ∧
    entryBytesSum entries ≤ buf.length ∧ rest = buf.drop (entryBytesSum entries) ∧
    ∀ (i : Nat) (e : fileEntry), entries[i]? = some e →
      readFileEntry (buf.drop (entryBytesSum (entries.take i))) =
        .ok (e, buf.drop (entryBytesSum (entries.take (i + 1)))) := by
  intro n
  induction n with
  | zero =>
    intro buf entries rest _ _ h
    rw [readFileEntries] at h
    injection h with h
    injection h with h1 h2
    subst h1 h2
    refine ⟨rfl, fun e he => absurd he (List.not_mem_nil e), Nat.zero_le _, rfl, ?_⟩
    intro i e he
    simp at he
  | succ n ih =>
    intro buf entries rest hb hint h
    rw [readFileEntries] at h
    cases h1 : readFileEntry buf with
    | error err =>
      rw [h1] at h
      cases h
    | ok r1 =>
      obtain ⟨e1, buf1⟩ := r1
      rw [h1] at h
      dsimp only at h
      obtain ⟨k1, k2, k3⟩ := readFileEntry_consumed buf e1 buf1 hb hint h1
      cases h2 : readFileEntries n buf1 with
      | error err =>
        rw [h2] at h
        cases h
      | ok r2 =>
        obtain ⟨es, rest2⟩ := r2
        rw [h2] at h
        dsimp only at h
        injection h with h
        injection h with h3 h4
        subst h3 h4
        have hb1 : isBytes buf1 := by rw [k3]; exact isBytes_drop buf _ hb
        have hl1 : buf1.length = buf.length - e1.header.EntryBytes := by
          rw [k3, List.length_drop]
        obtain ⟨g1, g2, g3, g4, g5⟩ := ih buf1 es rest2 hb1 (by omega) h2
        have hsum : entryBytesSum (e1 :: es) = e1.header.EntryBytes + entryBytesSum es := by
          simp [entryBytesSum]
        refine ⟨by rw [List.length_cons, g1], ?_, by rw [hsum]; omega, ?_, ?_⟩
        · intro e he
          rcases List.mem_cons.1 he with rfl | he
          · exact k1
          · exact g2 e he
        · rw [g4, k3, List.drop_drop, hsum]
        · intro i e he
          cases i with
          | zero =>
            have he' : some e1 = some e := by
              rw [List.getElem?_cons_zero] at he
              exact he
            injection he' with he'
            subst he'
            have h0 : entryBytesSum (List.take 0 (e1 :: es)) = 0 := rfl
            have h1' : entryBytesSum (List.take (0 + 1) (e1 :: es)) =
                e1.header.EntryBytes := by
              simp [entryBytesSum]
            rw [h0, h1', List.drop_zero, ← k3]
            exact h1
          | succ i =>
            have he' : es[i]? = some e := by
              rw [List.getElem?_cons_succ] at he
              exact he
            have hs1 : entryBytesSum (List.take (i + 1) (e1 :: es)) =
                e1.header.EntryBytes + entryBytesSum (es.take i) := by
              simp [entryBytesSum]
            have hs2 : entryBytesSum (List.take (i + 1 + 1) (e1 :: es)) =
                e1.header.EntryBytes + entryBytesSum (es.take (i + 1)) := by
              simp [entryBytesSum]
            rw [hs1, hs2, ← List.drop_drop, ← List.drop_drop, ← k3]
            exact g5 i e he'

theorem readHeader_consumed (b : Bytes) (h : header) (rest : Bytes)
    (hh : readHeader b = .ok (h, rest)) : 96 ≤ b.length ∧ rest = b.drop 96 := by
  unfold readHeader at hh
  dsimp only at hh
  rw [headerSize] at hh
  split_ifs at hh with h1 h2 h3 h4
  injection hh with hh
  injection hh with _ hh
  exact ⟨by omega, hh.symm⟩

theorem entryBytesSum_ge (entries : List fileEntry)
    (h : ∀ e ∈ entries, 58 ≤ e.header.EntryBytes) :
    58 * entries.length ≤ entryBytesSum entries := by
  induction entries with
  | nil => exact Nat.le_refl _
  | cons e es ih =>
    have h1 := h e (List.mem_cons_self _ _)
    have h2 := ih (fun x hx => h x (List.mem_cons_of_mem _ hx))
    have hsum : entryBytesSum (e :: es) = e.header.EntryBytes + entryBytesSum es := by
      simp [entryBytesSum]
    rw [hsum, List.length_cons]
    omega

/-- Claim C24: for every byte sequence `b` (of at most `2 ^ 63 - 1` bytes) on which
`readVolume` succeeds with the volume `v`, the number of entries is
`header.FileCount`, every entry has `EntryBytes ≥ 58`, the entry of index `i` is
read at the offset 96 plus the `EntryBytes` of the entries before it and ends
`EntryBytes` bytes further, the payload `v.data` is the suffix of `b` after the last
entry, `len(b) = 96 + (sum of all EntryBytes) + len(v.data)`, and `FileCount` is at
most `(len(b) - 96) / 58`. -/
theorem readVolume_layout (md5 : HashFn) (b : Bytes) (v : volume) (hb : isBytes b)
    (hint : b.length < 2 ^ 63) (h : readVolume md5 b = .ok v) :
    v.entries.length = v.header.FileCount ∧
    (∀ e ∈ v.entries, 58 ≤ e.header.EntryBytes) ∧
    (∀ (i : Nat) (e : fileEntry), v.entries[i]? = some e →
      readFileEntry (b.drop (96 + entryBytesSum (v.entries.take i))) =
        .ok (e, b.drop (96 + entryBytesSum (v.entries.take i) + e.header.EntryBytes))) ∧
    v.data = b.drop (96 + entryBytesSum v.entries) ∧
    b.length = 96 + entryBytesSum v.entries + v.data.length ∧
    v.header.FileCount ≤ (b.length - 96) / 58 := by
  unfold readVolume at h
  cases hh : readHeader b with
  | error err =>
    rw [hh] at h
    cases h
  | ok r =>
    obtain ⟨hd, buf⟩ := r
    rw [hh] at h
    dsimp only at h
    obtain ⟨hlen, hbuf⟩ := readHeader_consumed b hd buf hh
    by_cases hc : md5.sum (b.drop controlHashOffset) ≠ hd.ControlHash
    · rw [if_pos hc] at h
      cases h
    · rw [if_neg hc] at h
      cases hr : readFileEntries hd.FileCount buf with
      | error err =>
        rw [hr] at h
        cases h
      | ok r2 =>
        obtain ⟨entries, rest⟩ := r2
        rw [hr] at h
        dsimp only at h
        injection h with h
        subst h
        dsimp only
        have hbb : isBytes buf := by rw [hbuf]; exact isBytes_drop b 96 hb
        have hbl : buf.length = b.length - 96 := by rw [hbuf, List.length_drop]
        obtain ⟨g1, g2, g3, g4, g5⟩ := readFileEntries_consumed hd.FileCount buf entries rest
          hbb (by omega) hr
        have g6 := entryBytesSum_ge entries g2
        have hdata : rest = b.drop (96 + entryBytesSum entries) := by
          rw [g4, hbuf, List.drop_drop]
        refine ⟨g1, g2, ?_, hdata, ?_, ?_⟩
        · intro i e he
          have h5 := g5 i e he
          have htake : entryBytesSum (entries.take (i + 1)) =
              entryBytesSum (entries.take i) + e.header.EntryBytes := by
            have hi : i < entries.length := by
              rcases Nat.lt_or_ge i entries.length with hi | hi
              · exact hi
              · rw [List.getElem?_eq_none hi] at he
                cases he
            have hget : entries[i] = e := by
              rw [List.getElem?_eq_getElem hi] at he
              injection he
            rw [List.take_succ, List.getElem?_eq_getElem hi, hget]
            simp [entryBytesSum]
          rw [htake, hbuf, List.drop_drop, List.drop_drop] at h5
          rw [Nat.add_assoc]
          exact h5
        · rw [hdata, List.length_drop]
          omega
        · rw [← g1, Nat.le_div_iff_mul_le (by decide)]
          omega

set_option maxRecDepth 100000 in
/-- Claim C24 at the bytes of a written volume with two entries and a payload of
four bytes. -/
theorem readVolume_layout_witness :
    ∃ v, readVolume sumHash goodVolumeBytes = .ok v ∧ v.entries.length = 2 ∧
      v.entries.length = v.header.FileCount ∧
      goodVolumeBytes.length = 96 + entryBytesSum v.entries + v.data.length ∧
      v.header.FileCount ≤ (goodVolumeBytes.length - 96) / 58 := by
  have hw : writeVolume sumHash goodVolume = .ok goodVolumeBytes := rfl
  obtain ⟨b, hb1, hb2⟩ := readVolume_writeVolume sumHash goodVolume (by decide) rfl rfl rfl
    (by decide) (by decide)
  rw [hw] at hb1
  injection hb1 with hb1
  subst hb1
  have h := readVolume_layout sumHash goodVolumeBytes _ (by decide) (by decide) hb2
  exact ⟨_, hb2, rfl, h.1, h.2.2.2.2.1, h.2.2.2.2.2⟩

/-! ## File entries: decoding UTF-16LE -/

theorem u16sOfBytes_cons (b0 b1 : Nat) (rest : Bytes) (h0 : b0 < 256) (h1 : b1 < 256) :
    u16sOfBytes (b0 :: b1 :: rest) = (b0 + 256 * b1) :: u16sOfBytes rest := by
  rw [u16sOfBytes, Nat.shiftLeft_eq]
  congr 1
  omega

theorem utf16Decode_unpaired (r : Nat) (rest : List Nat) (h1 : 0xd800 ≤ r) (h2 : r < 0xe000)
    (h : ¬ (r < 0xdc00 ∧ ∃ lo, rest.head? = some lo ∧ 0xdc00 ≤ lo ∧ lo < 0xe000)) :
    utf16Decode (r :: rest) = 0xFFFD :: utf16Decode rest := by
  rw [utf16Decode.eq_def]
  simp only [surr1, surr2, surr3, surrSelf, runeError]
  rw [if_neg (by omega)]
  cases rest with
  | nil =>
    dsimp only
    rw [utf16Decode]
  | cons r2 rest2 =>
    dsimp only
    rw [if_neg]
    intro hc
    exact h ⟨hc.2.1, r2, rfl, hc.2.2.1, hc.2.2.2⟩

theorem decodeUTF16LEString_cons (u : Nat) (us : List Nat) :
    ((u :: us).map utf8EncodeRune).flatten = utf8EncodeRune u ++ (us.map utf8EncodeRune).flatten := by
  rw [List.map_cons, List.flatten_cons]

theorem utf8EncodeRune_pair_length (hi lo : Nat) (h1 : 0xd800 ≤ hi) (h2 : hi < 0xdc00)
    (h3 : 0xdc00 ≤ lo) (h4 : lo < 0xe000) :
    (utf8EncodeRune (0x10000 + ((hi - 0xD800) <<< 10) + (lo - 0xDC00))).length = 4 := by
  rw [Nat.shiftLeft_eq]
  unfold utf8EncodeRune
  simp only [maxRune]
  rw [if_neg (by omega), if_neg (by omega), if_neg (by omega), if_neg (by omega)]
  rfl

/-- Claim C25: `decodeUTF16LEString` is a total function of the byte sequence, and
it is determined by these equations. The empty sequence and a single trailing byte
give the empty string. Two bytes `b0 b1` are the unit `u = b0 + 256·b1`, low byte
first. A unit that is not a surrogate is written as the UTF-8 of that code point. A
high surrogate followed by the low surrogate `lo` is written as the UTF-8 of
`0x10000 + ((u − 0xD800) << 10) + (lo − 0xDC00)`, which is 4 bytes, and both units
are consumed. Any other surrogate is written as U+FFFD, `EF BF BD`, and the
decoding goes on with the next unit. -/
theorem decodeUTF16LEString_surrogates (b0 b1 : Nat) (rest : Bytes) (h0 : b0 < 256)
    (h1 : b1 < 256) :
    decodeUTF16LEString [] = [] ∧ decodeUTF16LEString [b0] = [] ∧
    (b0 + 256 * b1 < 0xD800 ∨ 0xE000 ≤ b0 + 256 * b1 →
      decodeUTF16LEString (b0 :: b1 :: rest) =
        utf8EncodeRune (b0 + 256 * b1) ++ decodeUTF16LEString rest) ∧
    (∀ (b2 b3 : Nat) (rest' : Bytes), rest = b2 :: b3 :: rest' → b2 < 256 → b3 < 256 →
      0xD800 ≤ b0 + 256 * b1 → b0 + 256 * b1 < 0xDC00 →
      0xDC00 ≤ b2 + 256 * b3 → b2 + 256 * b3 < 0xE000 →
      decodeUTF16LEString (b0 :: b1 :: rest) =
        utf8EncodeRune (0x10000 + ((b0 + 256 * b1 - 0xD800) <<< 10) +
          (b2 + 256 * b3 - 0xDC00)) ++ decodeUTF16LEString rest' ∧
      (utf8EncodeRune (0x10000 + ((b0 + 256 * b1 - 0xD800) <<< 10) +
          (b2 + 256 * b3 - 0xDC00))).length = 4) ∧
    (0xD800 ≤ b0 + 256 * b1 → b0 + 256 * b1 < 0xE000 →
      ¬ (b0 + 256 * b1 < 0xDC00 ∧
        ∃ lo, (u16sOfBytes rest).head? = some lo ∧ 0xDC00 ≤ lo ∧ lo < 0xE000) →
      decodeUTF16LEString (b0 :: b1 :: rest) =
        [0xEF, 0xBF, 0xBD] ++ decodeUTF16LEString rest) := by
  refine ⟨rfl, rfl, ?_, ?_, ?_⟩
  · intro h
    unfold decodeUTF16LEString
    rw [u16sOfBytes_cons b0 b1 rest h0 h1, utf16Decode_single _ _ h, decodeUTF16LEString_cons]
  · intro b2 b3 rest' hrest h2 h3 k1 k2 k3 k4
    refine ⟨?_, utf8EncodeRune_pair_length _ _ k1 k2 k3 k4⟩
    subst hrest
    unfold decodeUTF16LEString
    have heq : (b0 + 256 * b1 - 0xd800) * 1024 + (b2 + 256 * b3 - 0xdc00) + 0x10000 =
        0x10000 + (b0 + 256 * b1 - 0xD800) * 2 ^ 10 + (b2 + 256 * b3 - 0xDC00) := by omega
    rw [u16sOfBytes_cons b0 b1 _ h0 h1, u16sOfBytes_cons b2 b3 _ h2 h3,
      utf16Decode_pair _ _ _ k1 k2 k3 k4, decodeUTF16LEString_cons, Nat.shiftLeft_eq, heq]
  · intro k1 k2 hun
    unfold decodeUTF16LEString
    rw [u16sOfBytes_cons b0 b1 rest h0 h1, utf16Decode_unpaired _ _ k1 k2 hun,
      decodeUTF16LEString_cons]
    rfl

/-- Claim C25 at the unit `D83D` followed by `DE00` (U+1F600, `F0 9F 98 80`), at
the letter `a`, and at the unpaired low surrogate `DE00`. -/
theorem decodeUTF16LEString_surrogates_witness :
    decodeUTF16LEString [0x3D, 0xD8, 0x00, 0xDE, 0x61, 0x00] =
      [0xF0, 0x9F, 0x98, 0x80] ++ decodeUTF16LEString [0x61, 0x00] ∧
    decodeUTF16LEString [0x61, 0x00, 0x7A] = [0x61] ++ decodeUTF16LEString [0x7A] ∧
    decodeUTF16LEString [0x00, 0xDE, 0x61, 0x00] =
      [0xEF, 0xBF, 0xBD] ++ decodeUTF16LEString [0x61, 0x00] :=
  ⟨((decodeUTF16LEString_surrogates 0x3D 0xD8 [0x00, 0xDE, 0x61, 0x00] (by decide)
      (by decide)).2.2.2.1 0x00 0xDE [0x61, 0x00] rfl (by decide) (by decide) (by decide)
      (by decide) (by decide) (by decide)).1,
    (decodeUTF16LEString_surrogates 0x61 0x00 [0x7A] (by decide) (by decide)).2.2.1
      (by decide),
    (decodeUTF16LEString_surrogates 0x00 0xDE [0x61, 0x00] (by decide) (by decide)).2.2.2.2
      (by decide) (by decide) (by decide)⟩

/-! ## Reed–Solomon coder: singular systems -/

theorem findPivot_none (col : Nat) (rest : List Row) (h : findPivot col rest = none) :
    ∀ row ∈ rest, row.1.getD col 0 = 0 := by
  induction rest with
  | nil => intro row hrow; cases hrow
  | cons r rs ih =>
    rw [findPivot] at h
    by_cases hc : r.1.getD col 0 ≠ 0
    · rw [if_pos hc] at h
      cases h
    · rw [if_neg hc] at h
      cases hf : findPivot col rs with
      | none =>
        intro row hrow
        rcases List.mem_cons.1 hrow with rfl | hrow
        · exact not_not.1 hc
        · exact ih hf row hrow
      | some q =>
        rw [hf] at h
        cases h

theorem findPivot_mem (col : Nat) (rest : List Row) (p : Row) (others : List Row)
    (h : findPivot col rest = some (p, others)) : ∀ row ∈ rest, row = p ∨ row ∈ others := by
  induction rest generalizing p others with
  | nil => simp [findPivot] at h
  | cons r rs ih =>
    rw [findPivot] at h
    by_cases hc : r.1.getD col 0 ≠ 0
    · rw [if_pos hc] at h
      injection h with h
      injection h with h1 h2
      subst h1 h2
      intro row hrow
      rcases List.mem_cons.1 hrow with h | h
      · exact Or.inl h
      · exact Or.inr h
    · rw [if_neg hc] at h
      cases hf : findPivot col rs with
      | none => rw [hf] at h; cases h
      | some q =>
        obtain ⟨q1, q2⟩ := q
        rw [hf] at h
        dsimp only at h
        injection h with h
        injection h with h1 h2
        subst h1 h2
        intro row hrow
        rcases List.mem_cons.1 hrow with h | h
        · exact Or.inr (by rw [h]; exact List.mem_cons_self _ _)
        · rcases ih q1 q2 hf row h with h' | h'
          · exact Or.inl h'
          · exact Or.inr (List.mem_cons_of_mem _ h')

/-- One step of the elimination keeps the invariant. -/
theorem ElimInv_step (m n : Nat) (d : List Shard) (hd : ∀ s ∈ d, isU16s s) (col : Nat)
    (done rest : List Row) (p : Row) (others : List Row)
    (hinv : ElimInv m n d col done rest) (hfp : findPivot col rest = some (p, others)) :
    ElimInv m n d (col + 1)
      (done.map (fun row => rowAddMul (row.1.getD col 0)
          (rowScale (gfPow (p.1.getD col 0) 65534) p) row) ++
        [rowScale (gfPow (p.1.getD col 0) 65534) p])
      (others.map (fun row => rowAddMul (row.1.getD col 0)
        (rowScale (gfPow (p.1.getD col 0) 65534) p) row)) := by
  obtain ⟨hlen, hm, hrd, hrr, hdone, hrest⟩ := hinv
  obtain ⟨hp_mem, hp_ne, hsub, hcount⟩ := findPivot_spec col _ p others hfp
  have hpok := hrr p hp_mem
  have hpc : p.1.getD col 0 < 65536 := getD_lt p.1 hpok.2.2.1 col
  have hk : gfPow (p.1.getD col 0) 65534 < 65536 := gfPow_lt _ _ hpc
  have hone : gfMul (gfPow (p.1.getD col 0) 65534) (p.1.getD col 0) = 1 :=
    gfMul_gfPow_inv _ hpc hp_ne
  have hpiv : RowOK m n d (rowScale (gfPow (p.1.getD col 0) 65534) p) :=
    RowOK_scale m n d hd _ hk p hpok
  have hpiv_lt : ∀ j, j < col →
      (rowScale (gfPow (p.1.getD col 0) 65534) p).1.getD j 0 = 0 := by
    intro j hj
    rw [rowScale_coeff, hrest p hp_mem j hj, gfMul_zero_right]
  have hpiv_col : (rowScale (gfPow (p.1.getD col 0) 65534) p).1.getD col 0 = 1 := by
    rw [rowScale_coeff, hone]
  have hclear_ok : ∀ row, RowOK m n d row →
      RowOK m n d (rowAddMul (row.1.getD col 0)
        (rowScale (gfPow (p.1.getD col 0) 65534) p) row) :=
    fun row hr => RowOK_addMul m n d hd _ (getD_lt row.1 hr.2.2.1 col) _ row hpiv hr
  have hclear_lt : ∀ row, RowOK m n d row → ∀ j, j < col →
      (rowAddMul (row.1.getD col 0)
        (rowScale (gfPow (p.1.getD col 0) 65534) p) row).1.getD j 0 =
        row.1.getD j 0 := by
    intro row hr j hj
    rw [rowAddMul_coeff _ _ _ (by rw [hpiv.1, hr.1]), hpiv_lt j hj, gfMul_zero_right,
      Nat.xor_zero]
  have hclear_col : ∀ row, RowOK m n d row →
      (rowAddMul (row.1.getD col 0)
        (rowScale (gfPow (p.1.getD col 0) 65534) p) row).1.getD col 0 = 0 := by
    intro row hr
    rw [rowAddMul_coeff _ _ _ (by rw [hpiv.1, hr.1]), hpiv_col, gfMul_one_right,
      Nat.xor_self]
  refine ⟨?_, ?_, ?_, ?_, ?_, ?_⟩
  · rw [List.length_append, List.length_map, List.length_singleton, hlen]
  · rw [List.length_map]
    omega
  · intro row hrow
    rcases List.mem_append.1 hrow with h | h
    · obtain ⟨r0, hr0, rfl⟩ := List.mem_map.1 h
      exact hclear_ok r0 (hrd r0 hr0)
    · rw [List.mem_singleton] at h
      rw [h]
      exact hpiv
  · intro row hrow
    obtain ⟨r0, hr0, rfl⟩ := List.mem_map.1 hrow
    exact hclear_ok r0 (hrr r0 (hsub r0 hr0))
  · intro i row hi j hj
    by_cases hic : i < done.length
    · rw [List.getElem?_append_left (by rw [List.length_map]; exact hic),
        List.getElem?_map, List.getElem?_eq_getElem hic] at hi
      injection hi with hi
      subst hi
      have hr0 := hrd _ (List.getElem_mem hic)
      by_cases hjc : j < col
      · rw [hclear_lt _ hr0 j hjc]
        exact hdone i _ (List.getElem?_eq_getElem hic) j hjc
      · have : j = col := by omega
        subst this
        rw [hclear_col _ hr0, if_neg (by omega)]
    · rw [List.getElem?_append_right (by rw [List.length_map]; omega),
        List.length_map] at hi
      have hi0 : i - done.length = 0 := by
        by_contra hne
        rw [List.getElem?_eq_none (by simp; omega)] at hi
        cases hi
      rw [hi0] at hi
      have hrow : some (rowScale (gfPow (p.1.getD col 0) 65534) p) = some row := hi
      injection hrow with hrow
      subst hrow
      have hieq : i = col := by omega
      by_cases hjc : j < col
      · rw [hpiv_lt j hjc, if_neg (by omega)]
      · have : j = col := by omega
        subst this
        rw [hpiv_col, if_pos hieq.symm]
  · intro row hrow j hj
    obtain ⟨r0, hr0, rfl⟩ := List.mem_map.1 hrow
    have hr0ok := hrr r0 (hsub r0 hr0)
    by_cases hjc : j < col
    · rw [hclear_lt _ hr0ok j hjc]
      exact hrest r0 (hsub r0 hr0) j hjc
    · have : j = col := by omega
      subst this
      exact hclear_col _ hr0ok

theorem dot_append (a c : List Nat) (b e : List Nat) (h : a.length = c.length) :
    dot (a ++ b) (c ++ e) = dot a c ^^^ dot b e := by
  induction a generalizing c with
  | nil =>
    have : c = [] := List.length_eq_zero.1 h.symm
    subst this
    simp [dot]
  | cons a0 as ih =>
    cases c with
    | nil => simp at h
    | cons c0 cs =>
      rw [List.cons_append, List.cons_append, dot, dot, ih cs (by simpa using h)]
      ac_rfl

theorem dot_replicate_zero (cs : List Nat) (k : Nat) : dot cs (List.replicate k 0) = 0 := by
  induction cs generalizing k with
  | nil => simp [dot]
  | cons c cs ih =>
    cases k with
    | zero => simp [dot]
    | succ k =>
      rw [List.replicate_succ, dot, ih k, gfMul_zero_right]
      rfl

theorem dot_zero_left (cs xs : List Nat) (h : ∀ c ∈ cs, c = 0) : dot cs xs = 0 := by
  induction cs generalizing xs with
  | nil => simp [dot]
  | cons c cs ih =>
    cases xs with
    | nil => simp [dot]
    | cons x xs =>
      rw [dot, h c (List.mem_cons_self _ _), gfMul_zero_left,
        ih xs (fun y hy => h y (List.mem_cons_of_mem _ hy))]
      rfl

theorem split_at_col (l : List Nat) (col : Nat) (h : col < l.length) :
    l = l.take col ++ l.getD col 0 :: l.drop (col + 1) := by
  rw [List.getD_eq_getElem l 0 h, ← List.drop_eq_getElem_cons h, List.take_append_drop]

theorem getD_take (l : List Nat) (col j : Nat) (h : j < col) :
    (l.take col).getD j 0 = l.getD j 0 := by
  rw [List.getD_eq_getElem?_getD, List.getD_eq_getElem?_getD, List.getElem?_take, if_pos h]

/-- The value of a row at the vector made of a head, then 1 at the column `col`, then
zeros. -/
theorem dot_at_col (row xhead : List Nat) (col k : Nat) (hl : col < row.length)
    (hx : xhead.length = col) :
    dot row (xhead ++ 1 :: List.replicate k 0) =
      dot (row.take col) xhead ^^^ row.getD col 0 := by
  have hsplit := split_at_col row col hl
  have htl : (row.take col).length = xhead.length := by
    rw [List.length_take, hx]
    omega
  calc dot row (xhead ++ 1 :: List.replicate k 0)
      = dot (row.take col ++ row.getD col 0 :: row.drop (col + 1))
          (xhead ++ 1 :: List.replicate k 0) := by rw [← hsplit]
    _ = dot (row.take col) xhead ^^^
          (gfMul (row.getD col 0) 1 ^^^ dot (row.drop (col + 1)) (List.replicate k 0)) := by
        rw [dot_append _ _ _ _ htl, dot]
    _ = dot (row.take col) xhead ^^^ row.getD col 0 := by
        rw [dot_replicate_zero, gfMul_one_right, Nat.xor_zero]

/-- When no row of `rest` has a coefficient in the column `col`, the rows annihilate
a vector with 1 at `col`: the system is singular. -/
theorem kernel_of_no_pivot (m n : Nat) (d : List Shard) (col : Nat) (done rest : List Row)
    (hinv : ElimInv m n d col done rest) (hne : rest ≠ [])
    (hnp : ∀ row ∈ rest, row.1.getD col 0 = 0) :
    Singular m ((done ++ rest).map Prod.fst) := by
  obtain ⟨hlen, hm, hrd, hrr, hdone, hrest⟩ := hinv
  have hpos : 0 < rest.length := List.length_pos.2 hne
  have hxl : (done.map (fun r => r.1.getD col 0)).length = col := by
    rw [List.length_map, hlen]
  refine ⟨done.map (fun r => r.1.getD col 0) ++ 1 :: List.replicate (m - col - 1) 0,
    ⟨?_, ?_, ?_⟩, 1, by simp, by decide⟩
  · rw [List.length_append, hxl, List.length_cons, List.length_replicate]
    omega
  · intro v hv
    rcases List.mem_append.1 hv with h | h
    · obtain ⟨r, hr, rfl⟩ := List.mem_map.1 h
      exact getD_lt r.1 (hrd r hr).2.2.1 col
    · rcases List.mem_cons.1 h with h | h
      · rw [h]; decide
      · rw [List.eq_of_mem_replicate h]; decide
  · intro cs hcs
    obtain ⟨row, hrow, rfl⟩ := List.mem_map.1 hcs
    rcases List.mem_append.1 hrow with h | h
    · have hok := hrd row h
      obtain ⟨i, hi, hget⟩ := List.mem_iff_getElem.1 h
      have hsome : done[i]? = some row := by rw [List.getElem?_eq_getElem hi, hget]
      rw [dot_at_col row.1 _ col _ (by rw [hok.1]; omega) hxl]
      have hunit := dot_unit (row.1.take col) (done.map (fun r => r.1.getD col 0)) i
        (by rw [List.length_take, hxl, hok.1]; omega)
        (by
          intro j hj
          rw [List.length_take] at hj
          have hjc : j < col := by omega
          rw [getD_take _ _ _ hjc]
          exact hdone i row hsome j hjc)
        (by
          intro v hv
          obtain ⟨r, hr, rfl⟩ := List.mem_map.1 hv
          exact getD_lt r.1 (hrd r hr).2.2.1 col)
      rw [hunit, List.getD_eq_getElem _ _ (by rw [List.length_map]; exact hi),
        List.getElem_map, hget, Nat.xor_self]
    · have hok := hrr row h
      rw [dot_at_col row.1 _ col _ (by rw [hok.1]; omega) hxl, hnp row h,
        dot_zero_left _ _ (by
          intro c hc
          obtain ⟨j, hj, hget⟩ := List.mem_iff_getElem.1 hc
          rw [List.length_take] at hj
          have hjc : j < col := by omega
          have := hrest row h j hjc
          rw [← getD_take row.1 col j hjc, List.getD_eq_getElem _ _ (by
            rw [List.length_take]; omega), hget] at this
          exact this)]
      rfl

/-- A step of the elimination does not change the vectors that the rows
annihilate. -/
theorem kernel_step (m n : Nat) (d : List Shard) (col : Nat)
    (done rest : List Row) (p : Row) (others : List Row)
    (hinv : ElimInv m n d col done rest) (hfp : findPivot col rest = some (p, others))
    (x : List Nat) (hxu : isU16s x) :
    (∀ row ∈ done.map (fun row => rowAddMul (row.1.getD col 0)
          (rowScale (gfPow (p.1.getD col 0) 65534) p) row) ++
        [rowScale (gfPow (p.1.getD col 0) 65534) p] ++
        others.map (fun row => rowAddMul (row.1.getD col 0)
          (rowScale (gfPow (p.1.getD col 0) 65534) p) row), dot row.1 x = 0) ↔
    (∀ row ∈ done ++ rest, dot row.1 x = 0) := by
  obtain ⟨hlen, hm, hrd, hrr, hdone, hrest⟩ := hinv
  obtain ⟨hp_mem, hp_ne, hsub, hcount⟩ := findPivot_spec col _ p others hfp
  have hpok := hrr p hp_mem
  have hpc : p.1.getD col 0 < 65536 := getD_lt p.1 hpok.2.2.1 col
  have hk : gfPow (p.1.getD col 0) 65534 < 65536 := gfPow_lt _ _ hpc
  have hone : gfMul (gfPow (p.1.getD col 0) 65534) (p.1.getD col 0) = 1 :=
    gfMul_gfPow_inv _ hpc hp_ne
  have hpivdot : dot (rowScale (gfPow (p.1.getD col 0) 65534) p).1 x =
      gfMul (gfPow (p.1.getD col 0) 65534) (dot p.1 x) :=
    dot_scale _ p.1 x hk hpok.2.2.1 hxu
  have hpivu : isU16s (rowScale (gfPow (p.1.getD col 0) 65534) p).1 := by
    intro v hv
    obtain ⟨y, -, rfl⟩ := List.mem_map.1 hv
    exact gfMul_lt _ y hk
  have hpivl : (rowScale (gfPow (p.1.getD col 0) 65534) p).1.length = m := by
    show (p.1.map _).length = m
    rw [List.length_map, hpok.1]
  have hcleardot : ∀ row, RowOK m n d row →
      dot (rowAddMul (row.1.getD col 0)
        (rowScale (gfPow (p.1.getD col 0) 65534) p) row).1 x =
      dot row.1 x ^^^ gfMul (row.1.getD col 0)
        (dot (rowScale (gfPow (p.1.getD col 0) 65534) p).1 x) :=
    fun row hr => dot_addMul _ _ row.1 x (getD_lt row.1 hr.2.2.1 col) hpivu hr.2.2.1 hxu
      (by rw [hpivl, hr.1])
  constructor
  · intro h
    have hpiv0 : dot (rowScale (gfPow (p.1.getD col 0) 65534) p).1 x = 0 :=
      h _ (List.mem_append_left _ (List.mem_append_right _ (List.mem_singleton.2 rfl)))
    have hp0 : dot p.1 x = 0 := by
      have hD : dot p.1 x < 65536 := dot_lt p.1 x hpok.2.2.1
      have h1 : gfMul (p.1.getD col 0) (gfMul (gfPow (p.1.getD col 0) 65534) (dot p.1 x)) =
          dot p.1 x := by
        rw [← gfMul_assoc _ _ _ hpc hk hD, gfMul_comm _ _ hpc hk, hone, gfMul_one_left _ hD]
      rw [← h1, ← hpivdot, hpiv0, gfMul_zero_right]
    have hback : ∀ row, RowOK m n d row →
        dot (rowAddMul (row.1.getD col 0)
          (rowScale (gfPow (p.1.getD col 0) 65534) p) row).1 x = 0 → dot row.1 x = 0 := by
      intro row hr h0
      rw [hcleardot row hr, hpiv0, gfMul_zero_right, Nat.xor_zero] at h0
      exact h0
    intro row hrow
    rcases List.mem_append.1 hrow with hr | hr
    · exact hback row (hrd row hr) (h _ (List.mem_append_left _ (List.mem_append_left _
        (List.mem_map.2 ⟨row, hr, rfl⟩))))
    · rcases findPivot_mem col rest p others hfp row hr with hp | ho
      · rw [hp]
        exact hp0
      · exact hback row (hrr row hr) (h _ (List.mem_append_right _
          (List.mem_map.2 ⟨row, ho, rfl⟩)))
  · intro h
    have hp0 : dot p.1 x = 0 := h p (List.mem_append_right _ hp_mem)
    have hpiv0 : dot (rowScale (gfPow (p.1.getD col 0) 65534) p).1 x = 0 := by
      rw [hpivdot, hp0, gfMul_zero_right]
    have hfwd : ∀ row, RowOK m n d row → dot row.1 x = 0 →
        dot (rowAddMul (row.1.getD col 0)
          (rowScale (gfPow (p.1.getD col 0) 65534) p) row).1 x = 0 := by
      intro row hr h0
      rw [hcleardot row hr, hpiv0, gfMul_zero_right, h0]
      rfl
    intro row hrow
    rcases List.mem_append.1 hrow with hr | hr
    · rcases List.mem_append.1 hr with hr | hr
      · obtain ⟨r0, hr0, rfl⟩ := List.mem_map.1 hr
        exact hfwd r0 (hrd r0 hr0) (h r0 (List.mem_append_left _ hr0))
      · rw [List.mem_singleton.1 hr]
        exact hpiv0
    · obtain ⟨r0, hr0, rfl⟩ := List.mem_map.1 hr
      exact hfwd r0 (hrr r0 (hsub r0 hr0)) (h r0 (List.mem_append_right _ (hsub r0 hr0)))

theorem singular_iff (m : Nat) (rows : List Row) :
    Singular m (rows.map Prod.fst) ↔
      ∃ x, x.length = m ∧ isU16s x ∧ (∀ row ∈ rows, dot row.1 x = 0) ∧ ∃ v ∈ x, v ≠ 0 := by
  constructor
  · intro h
    obtain ⟨x, ⟨h1, h2, h3⟩, h4⟩ := h
    exact ⟨x, h1, h2, fun row hrow => h3 row.1 (List.mem_map.2 ⟨row, hrow, rfl⟩), h4⟩
  · intro h
    obtain ⟨x, h1, h2, h3, h4⟩ := h
    refine ⟨x, ⟨h1, h2, ?_⟩, h4⟩
    intro cs hcs
    obtain ⟨row, hrow, rfl⟩ := List.mem_map.1 hcs
    exact h3 row hrow

/-- A reduced system, with the unit vectors for rows, is not singular. -/
theorem not_singular_done (m n : Nat) (d : List Shard) (done : List Row)
    (hinv : ElimInv m n d m done []) : ¬ Singular m ((done ++ []).map Prod.fst) := by
  obtain ⟨hlen, -, hrd, -, hdone, -⟩ := hinv
  rw [List.append_nil, singular_iff]
  intro h
  obtain ⟨x, hx1, hx2, hx3, v, hv, hv0⟩ := h
  obtain ⟨i, hi, hget⟩ := List.mem_iff_getElem.1 hv
  have hid : i < done.length := by omega
  have hrow := hrd _ (List.getElem_mem hid)
  have hunit := dot_unit done[i].1 x i (by rw [hrow.1, hx1])
    (fun j hj => hdone i done[i] (List.getElem?_eq_getElem hid) j (by rw [hrow.1] at hj; exact hj))
    hx2
  rw [hx3 _ (List.getElem_mem hid), List.getD_eq_getElem _ _ hi, hget] at hunit
  exact hv0 hunit.symm

/-- The elimination fails exactly on the singular systems. -/
theorem gaussJordan_singular (m n : Nat) (d : List Shard) (hd : ∀ s ∈ d, isU16s s) :
    ∀ (fuel col : Nat) (done rest : List Row), rest.length ≤ fuel →
    ElimInv m n d col done rest →
    (gaussJordan fuel col done rest = .error "zero divisor" →
      Singular m ((done ++ rest).map Prod.fst)) ∧
    (∀ out, gaussJordan fuel col done rest = .ok out →
      ¬ Singular m ((done ++ rest).map Prod.fst)) := by
  intro fuel
  induction fuel with
  | zero =>
    intro col done rest hf hinv
    have hnil : rest = [] := List.length_eq_zero.1 (by omega)
    subst hnil
    have hcol : col = m := by
      have := hinv.2.1
      rw [List.length_nil, Nat.add_zero] at this
      exact this
    subst hcol
    rw [gaussJordan]
    exact ⟨fun h => (by cases h), fun _ _ => not_singular_done _ n d done hinv⟩
  | succ fuel ih =>
    intro col done rest hf hinv
    cases rest with
    | nil =>
      have hcol : col = m := by
        have := hinv.2.1
        rw [List.length_nil, Nat.add_zero] at this
        exact this
      subst hcol
      rw [gaussJordan]
      exact ⟨fun h => (by cases h), fun _ _ => not_singular_done _ n d done hinv⟩
    | cons r rs =>
      rw [gaussJordan]
      cases hfp : findPivot col (r :: rs) with
      | none =>
        dsimp only
        refine ⟨fun _ => ?_, fun out h => by cases h⟩
        exact kernel_of_no_pivot m n d col done (r :: rs) hinv (List.cons_ne_nil _ _)
          (findPivot_none col _ hfp)
      | some q =>
        obtain ⟨p, others⟩ := q
        dsimp only
        obtain ⟨hp_mem, hp_ne, hsub, hcount⟩ := findPivot_spec col _ p others hfp
        have hinvp : gfInv (p.1.getD col 0) = some (gfPow (p.1.getD col 0) 65534) := by
          unfold gfInv
          rw [if_neg hp_ne]
        rw [hinvp]
        dsimp only
        have hstep := ElimInv_step m n d hd col done (r :: rs) p others hinv hfp
        have hlen' : (others.map (fun row => rowAddMul (row.1.getD col 0)
            (rowScale (gfPow (p.1.getD col 0) 65534) p) row)).length ≤ fuel := by
          rw [List.length_map]
          rw [List.length_cons] at hf hcount
          omega
        obtain ⟨g1, g2⟩ := ih (col + 1) _ _ hlen' hstep
        have hiff : Singular m ((done.map (fun row => rowAddMul (row.1.getD col 0)
              (rowScale (gfPow (p.1.getD col 0) 65534) p) row) ++
            [rowScale (gfPow (p.1.getD col 0) 65534) p] ++
            others.map (fun row => rowAddMul (row.1.getD col 0)
              (rowScale (gfPow (p.1.getD col 0) 65534) p) row)).map Prod.fst) ↔
            Singular m ((done ++ r :: rs).map Prod.fst) := by
          rw [singular_iff, singular_iff]
          constructor
          · intro h
            obtain ⟨x, h1, h2, h3, h4⟩ := h
            exact ⟨x, h1, h2,
              (kernel_step m n d col done (r :: rs) p others hinv hfp x h2).1 h3, h4⟩
          · intro h
            obtain ⟨x, h1, h2, h3, h4⟩ := h
            exact ⟨x, h1, h2,
              (kernel_step m n d col done (r :: rs) p others hinv hfp x h2).2 h3, h4⟩
        exact ⟨fun h => hiff.1 (g1 h), fun out h hs => g2 out h (hiff.2 hs)⟩

theorem selectedRows_fst (c : Coder) (data parity : List (Option Shard)) :
    (c.selectedRows data parity).map Prod.fst = c.selectedSystem data parity := by
  unfold Coder.selectedRows Coder.selectedSystem
  rw [List.map_map]
  rfl

theorem ReconstructData_eq (c : Coder) (data parity : List (Option Shard))
    (h : ¬ (presentShards parity).length < (missingIndices data).length) :
    c.ReconstructData data parity =
      match gaussJordan (missingIndices data).length 0 [] (c.selectedRows data parity) with
      | .error err => .error err
      | .ok xs => .ok (fillMissing data xs) := by
  unfold Coder.ReconstructData Coder.selectedRows
  simp only
  rw [if_neg h]

/-- The system that `ReconstructData` builds satisfies the invariant of the
elimination at column 0. -/
theorem ElimInv_initial (c : Coder) (n : Nat) (data : List Shard)
    (erased parity : List (Option Shard)) (hn : ∀ s ∈ data, s.length = n)
    (he : ErasedFrom erased data) (hp : ErasedFrom parity (c.GenerateParity data))
    (hcount : erased.countP (·.isNone) ≤ parity.countP (·.isSome)) :
    ElimInv (missingIndices erased).length n (missingShards erased data) 0 []
      (c.selectedRows erased parity) := by
  have h1 : (missingIndices erased).length = erased.countP (·.isNone) := by
    unfold missingIndices
    rw [List.length_map]
    exact enumFrom_filter_isNone_length erased 0
  have h2 : (presentShards parity).length = parity.countP (·.isSome) :=
    enumFrom_filterMap_length parity 0
  have htake : ((presentShards parity).take (missingIndices erased).length).length =
      (missingIndices erased).length := by
    rw [List.length_take, h1, h2]
    exact Nat.min_eq_left hcount
  refine ⟨rfl, ?_, fun row hrow => (by cases hrow), ?_, fun i row hi => (by simp at hi),
    fun row _ j hj => absurd hj (Nat.not_lt_zero j)⟩
  · unfold Coder.selectedRows
    rw [List.length_map, htake, Nat.zero_add]
  · intro row hrow
    unfold Coder.selectedRows at hrow
    obtain ⟨p, hp1, rfl⟩ := List.mem_map.1 hrow
    have hp2 := List.mem_of_mem_take hp1
    have hne : (missingIndices erased).length ≠ 0 := by
      intro h
      rw [h, List.take_zero] at hp1
      cases hp1
    have h0 : (data.headD []).length = n := by
      cases data with
      | nil =>
        rw [erasedFrom_nil_right erased he] at hne
        exact absurd rfl hne
      | cons s ss => exact hn s (List.mem_cons_self _ _)
    have hpar : p.2 = c.addColumns p.1 data.enum (List.replicate (data.headD []).length 0) := by
      unfold Coder.GenerateParity at hp
      rw [List.range_eq_range'] at hp
      exact present_erased_range
        (fun r => c.addColumns r data.enum (List.replicate (data.headD []).length 0))
        parity 0 c.numParity hp p hp2
    show RowOK _ n _ (_, c.addColumns p.1 (presentShards erased) p.2)
    rw [hpar]
    exact reconstructRow_ok c n data erased hn h0 he p.1

/-- The reconstruction of an erased list of shards restores the data exactly when
the selected system is not singular, and fails with "zero divisor" exactly when it
is singular. -/
theorem ReconstructData_erased_iff (c : Coder) (n : Nat) (data : List Shard)
    (erased parity : List (Option Shard)) (hn : ∀ s ∈ data, s.length = n)
    (hu : ∀ s ∈ data, isU16s s) (he : ErasedFrom erased data)
    (hp : ErasedFrom parity (c.GenerateParity data))
    (hcount : erased.countP (·.isNone) ≤ parity.countP (·.isSome)) :
    (c.ReconstructData erased parity = .ok (data.map some) ↔
      ¬ Singular (missingIndices erased).length (c.selectedSystem erased parity)) ∧
    (c.ReconstructData erased parity = .error "zero divisor" ↔
      Singular (missingIndices erased).length (c.selectedSystem erased parity)) := by
  have h1 : (missingIndices erased).length = erased.countP (·.isNone) := by
    unfold missingIndices
    rw [List.length_map]
    exact enumFrom_filter_isNone_length erased 0
  have h2 : (presentShards parity).length = parity.countP (·.isSome) :=
    enumFrom_filterMap_length parity 0
  have hd : ∀ s ∈ missingShards erased data, isU16s s :=
    fun s hs => hu s (missingShards_mem erased data s hs)
  have hinv := ElimInv_initial c n data erased parity hn he hp hcount
  have hlen : (c.selectedRows erased parity).length ≤ (missingIndices erased).length := by
    have := hinv.2.1
    omega
  obtain ⟨g1, g2⟩ := gaussJordan_singular _ n _ hd (missingIndices erased).length 0 []
    (c.selectedRows erased parity) hlen hinv
  rw [List.nil_append, selectedRows_fst] at g1 g2
  have hor := ReconstructData_erased c n data erased parity hn hu he hp hcount
  have heq := ReconstructData_eq c erased parity (by rw [h1, h2]; exact Nat.not_lt.2 hcount)
  cases hg : gaussJordan (missingIndices erased).length 0 [] (c.selectedRows erased parity) with
  | error err =>
    rw [hg] at heq
    dsimp only at heq
    have hzd : c.ReconstructData erased parity = .error "zero divisor" := by
      rcases hor with h | h
      · rw [heq] at h
        cases h
      · exact h
    have herr : err = "zero divisor" := by
      rw [heq] at hzd
      injection hzd
    rw [herr] at hg
    have hs := g1 hg
    refine ⟨⟨fun h => ?_, fun h => absurd hs h⟩, ⟨fun _ => hs, fun _ => hzd⟩⟩
    rw [hzd] at h
    cases h
  | ok out =>
    rw [hg] at heq
    dsimp only at heq
    have hns := g2 out hg
    have hok : c.ReconstructData erased parity = .ok (data.map some) := by
      rcases hor with h | h
      · exact h
      · rw [heq] at h
        cases h
    refine ⟨⟨fun _ => hns, fun _ => hok⟩, ⟨fun h => ?_, fun h => absurd h hns⟩⟩
    rw [hok] at h
    cases h

/-- Claim C6, amended: for every coder `NewCoder(numData, numParity)`, every list of
`numData` data shards of equal length, every set of `m` erased data shards and every
set of erased parity shards that leaves at least `m` parity shards, `ReconstructData`
returns no error with the data equal to the original data if and only if the square
system of the first `m` present parity rows and the `m` missing columns of the
generator matrix is not singular, and it returns the error "zero divisor" if and
only if that system is singular. -/
theorem ReconstructData_iff_nonsingular (exponent : Nat → Nat)
    (numData numParity n : Nat) (data : List Shard) (dataMask parityMask : List Bool)
    (hdata : data.length = numData) (hn : ∀ s ∈ data, s.length = n)
    (hu : ∀ s ∈ data, isU16s s) (hD : dataMask.length = numData)
    (hP : parityMask.length = numParity)
    (hcount : dataMask.count true ≤ parityMask.count false) :
    ((NewCoder exponent numData numParity).ReconstructData (eraseShards dataMask data)
        (eraseShards parityMask ((NewCoder exponent numData numParity).GenerateParity data)) =
      .ok (data.map some) ↔
      ¬ Singular (dataMask.count true)
        ((NewCoder exponent numData numParity).selectedSystem (eraseShards dataMask data)
          (eraseShards parityMask
            ((NewCoder exponent numData numParity).GenerateParity data)))) ∧
    ((NewCoder exponent numData numParity).ReconstructData (eraseShards dataMask data)
        (eraseShards parityMask ((NewCoder exponent numData numParity).GenerateParity data)) =
      .error "zero divisor" ↔
      Singular (dataMask.count true)
        ((NewCoder exponent numData numParity).selectedSystem (eraseShards dataMask data)
          (eraseShards parityMask
            ((NewCoder exponent numData numParity).GenerateParity data)))) := by
  have hD1 : dataMask.length = data.length := by rw [hD, hdata]
  have hP1 : parityMask.length =
      ((NewCoder exponent numData numParity).GenerateParity data).length := by
    rw [GenerateParity_length, hP]
    rfl
  have hm : (missingIndices (eraseShards dataMask data)).length = dataMask.count true := by
    unfold missingIndices
    rw [List.length_map]
    exact (enumFrom_filter_isNone_length _ 0).trans
      (countP_isNone_eraseShards dataMask data hD1)
  have h := ReconstructData_erased_iff (NewCoder exponent numData numParity) n data
    (eraseShards dataMask data)
    (eraseShards parityMask ((NewCoder exponent numData numParity).GenerateParity data))
    hn hu (erasedFrom_eraseShards dataMask data hD1)
    (erasedFrom_eraseShards parityMask _ hP1)
    (by
      rw [countP_isNone_eraseShards dataMask data hD1,
        countP_isSome_eraseShards parityMask _ hP1]
      exact hcount)
  rw [hm] at h
  exact h

set_option maxRecDepth 100000 in
/-- Claim C6, amended, at the inputs of the two tests. `TestCoderReconstructData`:
data shards 0, 2 and 4 erased, every parity shard present.
`TestCoderReconstructDataMissingParity`: data shards 1 and 4 and parity shard 0
erased. In both the data is restored, so the selected system is not singular. -/
theorem ReconstructData_iff_nonsingular_witness :
    (testCoder.ReconstructData (eraseShards [true, false, true, false, true] testData)
        (eraseShards [false, false, false] (testCoder.GenerateParity testData)) =
      .ok (testData.map some) ∧
      ¬ Singular 3
        (testCoder.selectedSystem (eraseShards [true, false, true, false, true] testData)
          (eraseShards [false, false, false] (testCoder.GenerateParity testData)))) ∧
    (testCoder.ReconstructData (eraseShards [false, true, false, false, true] testData)
        (eraseShards [true, false, false] (testCoder.GenerateParity testData)) =
      .ok (testData.map some) ∧
      ¬ Singular 2
        (testCoder.selectedSystem (eraseShards [false, true, false, false, true] testData)
          (eraseShards [true, false, false] (testCoder.GenerateParity testData)))) :=
  ⟨⟨rfl, (ReconstructData_iff_nonsingular (fun r => r + 1) 5 3 2 testData
      [true, false, true, false, true] [false, false, false] rfl (by decide)
      (by unfold isU16s; decide) rfl rfl (by decide)).1.1 rfl⟩,
    ⟨rfl, (ReconstructData_iff_nonsingular (fun r => r + 1) 5 3 2 testData
      [false, true, false, false, true] [true, false, false] rfl (by decide)
      (by unfold isU16s; decide) rfl rfl (by decide)).1.1 rfl⟩⟩

end Gopar
